import Mathlib

/-!
# trongrid-cli.js : a shallow embedding of `src/mod.js`

The program is an interactive wallet manager.  The embedding follows the
source function by function:

* JavaScript numbers are `JSNumber`, the IEEE 754 doubles, with the
  comparison rules of the language (every comparison with NaN is false) and
  rounded arithmetic;
* JavaScript strings are lists of UTF-16 code units (`JSString`);
* code that can throw returns `Except JSError _`;
* interactive prompts are fed from explicit lists of operator entries;
* the module-level `tronWeb` object is an explicit `ChainClient` state.
-/

set_option exponentiation.threshold 5000

namespace TronGridCli

/-! ## JavaScript numbers and the amount validator of `sendToken` -/

/-- A JavaScript number: an IEEE 754 double.  Every finite double is a
multiple of the least positive one, `2^-1074` (`Number.MIN_VALUE`), and a
finite number is kept as its sign and its magnitude in that unit:
`fin false (10 * 2^1074)` is the number 10, `fin false 1` is
`Number.MIN_VALUE` and `fin true 0` is `-0`.  The doubles are the values with
`isDouble`; the operations round to them as the standard prescribes. -/
inductive JSNumber where
  | nan : JSNumber
  | inf (negative : Bool) : JSNumber
  | fin (negative : Bool) (units : Nat) : JSNumber
  deriving DecidableEq

namespace JSNumber

/-- The position of the leading binary digit of `n`, by bisection on the
exponent: `2^(log2 n) ≤ n < 2^(log2 n + 1)` for `1 ≤ n < 2^4096`. -/
def log2 (n : Nat) : Nat :=
  [2048, 1024, 512, 256, 128, 64, 32, 16, 8, 4, 2, 1].foldl
    (fun e b => if 2 ^ (e + b) ≤ n then e + b else e) 0

/-- The integer nearest to `p / q`, the even one of two that are equally near. -/
def roundHalfEven (p q : Nat) : Nat :=
  if 2 * (p % q) < q then p / q
  else if q < 2 * (p % q) then p / q + 1
  else if p / q % 2 = 0 then p / q
  else p / q + 1

/-- The rounding `roundTiesToEven` of IEEE 754 with an unbounded exponent, on
magnitudes in the unit `2^-1074`: of `p / q` units the 53 leading binary
digits are kept (below `2^53` units, where the doubles are the whole numbers
of units, the integer part). -/
def roundUnits (p q : Nat) : Nat :=
  roundHalfEven p (q * 2 ^ (log2 (p / q) - 52)) * 2 ^ (log2 (p / q) - 52)

/-- The double for the magnitude `p / q` units with the given sign: the
rounded magnitude, or an infinity when that reaches `2^1024` (`2^2098`
units). -/
def ofRatio (negative : Bool) (p q : Nat) : JSNumber :=
  if 2 ^ 2098 * q ≤ p then inf negative
  else if roundUnits p q < 2 ^ 2098 then fin negative (roundUnits p q)
  else inf negative

/-- The double for a natural number. -/
def ofNat (n : Nat) : JSNumber := ofRatio false (n * 2 ^ 1074) 1

/-- The double for the decimal `digits × 10^exponent` with the given sign:
the value of a number literal. -/
def ofDecimal (negative : Bool) (digits : Nat) (exponent : Int) : JSNumber :=
  if 0 ≤ exponent then ofRatio negative (digits * 10 ^ exponent.toNat * 2 ^ 1074) 1
  else ofRatio negative (digits * 2 ^ 1074) (10 ^ (-exponent).toNat)

/-- Whether the value is a double: a finite magnitude is below `2^1024` and
has at most 53 significant binary digits. -/
def isDouble : JSNumber → Bool
  | fin _ u => decide (u < 2 ^ 2098) && decide (u % 2 ^ (log2 u - 52) = 0)
  | _ => true

/-- A finite number as an integer number of units. -/
def signed (negative : Bool) (units : Nat) : Int :=
  if negative then -(units : Int) else units

/-- The relational operator `a > b` on numbers. -/
def gt : JSNumber → JSNumber → Bool
  | nan, _ => false
  | _, nan => false
  | inf false, inf false => false
  | inf false, _ => true
  | _, inf false => false
  | inf true, _ => false
  | fin _ _, inf true => true
  | fin na a, fin nb b => decide (signed nb b < signed na a)

/-- The relational operator `a <= b` on numbers. -/
def le : JSNumber → JSNumber → Bool
  | nan, _ => false
  | _, nan => false
  | _, inf false => true
  | inf false, _ => false
  | inf true, _ => true
  | fin _ _, inf true => false
  | fin na a, fin nb b => decide (signed na a ≤ signed nb b)

/-- The number literal `0`. -/
def zero : JSNumber := fin false 0

/-- The constant `Number.MIN_VALUE`, the least positive double. -/
def minValue : JSNumber := fin false 1

/-- The number literal `0.01`. -/
def hundredth : JSNumber := ofDecimal false 1 (-2)

/-- The operator `a + b` on numbers. -/
def add : JSNumber → JSNumber → JSNumber
  | nan, _ => nan
  | _, nan => nan
  | inf a, inf b => if a = b then inf a else nan
  | inf a, fin _ _ => inf a
  | fin _ _, inf b => inf b
  | fin na a, fin nb b =>
    if signed na a + signed nb b = 0 then fin (na && nb) 0
    else ofRatio (decide (signed na a + signed nb b < 0)) (signed na a + signed nb b).natAbs 1

/-- The operator `a / b` on numbers. -/
def div : JSNumber → JSNumber → JSNumber
  | nan, _ => nan
  | _, nan => nan
  | inf _, inf _ => nan
  | inf a, fin nb _ => inf (a != nb)
  | fin na _, inf b => fin (na != b) 0
  | fin na a, fin nb b =>
    if b = 0 then (if a = 0 then nan else inf (na != nb))
    else ofRatio (na != nb) (a * 2 ^ 1074) b

/-- Whether `JSON.parse` reads the number back from what `JSON.stringify`
writes for it: it is finite (an infinity is written as `null`) and not `-0`
(which is written as `0`). -/
def roundTrips : JSNumber → Bool
  | fin negative u => !(negative && decide (u = 0))
  | _ => false

/-- The test `x === 0`. -/
def isZero : JSNumber → Bool
  | fin _ u => decide (u = 0)
  | _ => false

end JSNumber

/-- What an inquirer `validate` callback returns: `true`, or a message that is
shown before the prompt is repeated. -/
inductive Validation (μ : Type) where
  | accept : Validation μ
  | reject (message : μ) : Validation μ
  deriving DecidableEq

/-- The two messages of the amount validator.  The first one interpolates the
balance, which is kept as the value itself. -/
inductive AmountMessage where
  | mustBeAtMost (balance : JSNumber) : AmountMessage
  | mustBePositive : AmountMessage
  deriving DecidableEq

/-- The `validate` callback of the `amount` prompt in `sendToken`
(mod.js 268-276); `balance` is the captured balance as a number. -/
def validateAmount (balance value : JSNumber) : Validation AmountMessage :=
  if value.gt balance then
    Validation.reject (AmountMessage.mustBeAtMost balance)
  else if value.le JSNumber.zero then
    Validation.reject AmountMessage.mustBePositive
  else
    Validation.accept

/-- The amount prompt: inquirer shows the prompt again after every rejected
entry and resolves with the first accepted one.  `none` when the operator's
entries run out before one is accepted (the prompt is still waiting). -/
def promptAmount (balance : JSNumber) : List JSNumber → Option (JSNumber × List JSNumber)
  | [] => none
  | v :: rest =>
    match validateAmount balance v with
    | Validation.accept => some (v, rest)
    | Validation.reject _ => promptAmount balance rest

/-! ## Password entry -/

/-- JavaScript strings: sequences of UTF-16 code units. -/
abbrev JSString := List Nat

/-- The code units of a text literal (astral characters become surrogate
pairs). -/
def js (s : String) : JSString :=
  s.data.flatMap fun c =>
    if c.toNat < 0x10000 then [c.toNat]
    else [0xD800 + (c.toNat - 0x10000) / 0x400, 0xDC00 + (c.toNat - 0x10000) % 0x400]

/-- The function `askForPassword` (mod.js 56-73).  Each call prompts for a
password and its confirmation, here the next pair of `entries`; on a mismatch
it calls itself.  The result is the returned password together with the
entries not yet consumed; `none` when the entries run out (the prompt is
still waiting for the operator). -/
def askForPassword : List (JSString × JSString) → Option (JSString × List (JSString × JSString))
  | [] => none
  | (password, passwordConfirmation) :: rest =>
    if password ≠ passwordConfirmation then askForPassword rest
    else some (password, rest)

/-! ## JSON values, `JSON.parse` and `JSON.stringify(value, null, 4)` -/

/-- What a thrown JavaScript exception is, as far as the program tells them
apart (it never inspects one). -/
inductive JSError where
  | syntaxError : JSError
  | typeError : JSError
  | uriError : JSError
  | malformedUtf8 : JSError
  | fileSystem : JSError
  | invalidPrivateKey : JSError
  | invalidAddress : JSError
  | chain : JSError
  deriving DecidableEq, Repr

/-- The values `JSON.parse` can return.  An object is the list of its own
properties in the order the language enumerates them. -/
inductive JSON where
  | null : JSON
  | bool (b : Bool) : JSON
  | num (x : JSNumber) : JSON
  | str (s : JSString) : JSON
  | arr (items : List JSON) : JSON
  | obj (props : List (JSString × JSON)) : JSON

namespace JSON

/-- JSON white space: tab, line feed, carriage return, space. -/
def isWs (c : Nat) : Bool := c = 0x09 || c = 0x0A || c = 0x0D || c = 0x20

/-- Drop leading JSON white space. -/
def skipWs : List Nat → List Nat
  | [] => []
  | c :: cs => if isWs c then skipWs cs else c :: cs

/-- A decimal digit. -/
def isDigit (c : Nat) : Bool := decide (0x30 ≤ c) && decide (c ≤ 0x39)

/-- The value of a hexadecimal digit (either case). -/
def hexVal (c : Nat) : Option Nat :=
  if 0x30 ≤ c ∧ c ≤ 0x39 then some (c - 0x30)
  else if 0x41 ≤ c ∧ c ≤ 0x46 then some (c - 0x41 + 10)
  else if 0x61 ≤ c ∧ c ≤ 0x66 then some (c - 0x61 + 10)
  else none

/-- The code unit a single-character escape stands for. -/
def unescape (e : Nat) : Option Nat :=
  if e = 0x22 then some 0x22          -- quotation mark
  else if e = 0x5C then some 0x5C     -- reverse solidus
  else if e = 0x2F then some 0x2F     -- solidus
  else if e = 0x62 then some 0x08     -- backspace
  else if e = 0x66 then some 0x0C     -- form feed
  else if e = 0x6E then some 0x0A     -- line feed
  else if e = 0x72 then some 0x0D     -- carriage return
  else if e = 0x74 then some 0x09     -- tab
  else none

/-- Put `u` in front of the string a parser returned. -/
def consUnit (u : Nat) : Option (JSString × List Nat) → Option (JSString × List Nat)
  | some (s, rest) => some (u :: s, rest)
  | none => none

/-- The characters of a JSON string after its opening quote, up to and
including the closing quote.  Control characters below U+0020 must be
escaped; `\uXXXX` yields the code unit itself. -/
def parseStringBody : List Nat → Option (JSString × List Nat)
  | [] => none
  | c :: cs =>
    if c = 0x22 then some ([], cs)
    else if c = 0x5C then
      match cs with
      | [] => none
      | e :: cs1 =>
        if e = 0x75 then
          match cs1 with
          | h1 :: h2 :: h3 :: h4 :: rest =>
            match hexVal h1, hexVal h2, hexVal h3, hexVal h4 with
            | some a, some b, some c3, some d =>
              consUnit (a * 4096 + b * 256 + c3 * 16 + d) (parseStringBody rest)
            | _, _, _, _ => none
          | _ => none
        else
          match unescape e with
          | some u => consUnit u (parseStringBody cs1)
          | none => none
    else if c < 0x20 then none
    else consUnit c (parseStringBody cs)

/-- Take the leading decimal digits. -/
def takeDigits : List Nat → List Nat × List Nat
  | [] => ([], [])
  | c :: cs =>
    if isDigit c then ((takeDigits cs).1.cons c, (takeDigits cs).2) else ([], c :: cs)

/-- The integer part of a number literal: `0`, or a non-zero digit followed by
digits. -/
def parseInt : List Nat → Option (List Nat × List Nat)
  | [] => none
  | c :: cs =>
    if c = 0x30 then some ([c], cs)
    else if isDigit c then some (c :: (takeDigits cs).1, (takeDigits cs).2)
    else none

/-- The optional fraction of a number literal: a dot and at least one digit;
the result holds the digits. -/
def parseFrac : List Nat → Option (List Nat × List Nat)
  | [] => some ([], [])
  | c :: cs =>
    if c = 0x2E then
      match takeDigits cs with
      | ([], _) => none
      | (ds, rest) => some (ds, rest)
    else some ([], c :: cs)

/-- The number a decimal numeral denotes. -/
def indexValue (k : JSString) : Nat :=
  k.foldl (fun acc c => acc * 10 + (c - 0x30)) 0

/-- The optional exponent of a number literal: `e` or `E`, an optional sign
and at least one digit; the result is the exponent, 0 when there is none. -/
def parseExp : List Nat → Option (Int × List Nat)
  | [] => some (0, [])
  | c :: cs =>
    if c = 0x65 ∨ c = 0x45 then
      match cs with
      | [] => none
      | s :: cs1 =>
        if s = 0x2B then
          match takeDigits cs1 with
          | ([], _) => none
          | (ds, rest) => some ((indexValue ds : Int), rest)
        else if s = 0x2D then
          match takeDigits cs1 with
          | ([], _) => none
          | (ds, rest) => some (-(indexValue ds : Int), rest)
        else
          match takeDigits (s :: cs1) with
          | ([], _) => none
          | (ds, rest) => some ((indexValue ds : Int), rest)
    else some (0, c :: cs)

/-- A number literal: an optional minus sign, the integer part, an optional
fraction and an optional exponent.  Its value is the double nearest to the
decimal it denotes (`-0` for a zero with a minus sign, an infinity when the
decimal is out of range). -/
def parseNumber (input : List Nat) : Option (JSNumber × List Nat) :=
  let (negative, afterSign) :=
    match input with
    | c :: cs => if c = 0x2D then (true, cs) else (false, c :: cs)
    | [] => (false, [])
  match parseInt afterSign with
  | none => none
  | some (int, r1) =>
    match parseFrac r1 with
    | none => none
    | some (frac, r2) =>
      match parseExp r2 with
      | none => none
      | some (exp, r3) =>
        some (JSNumber.ofDecimal negative (indexValue (int ++ frac)) (exp - frac.length), r3)

/-- Whether a property key is an array index: the canonical decimal numeral of
an integer below `2^32 - 1`. -/
def isArrayIndex (k : JSString) : Bool :=
  match k with
  | [] => false
  | c :: cs =>
    (c :: cs).all isDigit && (decide (c ≠ 0x30) || cs.isEmpty) &&
      decide (indexValue (c :: cs) < 4294967295)

/-- Insert a new array-index key at its place among the leading array-index
keys (ascending numeric order); `props` does not contain the key. -/
def insertIndexKey (k : JSString) (v : JSON) :
    List (JSString × JSON) → List (JSString × JSON)
  | [] => [(k, v)]
  | (k1, v1) :: ps =>
    if isArrayIndex k1 && decide (indexValue k1 < indexValue k) then
      (k1, v1) :: insertIndexKey k v ps
    else (k, v) :: (k1, v1) :: ps

/-- Replace the value of an existing key, keeping its position. -/
def replaceValue (k : JSString) (v : JSON) :
    List (JSString × JSON) → List (JSString × JSON)
  | [] => []
  | (k1, v1) :: ps =>
    if k1 = k then (k1, v) :: ps else (k1, v1) :: replaceValue k v ps

/-- The effect of `CreateDataProperty(object, k, v)` on the property list: an
existing key keeps its position and takes the new value; a new array-index
key goes to its place among the array indices; any other new key is appended. -/
def defineProp (props : List (JSString × JSON)) (k : JSString) (v : JSON) :
    List (JSString × JSON) :=
  if (props.map Prod.fst).contains k then replaceValue k v props
  else if isArrayIndex k then insertIndexKey k v props
  else props ++ [(k, v)]

/-- Expect the literal `word` at the head of the input. -/
def expectWord (word : List Nat) (input : List Nat) : Option (List Nat) :=
  if word.isPrefixOf input then some (input.drop word.length) else none

mutual
/-- One JSON value, after optional white space; `fuel` bounds the recursion. -/
def parseValue : Nat → List Nat → Option (JSON × List Nat)
  | 0, _ => none
  | fuel + 1, input =>
    match skipWs input with
    | [] => none
    | c :: cs =>
      if c = 0x7B then
        match skipWs cs with
        | [] => none
        | d :: ds => if d = 0x7D then some (obj [], ds) else parseMembers fuel [] (d :: ds)
      else if c = 0x5B then
        match skipWs cs with
        | [] => none
        | d :: ds => if d = 0x5D then some (arr [], ds) else parseElements fuel [] (d :: ds)
      else if c = 0x22 then
        match parseStringBody cs with
        | some (s, rest) => some (str s, rest)
        | none => none
      else if c = 0x74 then
        match expectWord [0x72, 0x75, 0x65] cs with
        | some rest => some (bool true, rest)
        | none => none
      else if c = 0x66 then
        match expectWord [0x61, 0x6C, 0x73, 0x65] cs with
        | some rest => some (bool false, rest)
        | none => none
      else if c = 0x6E then
        match expectWord [0x75, 0x6C, 0x6C] cs with
        | some rest => some (null, rest)
        | none => none
      else
        match parseNumber (c :: cs) with
        | some (x, rest) => some (num x, rest)
        | none => none
/-- The elements of a non-empty array after its opening bracket, up to and
including the closing bracket; `acc` holds the elements read so far. -/
def parseElements : Nat → List JSON → List Nat → Option (JSON × List Nat)
  | 0, _, _ => none
  | fuel + 1, acc, input =>
    match parseValue fuel input with
    | none => none
    | some (v, rest) =>
      match skipWs rest with
      | [] => none
      | c :: cs =>
        if c = 0x2C then parseElements fuel (acc ++ [v]) cs
        else if c = 0x5D then some (arr (acc ++ [v]), cs)
        else none
/-- The members of a non-empty object after its opening brace, up to and
including the closing brace; `acc` holds the properties defined so far. -/
def parseMembers : Nat → List (JSString × JSON) → List Nat → Option (JSON × List Nat)
  | 0, _, _ => none
  | fuel + 1, acc, input =>
    match skipWs input with
    | [] => none
    | q :: cs =>
      if q = 0x22 then
        match parseStringBody cs with
        | none => none
        | some (k, afterKey) =>
          match skipWs afterKey with
          | [] => none
          | colon :: afterColon =>
            if colon = 0x3A then
              match parseValue fuel afterColon with
              | none => none
              | some (v, rest) =>
                match skipWs rest with
                | [] => none
                | c :: cs1 =>
                  if c = 0x2C then parseMembers fuel (defineProp acc k v) cs1
                  else if c = 0x7D then some (obj (defineProp acc k v), cs1)
                  else none
            else none
      else none
end

/-- The function `JSON.parse(text)`: one value, then only white space;
anything else is a `SyntaxError`. -/
def parse (text : JSString) : Except JSError JSON :=
  match parseValue (2 * text.length + 2) text with
  | some (v, rest) =>
    match skipWs rest with
    | [] => Except.ok v
    | _ :: _ => Except.error JSError.syntaxError
  | none => Except.error JSError.syntaxError

/-- A lower-case hexadecimal digit. -/
def hexDigit (n : Nat) : Nat := if n < 10 then 0x30 + n else 0x61 + (n - 10)

/-- The escape `\uXXXX` of a code unit. -/
def unicodeEscape (u : Nat) : List Nat :=
  [0x5C, 0x75, hexDigit (u / 4096 % 16), hexDigit (u / 256 % 16), hexDigit (u / 16 % 16),
    hexDigit (u % 16)]

/-- A leading (high) surrogate. -/
def isHighSurrogate (u : Nat) : Bool := decide (0xD800 ≤ u) && decide (u ≤ 0xDBFF)

/-- A trailing (low) surrogate. -/
def isLowSurrogate (u : Nat) : Bool := decide (0xDC00 ≤ u) && decide (u ≤ 0xDFFF)

/-- How `QuoteJSONString` writes one code unit that is not part of a
surrogate pair. -/
def quoteUnit (u : Nat) : List Nat :=
  if u = 0x08 then [0x5C, 0x62]
  else if u = 0x09 then [0x5C, 0x74]
  else if u = 0x0A then [0x5C, 0x6E]
  else if u = 0x0C then [0x5C, 0x66]
  else if u = 0x0D then [0x5C, 0x72]
  else if u = 0x22 then [0x5C, 0x22]
  else if u = 0x5C then [0x5C, 0x5C]
  else if u < 0x20 ∨ isHighSurrogate u ∨ isLowSurrogate u then unicodeEscape u
  else [u]

/-- The characters `QuoteJSONString` puts between the quotes: the string is
read by code points, so a surrogate pair is written as it is and a lone
surrogate is escaped. -/
def quoteUnits : List Nat → List Nat
  | [] => []
  | u :: us =>
    if isHighSurrogate u then
      match us with
      | [] => quoteUnit u
      | l :: us1 =>
        if isLowSurrogate l then u :: l :: quoteUnits us1
        else quoteUnit u ++ quoteUnits (l :: us1)
    else quoteUnit u ++ quoteUnits us

/-- The operation `QuoteJSONString`. -/
def quote (s : JSString) : List Nat := 0x22 :: (quoteUnits s ++ [0x22])

/-- A line break followed by `level` times the gap of four spaces. -/
def newline (level : Nat) : List Nat := 0x0A :: List.replicate (4 * level) 0x20

/-- The position of the leading decimal digit of `n`, by bisection on the
exponent: `10^(log10 n) ≤ n < 10^(log10 n + 1)` for `1 ≤ n < 10^512`. -/
def log10 (n : Nat) : Nat :=
  [256, 128, 64, 32, 16, 8, 4, 2, 1].foldl (fun e b => if 10 ^ (e + b) ≤ n then e + b else e) 0

/-- The decimal exponent `n` of the positive magnitude of `u` units:
`10^(n-1) ≤ u × 2^-1074 < 10^n`. -/
def decimalExponent (u : Nat) : Int :=
  if 2 ^ 1074 ≤ u then (log10 (u / 2 ^ 1074) : Int) + 1
  else -(log10 ((2 ^ 1074 - 1) / u) : Int)

/-- The decimal digits of `n`, the most significant first; `fuel` bounds their
number. -/
def digitsLoop : Nat → Nat → List Nat → List Nat
  | 0, _, acc => acc
  | fuel + 1, n, acc =>
    if n < 10 then (0x30 + n) :: acc
    else digitsLoop fuel (n / 10) ((0x30 + n % 10) :: acc)

/-- The decimal numeral of `n`. -/
def digitsOf (n : Nat) : List Nat := digitsLoop (n + 1) n []

/-- The numeral without its trailing zeros. -/
def stripZeros (digits : List Nat) : List Nat :=
  (digits.reverse.dropWhile fun c => c = 0x30).reverse

/-- The candidates of `Number::toString` with `k` digits for the magnitude of
`u` units with decimal exponent `n`: the two integers `s` next to
`u × 2^-1074 / 10^(n-k)`, the nearer one first (of two equally near ones the
even one first).  The result is the first one whose decimal `s × 10^(n-k)` has
the number itself as its value, with the exponent `n - k`. -/
def shortestAt (u : Nat) (n : Int) (k : Nat) : Option (Nat × Int) :=
  let p := if 0 ≤ n - k then u else u * 10 ^ (k - n).toNat
  let q := if 0 ≤ n - k then 2 ^ 1074 * 10 ^ (n - k).toNat else 2 ^ 1074
  let near := JSNumber.roundHalfEven p q
  let far := if near = p / q then p / q + 1 else p / q
  if JSNumber.ofDecimal false near (n - k) = JSNumber.fin false u then some (near, n - k)
  else if JSNumber.ofDecimal false far (n - k) = JSNumber.fin false u then some (far, n - k)
  else none

/-- The text of a decimal with the digits `digits` and the decimal point
after `n` of them, as `Number::toString` lays it out: plain digits up to
`10^21`, a leading `0.` down to `10^-6`, the exponent form otherwise. -/
def formatDecimal (digits : List Nat) (n : Int) : List Nat :=
  if (digits.length : Int) ≤ n ∧ n ≤ 21 then
    digits ++ List.replicate (n.toNat - digits.length) 0x30
  else if 0 < n ∧ n ≤ 21 then
    digits.take n.toNat ++ 0x2E :: digits.drop n.toNat
  else if -6 < n ∧ n ≤ 0 then
    0x30 :: 0x2E :: (List.replicate (-n).toNat 0x30 ++ digits)
  else
    match digits with
    | [] => []
    | [d] => d :: 0x65 :: (if n - 1 < 0 then 0x2D else 0x2B) :: digitsOf (n - 1).natAbs
    | d :: ds =>
      d :: 0x2E :: (ds ++ 0x65 :: (if n - 1 < 0 then 0x2D else 0x2B) :: digitsOf (n - 1).natAbs)

/-- The operation `Number::toString` on a positive finite magnitude: the
decimal with the fewest digits whose value is the number (an exact decimal of
a double has fewer than 1400 digits). -/
def positiveToString (u : Nat) : List Nat :=
  match (List.range 1400).findSome? fun i => shortestAt u (decimalExponent u) (i + 1) with
  | some (s, scale) => formatDecimal (stripZeros (digitsOf s)) (scale + (digitsOf s).length)
  | none => []

/-- The operation `Number::toString` (radix 10). -/
def numberToString : JSNumber → List Nat
  | JSNumber.nan => [0x4E, 0x61, 0x4E]
  | JSNumber.inf false => [0x49, 0x6E, 0x66, 0x69, 0x6E, 0x69, 0x74, 0x79]
  | JSNumber.inf true => [0x2D, 0x49, 0x6E, 0x66, 0x69, 0x6E, 0x69, 0x74, 0x79]
  | JSNumber.fin negative u =>
    if u = 0 then [0x30]
    else if negative then 0x2D :: positiveToString u
    else positiveToString u

mutual
/-- The function `JSON.stringify(value, null, 4)` at nesting depth `level`
(`SerializeJSONProperty` with a gap of four spaces); a number that is not
finite is written as `null`. -/
def stringifyAt : Nat → JSON → List Nat
  | _, null => [0x6E, 0x75, 0x6C, 0x6C]
  | _, bool true => [0x74, 0x72, 0x75, 0x65]
  | _, bool false => [0x66, 0x61, 0x6C, 0x73, 0x65]
  | _, num (JSNumber.fin negative units) => numberToString (JSNumber.fin negative units)
  | _, num _ => [0x6E, 0x75, 0x6C, 0x6C]
  | _, str s => quote s
  | _, arr [] => [0x5B, 0x5D]
  | level, arr (v :: vs) =>
    0x5B :: (newline (level + 1) ++ stringifyAt (level + 1) v ++ stringifyItems level vs)
  | _, obj [] => [0x7B, 0x7D]
  | level, obj ((k, v) :: ps) =>
    0x7B :: (newline (level + 1) ++ quote k ++ [0x3A, 0x20] ++ stringifyAt (level + 1) v ++
      stringifyProps level ps)
/-- The remaining elements of an array, each after a comma and a line break,
then the closing bracket on a line of its own. -/
def stringifyItems : Nat → List JSON → List Nat
  | level, [] => newline level ++ [0x5D]
  | level, v :: vs =>
    0x2C :: (newline (level + 1) ++ stringifyAt (level + 1) v ++ stringifyItems level vs)
/-- The remaining properties of an object, then the closing brace. -/
def stringifyProps : Nat → List (JSString × JSON) → List Nat
  | level, [] => newline level ++ [0x7D]
  | level, (k, v) :: ps =>
    0x2C :: (newline (level + 1) ++ quote k ++ [0x3A, 0x20] ++ stringifyAt (level + 1) v ++
      stringifyProps level ps)
end

/-- The function `JSON.stringify(value, null, 4)`. -/
def stringify (v : JSON) : JSString := stringifyAt 0 v

/-- Defining the properties of a list one after the other. -/
def defineAll (acc : List (JSString × JSON)) : List (JSString × JSON) → List (JSString × JSON)
  | [] => acc
  | (k, v) :: ps => defineAll (defineProp acc k v) ps

/-- Whether the key `k1` may stand before the key `k2` among the properties
of an object: they differ, and when `k2` is an array index, `k1` is a smaller
array index. -/
def keyBefore (k1 k2 : JSString) : Bool :=
  decide (k1 ≠ k2) &&
    (!isArrayIndex k2 || (isArrayIndex k1 && decide (indexValue k1 < indexValue k2)))

/-- Whether keys are listed in the order in which the language enumerates
the properties of an object: no key twice, array indices first and
ascending, the other keys after them. -/
def keysInOrder (keys : List JSString) : Bool :=
  decide (keys.Pairwise fun k1 k2 => keyBefore k1 k2 = true)

mutual
/-- A value that `JSON.parse` reads back from what `JSON.stringify` writes
for it: the properties of every object are in enumeration order, and every
number is a double that is finite and not `-0`. -/
def plain : JSON → Bool
  | null => true
  | bool _ => true
  | num x => x.isDouble && x.roundTrips
  | str _ => true
  | arr vs => plainItems vs
  | obj ps => keysInOrder (ps.map Prod.fst) && plainProps ps
/-- Every element is plain. -/
def plainItems : List JSON → Bool
  | [] => true
  | v :: vs => plain v && plainItems vs
/-- Every property value is plain. -/
def plainProps : List (JSString × JSON) → Bool
  | [] => true
  | (_, v) :: ps => plain v && plainProps ps
end

mutual
/-- Every number in the value is finite and not `-0`. -/
def roundTrips : JSON → Bool
  | num x => x.roundTrips
  | arr vs => roundTripsItems vs
  | obj ps => roundTripsProps ps
  | _ => true
/-- Every number in the elements is finite and not `-0`. -/
def roundTripsItems : List JSON → Bool
  | [] => true
  | v :: vs => roundTrips v && roundTripsItems vs
/-- Every number in the property values is finite and not `-0`. -/
def roundTripsProps : List (JSString × JSON) → Bool
  | [] => true
  | (_, v) :: ps => roundTrips v && roundTripsProps ps
end

mutual
/-- The form in which the language holds a value read from JSON: the
properties of every object are in enumeration order, and every number is a
double. -/
def regular : JSON → Bool
  | num x => x.isDouble
  | arr vs => regularItems vs
  | obj ps => keysInOrder (ps.map Prod.fst) && regularProps ps
  | _ => true
/-- Every element is regular. -/
def regularItems : List JSON → Bool
  | [] => true
  | v :: vs => regular v && regularItems vs
/-- Every property value is regular. -/
def regularProps : List (JSString × JSON) → Bool
  | [] => true
  | (_, v) :: ps => regular v && regularProps ps
end

mutual
/-- An amount of fuel with which `parseValue` reads the value back. -/
def need : JSON → Nat
  | arr vs => 1 + needItems vs
  | obj ps => 1 + needProps ps
  | _ => 1
/-- Fuel for the elements of an array. -/
def needItems : List JSON → Nat
  | [] => 0
  | v :: vs => 1 + need v + needItems vs
/-- Fuel for the properties of an object. -/
def needProps : List (JSString × JSON) → Nat
  | [] => 0
  | (_, v) :: ps => 1 + need v + needProps ps
end

end JSON

/-! ## `encryptWithAES` and `decryptWithAES`

`CryptoJS.AES.encrypt(data, password)` with a string password is the
OpenSSL-compatible passphrase scheme: the text is encoded as UTF-8, a random
8-byte salt is drawn, key and IV are derived from password and salt, the text
is padded (PKCS #7) and encrypted in CBC mode, and `toString()` is Base64 of
`Salted__`, the salt and the ciphertext.  The key derivation and the AES block
transformation are the two primitives the embedding takes as given. -/

/-- The primitives of the cipher suite: the key derivation (password bytes and
salt to key and IV) and the block transformation on 16-byte blocks under a
key, in both directions. -/
structure CipherSuite where
  kdf : List Nat → List Nat → List Nat × List Nat
  encryptBlock : List Nat → List Nat → List Nat
  decryptBlock : List Nat → List Nat → List Nat

namespace Crypto

/-- The UTF-8 encoding of one code point. -/
def utf8EncodePoint (cp : Nat) : List Nat :=
  if cp < 0x80 then [cp]
  else if cp < 0x800 then [0xC0 + cp / 64, 0x80 + cp % 64]
  else if cp < 0x10000 then [0xE0 + cp / 4096, 0x80 + cp / 64 % 64, 0x80 + cp % 64]
  else [0xF0 + cp / 262144, 0x80 + cp / 4096 % 64, 0x80 + cp / 64 % 64, 0x80 + cp % 64]

/-- Prepend bytes to an encoder result. -/
def prepend (bytes : List Nat) : Except JSError (List Nat) → Except JSError (List Nat)
  | Except.ok rest => Except.ok (bytes ++ rest)
  | Except.error e => Except.error e

/-- The function `CryptoJS.enc.Utf8.parse`, which is
`unescape(encodeURIComponent(text))` read as bytes: the text is encoded by
code points, and a lone surrogate raises `URIError`. -/
def utf8Parse : JSString → Except JSError (List Nat)
  | [] => Except.ok []
  | u :: us =>
    if JSON.isHighSurrogate u then
      match us with
      | [] => Except.error JSError.uriError
      | l :: us1 =>
        if JSON.isLowSurrogate l then
          prepend (utf8EncodePoint (0x10000 + (u - 0xD800) * 0x400 + (l - 0xDC00)))
            (utf8Parse us1)
        else Except.error JSError.uriError
    else if JSON.isLowSurrogate u then Except.error JSError.uriError
    else prepend (utf8EncodePoint u) (utf8Parse us)

/-- A UTF-8 continuation byte. -/
def isCont (b : Nat) : Bool := decide (0x80 ≤ b) && decide (b ≤ 0xBF)

/-- Prepend code units to a decoder result. -/
def prependUnits (units : List Nat) : Except JSError JSString → Except JSError JSString
  | Except.ok rest => Except.ok (units ++ rest)
  | Except.error e => Except.error e

/-- The first code point of a UTF-8 byte sequence, as UTF-16 code units, and
the bytes after it; `none` when the sequence does not start with a valid
encoding (no overlong forms, no surrogates, nothing above U+10FFFF). -/
def utf8DecodePoint : List Nat → Option (List Nat × List Nat)
  | [] => none
  | b0 :: bs =>
    if b0 < 0x80 then some ([b0], bs)
    else if 0xC2 ≤ b0 ∧ b0 ≤ 0xDF then
      match bs with
      | b1 :: rest =>
        if isCont b1 then some ([(b0 - 0xC0) * 64 + (b1 - 0x80)], rest) else none
      | _ => none
    else if 0xE0 ≤ b0 ∧ b0 ≤ 0xEF then
      match bs with
      | b1 :: b2 :: rest =>
        let cp := (b0 - 0xE0) * 4096 + (b1 - 0x80) * 64 + (b2 - 0x80)
        if isCont b1 ∧ isCont b2 ∧ 0x800 ≤ cp ∧ ¬ (0xD800 ≤ cp ∧ cp ≤ 0xDFFF) then
          some ([cp], rest)
        else none
      | _ => none
    else if 0xF0 ≤ b0 ∧ b0 ≤ 0xF4 then
      match bs with
      | b1 :: b2 :: b3 :: rest =>
        let cp := (b0 - 0xF0) * 262144 + (b1 - 0x80) * 4096 + (b2 - 0x80) * 64 + (b3 - 0x80)
        if isCont b1 ∧ isCont b2 ∧ isCont b3 ∧ 0x10000 ≤ cp ∧ cp ≤ 0x10FFFF then
          some ([0xD800 + (cp - 0x10000) / 0x400, 0xDC00 + (cp - 0x10000) % 0x400], rest)
        else none
      | _ => none
    else none

/-- Decoding code point after code point; `fuel` bounds the number of code
points and is never exhausted when it is the number of bytes. -/
def utf8StringifyLoop : Nat → List Nat → Except JSError JSString
  | _, [] => Except.ok []
  | 0, _ :: _ => Except.error JSError.malformedUtf8
  | fuel + 1, b :: bs =>
    match utf8DecodePoint (b :: bs) with
    | none => Except.error JSError.malformedUtf8
    | some (units, rest) => prependUnits units (utf8StringifyLoop fuel rest)

/-- The function `CryptoJS.enc.Utf8.stringify`, which is
`decodeURIComponent(escape(bytes))`: strict UTF-8 decoding into UTF-16 code
units; any violation raises `Malformed UTF-8 data`. -/
def utf8Stringify (bytes : List Nat) : Except JSError JSString :=
  utf8StringifyLoop bytes.length bytes

/-- The Base64 alphabet. -/
def b64Char (n : Nat) : Nat :=
  if n < 26 then 0x41 + n
  else if n < 52 then 0x61 + (n - 26)
  else if n < 62 then 0x30 + (n - 52)
  else if n = 62 then 0x2B
  else 0x2F

/-- The function `CryptoJS.enc.Base64.stringify`: three bytes give four
characters; a final group of one or two bytes is completed with `=`. -/
def base64Stringify : List Nat → List Nat
  | a :: b :: c :: rest =>
    b64Char (a / 4) :: b64Char (a % 4 * 16 + b / 16) :: b64Char (b % 16 * 4 + c / 64) ::
      b64Char (c % 64) :: base64Stringify rest
  | [a, b] => [b64Char (a / 4), b64Char (a % 4 * 16 + b / 16), b64Char (b % 16 * 4), 0x3D]
  | [a] => [b64Char (a / 4), b64Char (a % 4 * 16), 0x3D, 0x3D]
  | [] => []

/-- The reverse map of the Base64 alphabet.  A character outside the alphabet
has no entry, and the shifts of the decoder turn the missing entry into 0. -/
def b64Val (c : Nat) : Nat :=
  if 0x41 ≤ c ∧ c ≤ 0x5A then c - 0x41
  else if 0x61 ≤ c ∧ c ≤ 0x7A then c - 0x61 + 26
  else if 0x30 ≤ c ∧ c ≤ 0x39 then c - 0x30 + 52
  else if c = 0x2B then 62
  else if c = 0x2F then 63
  else 0

/-- The decoding loop of `CryptoJS.enc.Base64.parse`: every character whose
index is not a multiple of four completes one byte from the low bits of its
predecessor and its own high bits. -/
def base64ParseLoop : List Nat → List Nat
  | c0 :: c1 :: c2 :: c3 :: rest =>
    (b64Val c0 * 4 + b64Val c1 / 16) % 256 :: (b64Val c1 * 16 + b64Val c2 / 4) % 256 ::
      (b64Val c2 * 64 + b64Val c3) % 256 :: base64ParseLoop rest
  | [c0, c1, c2] =>
    [(b64Val c0 * 4 + b64Val c1 / 16) % 256, (b64Val c1 * 16 + b64Val c2 / 4) % 256]
  | [c0, c1] => [(b64Val c0 * 4 + b64Val c1 / 16) % 256]
  | [_] => []
  | [] => []

/-- The function `CryptoJS.enc.Base64.parse`: the text is cut at the first
`=`, then decoded. -/
def base64Parse (text : List Nat) : List Nat :=
  base64ParseLoop (text.takeWhile fun c => c ≠ 0x3D)

/-- The words `0x53616c74 0x65645f5f`: the text `Salted__`. -/
def saltedMagic : List Nat := [0x53, 0x61, 0x6C, 0x74, 0x65, 0x64, 0x5F, 0x5F]

/-- XOR of a block with the previous block; a missing word of the previous
block leaves the byte as it is. -/
def xorBlock : List Nat → List Nat → List Nat
  | [], _ => []
  | a :: as, [] => a :: as
  | a :: as, b :: bs => (a ^^^ b) :: xorBlock as bs

/-- PKCS #7 padding to the block size of 16 bytes: `n` bytes of value `n`,
with `n` between 1 and 16. -/
def pkcs7Pad (data : List Nat) : List Nat :=
  data ++ List.replicate (16 - data.length % 16) (16 - data.length % 16)

/-- The blocks of a message whose length is a multiple of 16; a shorter final
block is completed with zero bytes (the words the decryptor reads past the
end of the data are undefined, which the bit operations read as 0). -/
def blocks : Nat → List Nat → List (List Nat)
  | 0, _ => []
  | _ + 1, [] => []
  | fuel + 1, b :: bs =>
    ((b :: bs).take 16 ++ List.replicate (16 - ((b :: bs).take 16).length) 0) ::
      blocks fuel ((b :: bs).drop 16)

/-- CBC encryption of a list of blocks: each block is XORed with the previous
ciphertext block (the IV for the first) and encrypted. -/
def cbcEncrypt (cs : CipherSuite) (key : List Nat) : List Nat → List (List Nat) → List Nat
  | _, [] => []
  | prev, block :: rest =>
    cs.encryptBlock key (xorBlock block prev) ++
      cbcEncrypt cs key (cs.encryptBlock key (xorBlock block prev)) rest

/-- CBC decryption of a list of blocks: each block is decrypted and XORed with
the previous ciphertext block (the IV for the first). -/
def cbcDecrypt (cs : CipherSuite) (key : List Nat) : List Nat → List (List Nat) → List Nat
  | _, [] => []
  | prev, block :: rest =>
    xorBlock (cs.decryptBlock key block) prev ++ cbcDecrypt cs key block rest

/-- PKCS #7 unpadding as CryptoJS does it: the low byte of the last word that
holds data is the number of bytes to drop (the length cannot go below what
reads as empty).  `processed` is the decryptor output, `length` the number
of data bytes. -/
def pkcs7Unpad (processed : List Nat) (length : Nat) : List Nat :=
  if length = 0 then []
  else processed.take (length - processed.getD ((length - 1) / 4 * 4 + 3) 0)

/-- The OpenSSL formatter of CryptoJS, parsing direction: Base64 decoding,
then the optional `Salted__` header with its 8 bytes of salt. -/
def openSSLParse (text : JSString) : Option (List Nat) × List Nat :=
  let bytes := base64Parse text
  if bytes.take 8 = saltedMagic then (some ((bytes.drop 8).take 8), bytes.drop 16)
  else (none, bytes)

/-- The OpenSSL formatter of CryptoJS, printing direction. -/
def openSSLStringify (salt ciphertext : List Nat) : JSString :=
  base64Stringify (saltedMagic ++ salt ++ ciphertext)

end Crypto

/-- The method `String.prototype.isWellFormed`: no lone surrogate. -/
def isWellFormed : JSString → Bool
  | [] => true
  | u :: us =>
    if JSON.isHighSurrogate u then
      match us with
      | [] => false
      | l :: us1 => JSON.isLowSurrogate l && isWellFormed us1
    else !JSON.isLowSurrogate u && isWellFormed us

/-- Every element is a 16-bit code unit. -/
def isUtf16 (s : JSString) : Bool := s.all fun u => decide (u < 65536)

/-- Every element is a byte. -/
def isBytes (bytes : List Nat) : Bool := bytes.all fun b => decide (b < 256)

/-- A block of the cipher: 16 bytes. -/
def isBlock (block : List Nat) : Bool := decide (block.length = 16) && isBytes block

/-- What the embedding assumes of the primitives: from bytes the key
derivation yields bytes, for the key and for the IV; and under every key the
block encryption maps blocks to blocks and is undone by the block
decryption. -/
def CipherSuite.Sound (cs : CipherSuite) : Prop :=
  (∀ password salt, isBytes password = true → isBytes salt = true →
      isBytes (cs.kdf password salt).1 = true ∧ isBytes (cs.kdf password salt).2 = true) ∧
    ∀ key block, isBytes key = true → isBlock block = true →
      isBlock (cs.encryptBlock key block) = true ∧
        cs.decryptBlock key (cs.encryptBlock key block) = block

/-- The function `encryptWithAES(password, data)` (mod.js 32-34):
`CryptoJS.AES.encrypt(data, password).toString()`.  `salt` is the value
`WordArray.random(8)` returns for this call. -/
def encryptWithAES (cs : CipherSuite) (salt : List Nat) (password data : JSString) :
    Except JSError JSString :=
  match Crypto.utf8Parse data with
  | Except.error e => Except.error e
  | Except.ok message =>
    match Crypto.utf8Parse password with
    | Except.error e => Except.error e
    | Except.ok passphrase =>
      let padded := Crypto.pkcs7Pad message
      Except.ok (Crypto.openSSLStringify salt
        (Crypto.cbcEncrypt cs (cs.kdf passphrase salt).1 (cs.kdf passphrase salt).2
          (Crypto.blocks padded.length padded)))

/-- The function `decryptWithAES(password, data)` (mod.js 22-24):
`CryptoJS.AES.decrypt(data, password).toString(CryptoJS.enc.Utf8)`.  `random`
is the salt the key derivation draws when the text carries none. -/
def decryptWithAES (cs : CipherSuite) (random : List Nat) (password data : JSString) :
    Except JSError JSString :=
  match Crypto.openSSLParse data with
  | (salt, ciphertext) =>
    match Crypto.utf8Parse password with
    | Except.error e => Except.error e
    | Except.ok passphrase =>
      let derived := cs.kdf passphrase (salt.getD random)
      Crypto.utf8Stringify
        (Crypto.pkcs7Unpad
          (Crypto.cbcDecrypt cs derived.1 derived.2 (Crypto.blocks ciphertext.length ciphertext))
          ciphertext.length)

/-! ## The vault file, `loadAccounts` and `saveAccounts` -/

/-- The file `config/accounts.json` as the program sees it: its text, or
`none` when it cannot be read (missing, unreadable), and whether it can be
written (the `config` directory exists and is writable). -/
structure Disk where
  content : Option JSString
  writable : Bool
  deriving DecidableEq, Repr

/-- The call `fs.readFileSync(ACCOUNTS_FILE_PATH, 'utf8')`. -/
def readFileSync (d : Disk) : Except JSError JSString :=
  match d.content with
  | some text => Except.ok text
  | none => Except.error JSError.fileSystem

/-- What encoding a string as UTF-8 and reading it back yields: a lone
surrogate becomes U+FFFD. -/
def replaceLoneSurrogates : JSString → JSString
  | [] => []
  | u :: us =>
    if JSON.isHighSurrogate u then
      match us with
      | [] => [0xFFFD]
      | l :: us1 =>
        if JSON.isLowSurrogate l then u :: l :: replaceLoneSurrogates us1
        else 0xFFFD :: replaceLoneSurrogates (l :: us1)
    else if JSON.isLowSurrogate u then 0xFFFD :: replaceLoneSurrogates us
    else u :: replaceLoneSurrogates us

/-- The call `fs.writeFileSync(ACCOUNTS_FILE_PATH, text, 'utf8')`: the file is
replaced as a whole. -/
def writeFileSync (d : Disk) (text : JSString) : Except JSError Disk :=
  if d.writable then Except.ok { d with content := some (replaceLoneSurrogates text) }
  else Except.error JSError.fileSystem

/-- A `try { body } catch (error) { handler }` statement. -/
def tryCatch {α : Type} (body : Except JSError α) (handler : JSError → Except JSError α) :
    Except JSError α :=
  match body with
  | Except.ok a => Except.ok a
  | Except.error e => handler e

/-- The function `loadAccounts` (mod.js 79-86). -/
def loadAccounts (d : Disk) : Except JSError JSON :=
  tryCatch
    (match readFileSync d with
      | Except.ok data => JSON.parse data
      | Except.error e => Except.error e)
    (fun _ => Except.ok (JSON.arr []))

/-- The function `saveAccounts` (mod.js 92-94). -/
def saveAccounts (d : Disk) (accounts : JSON) : Except JSError Disk :=
  writeFileSync d (JSON.stringify accounts)

/-! ## Property access on the values read from the vault -/

/-- A JavaScript value that may be `undefined`. -/
abbrev JSValue := Option JSON

/-- The test `accounts.length === 0`.  Reading a property of `null` raises a
`TypeError`; an array and a string have a length; an object has one only as
an own property; a boolean or a number has none. -/
def lengthIsZero : JSON → Except JSError Bool
  | JSON.null => Except.error JSError.typeError
  | JSON.arr items => Except.ok items.isEmpty
  | JSON.str s => Except.ok s.isEmpty
  | JSON.obj props =>
    match props.lookup (js "length") with
    | some (JSON.num x) => Except.ok x.isZero
    | _ => Except.ok false
  | _ => Except.ok false

/-- The property read `value.key` for a key that no built-in prototype
defines (`name`, `address`, `base58`): a `TypeError` on `undefined` and
`null`, the own property of an object, `undefined` otherwise. -/
def getProp (value : JSValue) (key : JSString) : Except JSError JSValue :=
  match value with
  | none => Except.error JSError.typeError
  | some JSON.null => Except.error JSError.typeError
  | some (JSON.obj props) => Except.ok (props.lookup key)
  | some _ => Except.ok none

mutual
/-- Whether converting a value to a string, as a template literal does,
raises a `TypeError`: an object whose own `toString` property hides the
built-in method cannot be converted (no value read from JSON is callable,
and the inherited `valueOf` returns the object itself); an array converts
its elements, skipping `null`. -/
def toStringThrows : JSON → Bool
  | JSON.obj props => (props.map Prod.fst).contains (js "toString")
  | JSON.arr items => anyToStringThrows items
  | _ => false
/-- Whether converting some element of an array to a string raises. -/
def anyToStringThrows : List JSON → Bool
  | [] => false
  | v :: vs => toStringThrows v || anyToStringThrows vs
end

/-- Evaluating the interpolation of a value in a template literal. -/
def interpolate (value : JSValue) : Except JSError Unit :=
  match value with
  | some v => if toStringThrows v then Except.error JSError.typeError else Except.ok ()
  | none => Except.ok ()

/-- The callback of `accounts.map` in `selectWallet` (mod.js 137-140): it
builds the label from `wallet.name` and `wallet.address.base58` and keeps the
wallet as the value of the choice. -/
def walletChoice (wallet : JSON) : Except JSError JSON :=
  match getProp (some wallet) (js "name") with
  | Except.error e => Except.error e
  | Except.ok name =>
    match interpolate name with
    | Except.error e => Except.error e
    | Except.ok _ =>
      match getProp (some wallet) (js "address") with
      | Except.error e => Except.error e
      | Except.ok address =>
        match getProp address (js "base58") with
        | Except.error e => Except.error e
        | Except.ok base58 =>
          match interpolate base58 with
          | Except.error e => Except.error e
          | Except.ok _ => Except.ok wallet

/-- The call `items.map(callback)` for a callback that may throw. -/
def mapChoices : List JSON → Except JSError (List JSON)
  | [] => Except.ok []
  | w :: ws =>
    match walletChoice w with
    | Except.error e => Except.error e
    | Except.ok c =>
      match mapChoices ws with
      | Except.error e => Except.error e
      | Except.ok cs => Except.ok (c :: cs)

/-- The call `accounts.map(...)`: only an array has the method; on any other
value the call raises a `TypeError`. -/
def accountsMap : JSON → Except JSError (List JSON)
  | JSON.arr items => mapChoices items
  | _ => Except.error JSError.typeError

/-- The call `accounts.push(newWallet)`: only an array has the method. -/
def accountsPush (accounts newWallet : JSON) : Except JSError JSON :=
  match accounts with
  | JSON.arr items => Except.ok (JSON.arr (items ++ [newWallet]))
  | _ => Except.error JSError.typeError

/-! ## The interactive functions -/

/-- Why a run of an interactive function has not returned: an exception
propagated out of it, or it is still waiting for an entry of the operator. -/
inductive Halt where
  | threw (e : JSError) : Halt
  | awaitingInput : Halt
  deriving DecidableEq, Repr

/-- The result of a prompt fed from the operator entries. -/
def expectInput {α : Type} : Option α → Except Halt α
  | some a => Except.ok a
  | none => Except.error Halt.awaitingInput

/-- A computation that may throw, inside an interactive function. -/
def orThrow {α : Type} : Except JSError α → Except Halt α
  | Except.ok a => Except.ok a
  | Except.error e => Except.error (Halt.threw e)

/-- What the program writes with `console`. -/
inductive ConsoleEvent where
  | log (args : List JSString) : ConsoleEvent
  | clear : ConsoleEvent
  deriving DecidableEq, Repr

/-- The state of the module-level `tronWeb` object that the program changes:
the default private key and the default address (`false` when unset). -/
structure ChainClient where
  defaultPrivateKey : Option JSString
  defaultAddress : Option JSString
  deriving DecidableEq, Repr

/-- The client as `new TronWeb` creates it without a private key
(mod.js 8-11). -/
def ChainClient.initial : ChainClient := ⟨none, none⟩

/-- The pure helpers of the chain library that the state changes consult:
address validation and the address of a private key (`false`, here `none`,
for an invalid key). -/
structure ChainLibrary where
  isAddress : JSString → Bool
  fromPrivateKey : JSString → Option JSString

/-- The method `tronWeb.setAddress(address)`: an invalid address raises; a
default private key that does not belong to the new address is dropped. -/
def setAddress (lib : ChainLibrary) (c : ChainClient) (address : JSString) :
    Except JSError ChainClient :=
  if lib.isAddress address then
    Except.ok
      { defaultPrivateKey :=
          match c.defaultPrivateKey with
          | some key => if lib.fromPrivateKey key ≠ some address then none else some key
          | none => none
        defaultAddress := some address }
  else Except.error JSError.invalidAddress

/-- The method `tronWeb.setPrivateKey(privateKey)`: the address of the key
becomes the default address and the key the default private key; a key
without an address raises `Invalid private key provided`. -/
def setPrivateKey (lib : ChainLibrary) (c : ChainClient) (privateKey : JSString) :
    Except JSError ChainClient :=
  match lib.fromPrivateKey privateKey with
  | none => Except.error JSError.invalidPrivateKey
  | some address =>
    match setAddress lib c address with
    | Except.ok c1 => Except.ok { c1 with defaultPrivateKey := some privateKey }
    | Except.error _ => Except.error JSError.invalidPrivateKey

/-- The constant `TetherAddress` (mod.js 14). -/
def TetherAddress : JSString := js "TR7NHqjeKQxGTCi8q8ZY4pL8otSzgjLj6t"

/-- The two choices of the `type` prompt of `sendToken`. -/
inductive TokenType where
  | USDT : TokenType
  | TRX : TokenType
  deriving DecidableEq, Repr

/-- The quantity argument of a transfer, as the program writes it from the
entered amount: `amount * 1000000` for the token, `tronWeb.toSun(amount)` for
the native coin. -/
inductive Quantity where
  | timesMillion (amount : JSNumber) : Quantity
  | toSun (amount : JSNumber) : Quantity
  deriving DecidableEq

/-- A transfer handed to the network, with the private key it was signed
with. -/
structure Broadcast where
  type : TokenType
  recipient : JSString
  amount : Quantity
  signingKey : JSString
  deriving DecidableEq

/-- Everything outside the function bodies that the program reads or changes. -/
structure World where
  disk : Disk
  client : ChainClient
  console : List ConsoleEvent
  broadcasts : List Broadcast
  deriving DecidableEq

/-- An account as `tronWeb.createAccount()` returns it. -/
structure Address where
  base58 : JSString
  hex : JSString
  deriving DecidableEq, Repr

/-- The result of `tronWeb.createAccount()`. -/
structure GeneratedAccount where
  privateKey : JSString
  publicKey : JSString
  address : Address
  deriving DecidableEq, Repr

/-- An account record of the vault: the object `newWallet` of `createWallet`
(mod.js 109-114). -/
structure Account where
  address : Address
  privateKey : JSString
  publicKey : JSString
  name : JSString
  deriving DecidableEq, Repr

/-- The account record as a JavaScript object, properties in the order the
object literals list them. -/
def Account.toJSON (a : Account) : JSON :=
  JSON.obj [
    (js "address", JSON.obj [(js "base58", JSON.str a.address.base58),
      (js "hex", JSON.str a.address.hex)]),
    (js "privateKey", JSON.str a.privateKey),
    (js "publicKey", JSON.str a.publicKey),
    (js "name", JSON.str a.name)]

/-- The code units `String.prototype.trim` removes: white space and line
terminators. -/
def isTrimmed (c : Nat) : Bool :=
  c = 0x09 || c = 0x0A || c = 0x0B || c = 0x0C || c = 0x0D || c = 0x20 || c = 0xA0 ||
  c = 0x1680 || (decide (0x2000 ≤ c) && decide (c ≤ 0x200A)) || c = 0x2028 || c = 0x2029 ||
  c = 0x202F || c = 0x205F || c = 0x3000 || c = 0xFEFF

/-- The method `String.prototype.trim`. -/
def trim (s : JSString) : JSString :=
  ((s.dropWhile isTrimmed).reverse.dropWhile isTrimmed).reverse

/-- The function `askForName` (mod.js 199-214): the prompt is repeated while
the entry is blank; the trimmed entry is returned. -/
def askForName : List JSString → Option (JSString × List JSString)
  | [] => none
  | value :: rest =>
    if (trim value).length = 0 then askForName rest
    else some (trim value, rest)

/-- What the operator types during `createWallet`, and the values drawn for
this run: the generated account and the salt of the encryption. -/
structure CreateScript where
  names : List JSString
  passwords : List (JSString × JSString)
  account : GeneratedAccount
  salt : List Nat

/-- The function `createWallet` (mod.js 100-123). -/
def createWallet (cs : CipherSuite) (script : CreateScript) (w : World) :
    Except Halt (Account × World) :=
  match expectInput (askForName script.names) with
  | Except.error h => Except.error h
  | Except.ok (name, _) =>
    match expectInput (askForPassword script.passwords) with
    | Except.error h => Except.error h
    | Except.ok (password, _) =>
      match orThrow (encryptWithAES cs script.salt password script.account.privateKey) with
      | Except.error h => Except.error h
      | Except.ok encryptedPrivateKey =>
        let newWallet : Account :=
          { address := script.account.address
            privateKey := encryptedPrivateKey
            publicKey := script.account.publicKey
            name := name }
        match orThrow (loadAccounts w.disk) with
        | Except.error h => Except.error h
        | Except.ok accounts =>
          match orThrow (accountsPush accounts newWallet.toJSON) with
          | Except.error h => Except.error h
          | Except.ok pushed =>
            match orThrow (saveAccounts w.disk pushed) with
            | Except.error h => Except.error h
            | Except.ok disk =>
              Except.ok (newWallet,
                { w with
                  disk := disk
                  console := w.console ++
                    [ConsoleEvent.log [js "Wallet created successfully."]] })

/-- The function `selectWallet` (mod.js 129-152).  `choice` is the position
the operator picks in the list; the result is the chosen wallet, or `none`
for `undefined` when there is no account. -/
def selectWallet (choice : Nat) (w : World) : Except Halt (JSValue × World) :=
  match orThrow (loadAccounts w.disk) with
  | Except.error h => Except.error h
  | Except.ok accounts =>
    match orThrow (lengthIsZero accounts) with
    | Except.error h => Except.error h
    | Except.ok true =>
      Except.ok (none,
        { w with console := w.console ++ [ConsoleEvent.log [js "No accounts available."]] })
    | Except.ok false =>
      match orThrow (accountsMap accounts) with
      | Except.error h => Except.error h
      | Except.ok choices =>
        match expectInput (choices.get? choice) with
        | Except.error h => Except.error h
        | Except.ok selectedWallet => Except.ok (some selectedWallet, w)

/-- What the operator types during `sendToken`, and what the network answers:
the balance query and the transfer (a transaction identifier, or a failure). -/
structure SendScript where
  type : TokenType
  balance : Except JSError JSNumber
  recipient : JSString
  amounts : List JSNumber
  passwords : List (JSString × JSString)
  random : List Nat
  transfer : Except JSError JSString
  pressedEnter : Bool

/-- The balance the client returns for the chosen asset: `getUSDTBalance`
(mod.js 216-225) first points the client at the token contract,
`getTRXBalance` (mod.js 232-235) leaves the client as it is. -/
def getBalance (lib : ChainLibrary) (script : SendScript) (c : ChainClient) :
    Except JSError (JSNumber × ChainClient) :=
  match script.type with
  | TokenType.USDT =>
    match setAddress lib c TetherAddress with
    | Except.error e => Except.error e
    | Except.ok c1 =>
      match script.balance with
      | Except.error e => Except.error e
      | Except.ok balance => Except.ok (balance, c1)
  | TokenType.TRX =>
    match script.balance with
    | Except.error e => Except.error e
    | Except.ok balance => Except.ok (balance, c)

/-- Signing and broadcasting a transfer: both `contract.transfer(...).send()`
and `tronWeb.trx.sendTransaction(recipient, amount)` sign with the default
private key of the client, and fail without one. -/
def signAndBroadcast (c : ChainClient) (type : TokenType) (recipient : JSString)
    (amount : Quantity) (reply : Except JSError JSString) :
    Except JSError (JSString × Broadcast) :=
  match c.defaultPrivateKey with
  | none => Except.error JSError.invalidPrivateKey
  | some key =>
    match reply with
    | Except.error e => Except.error e
    | Except.ok txid => Except.ok (txid, ⟨type, recipient, amount, key⟩)

/-- The function `pressToContinue` (mod.js 40-50). -/
def pressToContinue (pressedEnter : Bool) (w : World) : Except Halt World :=
  if pressedEnter then
    Except.ok { w with console := w.console ++ [ConsoleEvent.log [], ConsoleEvent.clear] }
  else Except.error Halt.awaitingInput

/-- The function `sendToken` (mod.js 241-303). -/
def sendToken (cs : CipherSuite) (lib : ChainLibrary) (wallet : Account)
    (script : SendScript) (w : World) : Except Halt World :=
  match orThrow (getBalance lib script w.client) with
  | Except.error h => Except.error h
  | Except.ok (balance, c1) =>
    match expectInput (promptAmount balance script.amounts) with
    | Except.error h => Except.error h
    | Except.ok (amount, _) =>
      match expectInput (askForPassword script.passwords) with
      | Except.error h => Except.error h
      | Except.ok (password, _) =>
        match orThrow (decryptWithAES cs script.random password wallet.privateKey) with
        | Except.error h => Except.error h
        | Except.ok privateKey =>
          match script.type with
          | TokenType.USDT =>
            match orThrow (setAddress lib c1 TetherAddress) with
            | Except.error h => Except.error h
            | Except.ok c2 =>
              match orThrow (setPrivateKey lib c2 privateKey) with
              | Except.error h => Except.error h
              | Except.ok c3 =>
                match orThrow (signAndBroadcast c3 TokenType.USDT script.recipient
                    (Quantity.timesMillion amount) script.transfer) with
                | Except.error h => Except.error h
                | Except.ok (result, sent) =>
                  pressToContinue script.pressedEnter
                    { w with
                      client := c3
                      broadcasts := w.broadcasts ++ [sent]
                      console := w.console ++
                        [ConsoleEvent.log [js "Transaction sent:", result]] }
          | TokenType.TRX =>
            match orThrow (signAndBroadcast c1 TokenType.TRX script.recipient
                (Quantity.toSun amount) script.transfer) with
            | Except.error h => Except.error h
            | Except.ok (txid, sent) =>
              pressToContinue script.pressedEnter
                { w with
                  client := c1
                  broadcasts := w.broadcasts ++ [sent]
                  console := w.console ++
                    [ConsoleEvent.log [js "Transaction sent:", txid]] }

/-! ## Values used in the worked examples -/

/-- A cipher suite for the worked examples: the key is the password bytes
followed by the salt, and a block is reversed and XORed with the key. -/
def exampleSuite : CipherSuite where
  kdf := fun password salt => ((password ++ salt).take 32, (salt ++ password).take 16)
  encryptBlock := fun key block => (Crypto.xorBlock block key).reverse
  decryptBlock := fun key block => Crypto.xorBlock block.reverse key

/-- A chain library for the worked examples: every text is an address, and
the address of a key is the key with `T` in front. -/
def exampleLibrary : ChainLibrary where
  isAddress := fun _ => true
  fromPrivateKey := fun key => if key.length = 0 then none else some (0x54 :: key)

/-- A wallet for the worked examples: its stored private key is the text
`KEYY` encrypted under the password `pw`. -/
def exampleWallet : Account where
  address := ⟨js "TKEYY", js "41"⟩
  privateKey := js "U2FsdGVkX18BAgMEBQYHCAwMDAwMDHN7Ag4OCl9bMDo="
  publicKey := js "04"
  name := js "Y"

/-- A world in which the vault holds nothing readable and the client is fresh. -/
def freshWorld : World where
  disk := ⟨none, true⟩
  client := ChainClient.initial
  console := []
  broadcasts := []

/-- A world in which the client still holds the private key `KEYX` of an
earlier token transfer made from another wallet. -/
def staleKeyWorld : World where
  disk := ⟨none, true⟩
  client := ⟨some (js "KEYX"), some (js "TKEYX")⟩
  console := []
  broadcasts := []

/-- An operator sending 2 units of the chosen asset from a balance of 10, with
the password `pw` entered twice. -/
def exampleSend (type : TokenType) : SendScript where
  type := type
  balance := Except.ok (JSNumber.ofNat 10)
  recipient := js "TRecipient"
  amounts := [JSNumber.ofNat 2]
  passwords := [(js "pw", js "pw")]
  random := []
  transfer := Except.ok (js "txid1")
  pressedEnter := true

/-- An operator creating the wallet `Alice` with the password `secret1`,
after one mismatched password entry. -/
def exampleCreate : CreateScript where
  names := [js "  ", js " Alice "]
  passwords := [(js "secret1", js "secret2"), (js "secret1", js "secret1")]
  account := ⟨js "KEYY", js "04", ⟨js "TKEYY", js "41"⟩⟩
  salt := [1, 2, 3, 4, 5, 6, 7, 8]

/-- The text `saveAccounts` writes for the vault that holds the example
wallet. -/
def exampleVaultText : JSString :=
  js ("[\n    \x7b\n        \"address\": \x7b\n            \"base58\": \"TKEYY\",\n" ++
    "            \"hex\": \"41\"\n        \x7d,\n" ++
    "        \"privateKey\": \"U2FsdGVkX18BAgMEBQYHCAwMDAwMDHN7Ag4OCl9bMDo=\",\n" ++
    "        \"publicKey\": \"04\",\n        \"name\": \"Y\"\n    \x7d\n]")

/-- A world whose vault holds the example wallet. -/
def oneWalletWorld : World where
  disk := ⟨some exampleVaultText, true⟩
  client := ChainClient.initial
  console := []
  broadcasts := []

/-- A world whose vault is the text `[1e400]`: an array holding a number
beyond the range of the doubles. -/
def overflowWorld : World where
  disk := ⟨some (js "[1e400]"), true⟩
  client := ChainClient.initial
  console := []
  broadcasts := []

/-- The wallet that the operator of `exampleCreate` creates. -/
def aliceWallet : Account where
  address := ⟨js "TKEYY", js "41"⟩
  privateKey := js "U2FsdGVkX18BAgMEBQYHCAw1f297a2p9BTp+bC85Ijk="
  publicKey := js "04"
  name := js "Alice"

end TronGridCli

set_option exponentiation.threshold 5000

namespace TronGridCli

/-! # Rounding -/

namespace JSNumber

theorem log2_step_le (n : Nat) (l : List Nat) :
    ∀ e, 2 ^ e ≤ n →
      2 ^ l.foldl (fun e b => if 2 ^ (e + b) ≤ n then e + b else e) e ≤ n := by
  induction l with
  | nil => exact fun e h => h
  | cons b l ih =>
    intro e h
    rw [List.foldl_cons]
    by_cases hb : 2 ^ (e + b) ≤ n
    · rw [if_pos hb]
      exact ih _ hb
    · rw [if_neg hb]
      exact ih _ h

/-- The leading binary digit is a digit of the number. -/
theorem pow_log2_le (n : Nat) (h : 1 ≤ n) : 2 ^ log2 n ≤ n :=
  log2_step_le n _ 0 (by simpa using h)

theorem log2_step_lt (n e b c : Nat) (hc : c = 2 * b) (h : n < 2 ^ (e + c)) :
    n < 2 ^ ((if 2 ^ (e + b) ≤ n then e + b else e) + b) := by
  subst hc
  split
  · rw [show e + b + b = e + 2 * b by omega]
    exact h
  · exact Nat.lt_of_not_le ‹_›

/-- Below `2^4096`, the digit after the leading binary digit is beyond the
number. -/
theorem lt_pow_log2 (n : Nat) (h : n < 2 ^ 4096) : n < 2 ^ (log2 n + 1) := by
  have h1 := log2_step_lt n 0 2048 4096 rfl (by rw [Nat.zero_add]; exact h)
  have h2 := log2_step_lt n _ 1024 2048 rfl h1
  have h3 := log2_step_lt n _ 512 1024 rfl h2
  have h4 := log2_step_lt n _ 256 512 rfl h3
  have h5 := log2_step_lt n _ 128 256 rfl h4
  have h6 := log2_step_lt n _ 64 128 rfl h5
  have h7 := log2_step_lt n _ 32 64 rfl h6
  have h8 := log2_step_lt n _ 16 32 rfl h7
  have h9 := log2_step_lt n _ 8 16 rfl h8
  have h10 := log2_step_lt n _ 4 8 rfl h9
  have h11 := log2_step_lt n _ 2 4 rfl h10
  have h12 := log2_step_lt n _ 1 2 rfl h11
  unfold log2
  simp only [List.foldl]
  exact h12

theorem le_log2 (n m : Nat) (h1 : n < 2 ^ 4096) (h : 2 ^ m ≤ n) : m ≤ log2 n :=
  Nat.lt_succ_iff.1
    ((Nat.pow_lt_pow_iff_right (by decide : 1 < 2)).1 (lt_of_le_of_lt h (lt_pow_log2 n h1)))

theorem log2_lt (n m : Nat) (h1 : 1 ≤ n) (h : n < 2 ^ m) : log2 n < m :=
  (Nat.pow_lt_pow_iff_right (by decide : 1 < 2)).1 (lt_of_le_of_lt (pow_log2_le n h1) h)

/-- Rounding to an integer moves a ratio by at most a half, downwards. -/
theorem roundHalfEven_ge (p q : Nat) (hq : 0 < q) :
    2 * p ≤ 2 * (roundHalfEven p q * q) + q := by
  have h := Nat.div_add_mod p q
  have hm : q * (p / q) = p / q * q := Nat.mul_comm _ _
  have hr := Nat.mod_lt p hq
  unfold roundHalfEven
  split
  · omega
  · split
    · rw [Nat.add_mul]
      omega
    · split
      · omega
      · rw [Nat.add_mul]
        omega

/-- Rounding to an integer moves a ratio by at most a half, upwards. -/
theorem roundHalfEven_le (p q : Nat) (hq : 0 < q) :
    2 * (roundHalfEven p q * q) ≤ 2 * p + q := by
  have h := Nat.div_add_mod p q
  have hm : q * (p / q) = p / q * q := Nat.mul_comm _ _
  have hr := Nat.mod_lt p hq
  unfold roundHalfEven
  split
  · omega
  · split
    · rw [Nat.add_mul]
      omega
    · split
      · omega
      · rw [Nat.add_mul]
        omega

theorem div_le_roundHalfEven (p q : Nat) : p / q ≤ roundHalfEven p q := by
  unfold roundHalfEven
  split
  · exact Nat.le_refl _
  · split
    · exact Nat.le_succ _
    · split
      · exact Nat.le_refl _
      · exact Nat.le_succ _

/-- The rounded magnitude is at least the leading binary digit. -/
theorem pow_log2_le_roundUnits (n : Nat) (h : 1 ≤ n) : 2 ^ log2 n ≤ roundUnits n 1 := by
  unfold roundUnits
  rw [Nat.div_one, Nat.one_mul]
  refine le_trans ?_ (Nat.mul_le_mul_right _ (div_le_roundHalfEven _ _))
  by_cases hl : log2 n ≤ 52
  · rw [Nat.sub_eq_zero_of_le hl, pow_zero, Nat.div_one, Nat.mul_one]
    exact pow_log2_le n h
  · have e : 52 + (log2 n - 52) = log2 n := by omega
    have h52 : 2 ^ log2 n = 2 ^ 52 * 2 ^ (log2 n - 52) := by
      rw [← pow_add, e]
    calc 2 ^ log2 n = 2 ^ 52 * 2 ^ (log2 n - 52) := h52
      _ ≤ n / 2 ^ (log2 n - 52) * 2 ^ (log2 n - 52) := by
        apply Nat.mul_le_mul_right
        rw [Nat.le_div_iff_mul_le (Nat.pos_pow_of_pos _ (by decide))]
        rw [← h52]
        exact pow_log2_le n h

/-- Adding more than half the spacing of the doubles below `2^47` to a
magnitude below `2^47` gives a greater double. -/
theorem lt_roundUnits_add (u c : Nat) (hu : u < 2 ^ 1121) (hc : 2 ^ 1068 < 2 * c)
    (hc1 : c < 2 ^ 1121) : u < roundUnits (u + c) 1 := by
  have hpos : 1 ≤ u + c := by
    have : 0 < 2 ^ 1068 := Nat.pos_pow_of_pos _ (by decide)
    omega
  by_cases hS : u + c < 2 ^ 1121
  · have hL := log2_lt (u + c) 1121 hpos hS
    have hq : 2 ^ (log2 (u + c) - 52) ≤ 2 ^ 1068 :=
      Nat.pow_le_pow_right (by decide) (by omega)
    have hge := roundHalfEven_ge (u + c) (1 * 2 ^ (log2 ((u + c) / 1) - 52))
      (by rw [Nat.one_mul]; exact Nat.pos_pow_of_pos _ (by decide))
    unfold roundUnits
    rw [Nat.div_one] at hge ⊢
    rw [Nat.one_mul] at hge ⊢
    generalize roundHalfEven (u + c) (2 ^ (log2 (u + c) - 52)) * 2 ^ (log2 (u + c) - 52) = r
      at hge ⊢
    omega
  · have h4096 : u + c < 2 ^ 4096 := by
      have : (2 : Nat) ^ 1121 + 2 ^ 1121 ≤ 2 ^ 4096 := by decide
      omega
    have hL := le_log2 (u + c) 1121 h4096 (Nat.le_of_not_lt hS)
    have h1 := pow_log2_le_roundUnits (u + c) hpos
    have h2 : (2 : Nat) ^ 1121 ≤ 2 ^ log2 (u + c) := Nat.pow_le_pow_right (by decide) hL
    omega

theorem add_fin_fin (a b : Nat) (h : 0 < a + b) :
    add (fin false a) (fin false b) = ofRatio false (a + b) 1 := by
  have hs : signed false a + signed false b = ((a + b : Nat) : Int) := by
    simp [signed]
  have h0 : ¬ ((a + b : Nat) : Int) = 0 := by omega
  have h1 : ¬ ((a + b : Nat) : Int) < 0 := by omega
  rw [add, hs, if_neg h0, Int.natAbs_ofNat, decide_eq_false h1]

/-- Halving a magnitude of at least two units gives a positive magnitude that
is not greater. -/
theorem roundUnits_half (u W : Nat) (hW : 0 < W) (hu : 2 ≤ u) :
    1 ≤ roundUnits (u * W) (2 * W) ∧ roundUnits (u * W) (2 * W) ≤ u := by
  unfold roundUnits
  rw [Nat.mul_div_mul_right u 2 hW]
  have hs1 : 1 ≤ 2 ^ (log2 (u / 2) - 52) := Nat.pos_pow_of_pos _ (by decide)
  have hs2 : 2 ^ (log2 (u / 2) - 52) ≤ u / 2 :=
    le_trans (Nat.pow_le_pow_right (by decide) (Nat.sub_le _ _)) (pow_log2_le (u / 2) (by omega))
  generalize 2 ^ (log2 (u / 2) - 52) = s at hs1 hs2 ⊢
  have hq : 0 < 2 * W * s := Nat.mul_pos (Nat.mul_pos (by decide) hW) hs1
  have hle := roundHalfEven_le (u * W) (2 * W * s) hq
  have hdiv := div_le_roundHalfEven (u * W) (2 * W * s)
  have h1 : 1 ≤ u * W / (2 * W * s) := by
    rw [Nat.le_div_iff_mul_le hq, Nat.one_mul]
    calc 2 * W * s = 2 * s * W := by ring
      _ ≤ u * W := Nat.mul_le_mul_right _ (by omega)
  generalize roundHalfEven (u * W) (2 * W * s) = r at hle hdiv ⊢
  have hr : 1 ≤ r := le_trans h1 hdiv
  constructor
  · exact Nat.succ_le_of_lt (Nat.mul_pos hr hs1)
  · have h2 : 2 * (r * s) * (2 * W) ≤ (u + s) * (2 * W) := by
      calc 2 * (r * s) * (2 * W) = 2 * (r * (2 * W * s)) := by ring
        _ ≤ 2 * (u * W) + 2 * W * s := hle
        _ = (u + s) * (2 * W) := by ring
    have h3 := Nat.le_of_mul_le_mul_right h2 (Nat.mul_pos (by decide) hW)
    generalize r * s = t at h3 ⊢
    omega

theorem div_two (u : Nat) :
    div (fin false u) (fin false (2 * 2 ^ 1074)) = ofRatio false (u * 2 ^ 1074) (2 * 2 ^ 1074) := by
  have h0 : ¬ (2 * 2 ^ 1074 = 0) := by decide
  rw [div, if_neg h0]
  rfl

theorem hundredth_eq : hundredth = fin false (5764607523034235 * 2 ^ 1015) := by decide

theorem ofNat_two : ofNat 2 = fin false (2 * 2 ^ 1074) := by decide

theorem ofNat_pow47 : ofNat (2 ^ 47) = fin false (2 ^ 1121) := by decide

end JSNumber

/-! # The amount validator -/

/-- For amounts and balances that are numbers (not NaN), the validator accepts
exactly the amounts that are greater than 0 and at most the balance. -/
theorem validateAmount_accept_iff (balance value : JSNumber)
    (hv : value ≠ JSNumber.nan) (hb : balance ≠ JSNumber.nan) :
    validateAmount balance value = Validation.accept ↔
      (value.gt JSNumber.zero = true ∧ value.le balance = true) := by
  cases value with
  | nan => exact absurd rfl hv
  | inf nv =>
    cases balance with
    | nan => exact absurd rfl hb
    | inf nb => cases nv <;> cases nb <;> simp [validateAmount, JSNumber.gt, JSNumber.le, JSNumber.zero]
    | fin nb b => cases nv <;> simp [validateAmount, JSNumber.gt, JSNumber.le, JSNumber.zero]
  | fin nv v =>
    cases balance with
    | nan => exact absurd rfl hb
    | inf nb =>
      cases nb <;> simp [validateAmount, JSNumber.gt, JSNumber.le, JSNumber.zero, JSNumber.signed]
    | fin nb b =>
      simp only [validateAmount, JSNumber.gt, JSNumber.le, JSNumber.zero, decide_eq_true_eq]
      have h0 : JSNumber.signed false 0 = 0 := rfl
      rw [h0]
      by_cases h1 : JSNumber.signed nb b < JSNumber.signed nv v
      · simp only [h1, if_true]
        constructor
        · intro h
          cases h
        · intro h
          omega
      · by_cases h2 : JSNumber.signed nv v ≤ 0
        · simp only [h1, h2, if_true, if_false]
          constructor
          · intro h
            cases h
          · intro h
            omega
        · simp only [h1, h2, if_false, true_iff]
          omega

/-- A rejected amount makes the prompt go on to the next entry. -/
theorem promptAmount_reject (balance value : JSNumber) (rest : List JSNumber)
    (h : validateAmount balance value ≠ Validation.accept) :
    promptAmount balance (value :: rest) = promptAmount balance rest := by
  cases hval : validateAmount balance value with
  | accept => exact absurd hval h
  | reject m =>
    conv_lhs => rw [promptAmount]
    simp only [hval]

/-- C1 (evaluation at the failing input): with a balance of 10, the entry NaN
(what the number prompt hands to the validator for an empty entry) is neither
greater than 0 nor at most the balance, and yet the validator accepts it and
the prompt resolves with it. -/
theorem C1_validator_accepts_nan :
    JSNumber.gt JSNumber.nan JSNumber.zero = false ∧
    JSNumber.le JSNumber.nan (JSNumber.ofNat 10) = false ∧
    validateAmount (JSNumber.ofNat 10) JSNumber.nan = Validation.accept ∧
    promptAmount (JSNumber.ofNat 10) [JSNumber.nan, JSNumber.ofNat 2] =
      some (JSNumber.nan, [JSNumber.ofNat 2]) :=
  ⟨rfl, rfl, rfl, rfl⟩

/-- C10 (counterexample): with a fetched balance of 0 the input `B` is 0 and
is rejected, not accepted. -/
theorem C10_zero_balance_rejects_balance :
    validateAmount (JSNumber.ofNat 0) (JSNumber.ofNat 0) =
        Validation.reject AmountMessage.mustBePositive ∧
      validateAmount (JSNumber.ofNat 0) (JSNumber.ofNat 0) ≠ Validation.accept := by
  decide

/-- C10 (amended): for every balance `B` above `Number.MIN_VALUE` and below
`2^47`, the validator rejects 0, rejects `B + 0.01`, accepts `B` and accepts
`B / 2`, the sum and the quotient being the doubles the language computes. -/
theorem C10_amount_validation_positive_balance (B : JSNumber)
    (hlo : B.gt JSNumber.minValue = true)
    (hhi : (JSNumber.ofNat (2 ^ 47)).gt B = true) :
    validateAmount B JSNumber.zero = Validation.reject AmountMessage.mustBePositive ∧
      validateAmount B (B.add JSNumber.hundredth) =
        Validation.reject (AmountMessage.mustBeAtMost B) ∧
      validateAmount B B = Validation.accept ∧
      validateAmount B (B.div (JSNumber.ofNat 2)) = Validation.accept := by
  rw [JSNumber.ofNat_pow47] at hhi
  rw [JSNumber.hundredth_eq, JSNumber.ofNat_two]
  cases B with
  | nan => simp [JSNumber.gt, JSNumber.minValue] at hlo
  | inf b => cases b <;> simp [JSNumber.gt, JSNumber.minValue] at hlo hhi
  | fin nb u =>
    cases nb with
    | true =>
      simp only [JSNumber.gt, JSNumber.minValue, JSNumber.signed, decide_eq_true_eq,
        if_true, Bool.false_eq_true, if_false] at hlo
      omega
    | false =>
      simp only [JSNumber.gt, JSNumber.minValue, JSNumber.signed, decide_eq_true_eq,
        Bool.false_eq_true, if_false] at hlo hhi
      have hu2 : 2 ≤ u := by omega
      have hu : u < 2 ^ 1121 := by exact_mod_cast hhi
      refine ⟨?_, ?_, ?_, ?_⟩
      · have h1 : ¬ ((0 : Nat) : Int) > (u : Int) := by omega
        simp [validateAmount, JSNumber.gt, JSNumber.le, JSNumber.zero, JSNumber.signed]
      · have hc : 2 ^ 1068 < 2 * (5764607523034235 * 2 ^ 1015) := by decide
        have hc1 : 5764607523034235 * 2 ^ 1015 < 2 ^ 1121 := by decide
        have hgt := JSNumber.lt_roundUnits_add u _ hu hc hc1
        rw [JSNumber.add_fin_fin u _ (by omega), JSNumber.ofRatio]
        generalize JSNumber.roundUnits (u + 5764607523034235 * 2 ^ 1015) 1 = r at hgt ⊢
        generalize u + 5764607523034235 * 2 ^ 1015 = sum
        have hgt1 : (u : Int) < (r : Int) := by exact_mod_cast hgt
        split
        · simp [validateAmount, JSNumber.gt]
        · split
          · simp [validateAmount, JSNumber.gt, JSNumber.signed, hgt1]
          · simp [validateAmount, JSNumber.gt]
      · have h1 : ¬ (u : Int) ≤ 0 := by omega
        simp [validateAmount, JSNumber.gt, JSNumber.le, JSNumber.zero, JSNumber.signed, h1]
      · obtain ⟨h1, h2⟩ := JSNumber.roundUnits_half u (2 ^ 1074) (Nat.pos_pow_of_pos _ (by decide))
          hu2
        have hW : 0 < 2 ^ 1074 := Nat.pos_pow_of_pos _ (by decide)
        have hg : ¬ 2 ^ 2098 * (2 * 2 ^ 1074) ≤ u * 2 ^ 1074 := by
          intro hle
          have h3 : 2 ^ 2098 * 2 * 2 ^ 1074 ≤ u * 2 ^ 1074 := by
            rw [Nat.mul_assoc]
            exact hle
          have h4 := Nat.le_of_mul_le_mul_right h3 hW
          have h5 : (2 : Nat) ^ 1121 ≤ 2 ^ 2098 * 2 := by decide
          omega
        have hfin : JSNumber.roundUnits (u * 2 ^ 1074) (2 * 2 ^ 1074) < 2 ^ 2098 := by
          have h5 : (2 : Nat) ^ 1121 ≤ 2 ^ 2098 := by decide
          omega
        rw [JSNumber.div_two, JSNumber.ofRatio, if_neg hg, if_pos hfin]
        generalize JSNumber.roundUnits (u * 2 ^ 1074) (2 * 2 ^ 1074) = r at h1 h2 ⊢
        have h6 : ¬ ((u : Int) < (r : Int)) := by omega
        have h7 : ¬ (r : Int) ≤ 0 := by omega
        simp [validateAmount, JSNumber.gt, JSNumber.le, JSNumber.zero, JSNumber.signed, h6, h7]

/-- C10 (witness): the amended statement at the balance 5, where `B + 0.01`
is the double of 5.01 and `B / 2` the double of 2.5. -/
theorem C10_witness :
    (JSNumber.ofNat 5).gt JSNumber.minValue = true ∧
      (JSNumber.ofNat (2 ^ 47)).gt (JSNumber.ofNat 5) = true ∧
      (JSNumber.ofNat 5).add JSNumber.hundredth = JSNumber.ofDecimal false 501 (-2) ∧
      (JSNumber.ofNat 5).div (JSNumber.ofNat 2) = JSNumber.ofDecimal false 25 (-1) ∧
      (validateAmount (JSNumber.ofNat 5) JSNumber.zero =
          Validation.reject AmountMessage.mustBePositive ∧
        validateAmount (JSNumber.ofNat 5) ((JSNumber.ofNat 5).add JSNumber.hundredth) =
          Validation.reject (AmountMessage.mustBeAtMost (JSNumber.ofNat 5)) ∧
        validateAmount (JSNumber.ofNat 5) (JSNumber.ofNat 5) = Validation.accept ∧
        validateAmount (JSNumber.ofNat 5) ((JSNumber.ofNat 5).div (JSNumber.ofNat 2)) =
          Validation.accept) :=
  ⟨by decide, by decide, by decide, by decide,
    C10_amount_validation_positive_balance (JSNumber.ofNat 5) (by decide) (by decide)⟩

/-- At the balance `2^47` the sum `B + 0.01` is `B` itself (the doubles are
`2^-5` apart there), and the validator accepts it. -/
theorem validateAmount_sum_absorbed :
    (JSNumber.ofNat (2 ^ 47)).add JSNumber.hundredth = JSNumber.ofNat (2 ^ 47) ∧
      validateAmount (JSNumber.ofNat (2 ^ 47))
        ((JSNumber.ofNat (2 ^ 47)).add JSNumber.hundredth) = Validation.accept := by
  decide

/-- At the balance `Number.MIN_VALUE` the quotient `B / 2` is 0, and the
validator rejects it. -/
theorem validateAmount_half_underflow :
    JSNumber.minValue.div (JSNumber.ofNat 2) = JSNumber.zero ∧
      validateAmount JSNumber.minValue (JSNumber.minValue.div (JSNumber.ofNat 2)) =
        Validation.reject AmountMessage.mustBePositive := by
  decide

/-! # Password entry -/

/-- A mismatched pair is skipped. -/
theorem askForPassword_skip (pre : List (JSString × JSString))
    (rest : List (JSString × JSString)) (h : ∀ x ∈ pre, x.1 ≠ x.2) :
    askForPassword (pre ++ rest) = askForPassword rest := by
  induction pre with
  | nil => rfl
  | cons x pre ih =>
    obtain ⟨p, c⟩ := x
    have hx : p ≠ c := h (p, c) (List.mem_cons_self _ _)
    simp only [List.cons_append, askForPassword, hx, ne_eq, not_false_eq_true, if_true]
    exact ih (fun y hy => h y (List.mem_cons_of_mem _ hy))

/-- Every list with a matching pair splits at its first matching pair. -/
theorem first_match_split (entries : List (JSString × JSString))
    (h : ∃ e ∈ entries, e.1 = e.2) :
    ∃ pre p post, entries = pre ++ (p, p) :: post ∧ ∀ x ∈ pre, x.1 ≠ x.2 := by
  induction entries with
  | nil =>
    obtain ⟨e, he, _⟩ := h
    cases he
  | cons x xs ih =>
    obtain ⟨p, c⟩ := x
    by_cases hpc : p = c
    · subst hpc
      exact ⟨[], p, xs, rfl, fun x hx => by cases hx⟩
    · have h1 : ∃ e ∈ xs, e.1 = e.2 := by
        obtain ⟨e, he, heq⟩ := h
        rcases List.mem_cons.mp he with h0 | h0
        · subst h0
          exact absurd heq hpc
        · exact ⟨e, h0, heq⟩
      obtain ⟨pre, q, post, hsplit, hpre⟩ := ih h1
      refine ⟨(p, c) :: pre, q, post, by rw [hsplit]; rfl, ?_⟩
      intro y hy
      rcases List.mem_cons.mp hy with h0 | h0
      · subst h0
        exact hpc
      · exact hpre y h0

/-- What `askForPassword` returns was entered twice, after mismatches only. -/
theorem askForPassword_some (entries : List (JSString × JSString)) (p : JSString)
    (rest : List (JSString × JSString)) (h : askForPassword entries = some (p, rest)) :
    ∃ pre, entries = pre ++ (p, p) :: rest ∧ ∀ x ∈ pre, x.1 ≠ x.2 := by
  induction entries with
  | nil => cases h
  | cons x xs ih =>
    obtain ⟨a, c⟩ := x
    by_cases hac : a = c
    · subst hac
      simp only [askForPassword, ne_eq, not_true_eq_false, if_false, Option.some.injEq,
        Prod.mk.injEq] at h
      obtain ⟨h1, h2⟩ := h
      subst h1 h2
      exact ⟨[], rfl, fun x hx => by cases hx⟩
    · simp only [askForPassword, ne_eq, hac, not_false_eq_true, if_true] at h
      obtain ⟨pre, hsplit, hpre⟩ := ih h
      refine ⟨(a, c) :: pre, by rw [hsplit]; rfl, ?_⟩
      intro y hy
      rcases List.mem_cons.mp hy with h0 | h0
      · subst h0
        exact hac
      · exact hpre y h0

/-- C8: on entries that contain a pair with password = confirmation,
`askForPassword` returns; it returns the password of the first such pair and
leaves exactly the entries after that pair; whatever it returns was entered
with an equal confirmation; and a run never ends with an exception. -/
theorem C8_askForPassword_first_match (entries : List (JSString × JSString))
    (h : ∃ e ∈ entries, e.1 = e.2) :
    (∃ pre p post, entries = pre ++ (p, p) :: post ∧ (∀ x ∈ pre, x.1 ≠ x.2) ∧
        askForPassword entries = some (p, post)) ∧
      (∀ p rest, askForPassword entries = some (p, rest) →
        ∃ pre, entries = pre ++ (p, p) :: rest ∧ ∀ x ∈ pre, x.1 ≠ x.2) ∧
      (∀ e, expectInput (askForPassword entries) ≠ Except.error (Halt.threw e)) := by
  refine ⟨?_, ?_, ?_⟩
  · obtain ⟨pre, p, post, hsplit, hpre⟩ := first_match_split entries h
    refine ⟨pre, p, post, hsplit, hpre, ?_⟩
    rw [hsplit, askForPassword_skip pre _ hpre]
    simp [askForPassword]
  · intro p rest hp
    exact askForPassword_some entries p rest hp
  · intro e he
    cases hres : askForPassword entries with
    | none =>
      rw [hres] at he
      simp [expectInput] at he
    | some r =>
      rw [hres] at he
      simp [expectInput] at he

/-- C8 (witness): two mismatches, then `secret1` twice, then one more pair. -/
theorem C8_witness :
    (∃ e ∈ [(js "a", js "b"), (js "secret1", js "secret2"), (js "secret1", js "secret1"),
        (js "x", js "x")], e.1 = e.2) ∧
      askForPassword [(js "a", js "b"), (js "secret1", js "secret2"),
        (js "secret1", js "secret1"), (js "x", js "x")] =
        some (js "secret1", [(js "x", js "x")]) ∧
      ((∃ pre p post, [(js "a", js "b"), (js "secret1", js "secret2"),
          (js "secret1", js "secret1"), (js "x", js "x")] = pre ++ (p, p) :: post ∧
          (∀ x ∈ pre, x.1 ≠ x.2) ∧
          askForPassword [(js "a", js "b"), (js "secret1", js "secret2"),
            (js "secret1", js "secret1"), (js "x", js "x")] = some (p, post)) ∧
        (∀ p rest, askForPassword [(js "a", js "b"), (js "secret1", js "secret2"),
            (js "secret1", js "secret1"), (js "x", js "x")] = some (p, rest) →
          ∃ pre, [(js "a", js "b"), (js "secret1", js "secret2"),
            (js "secret1", js "secret1"), (js "x", js "x")] = pre ++ (p, p) :: rest ∧
            ∀ x ∈ pre, x.1 ≠ x.2) ∧
        (∀ e, expectInput (askForPassword [(js "a", js "b"), (js "secret1", js "secret2"),
            (js "secret1", js "secret1"), (js "x", js "x")]) ≠ Except.error (Halt.threw e))) :=
  ⟨⟨(js "x", js "x"), by decide, rfl⟩, by decide,
    C8_askForPassword_first_match _ ⟨(js "x", js "x"), by decide, rfl⟩⟩

/-! # Loading the vault -/

/-- C3: `loadAccounts` never raises, whatever the state of the vault file;
when the file cannot be read, and when its text does not parse, it returns
the empty array. -/
theorem C3_loadAccounts_never_raises (d : Disk) :
    (∃ v, loadAccounts d = Except.ok v) ∧
      (∀ e, readFileSync d = Except.error e → loadAccounts d = Except.ok (JSON.arr [])) ∧
      (∀ text e, readFileSync d = Except.ok text → JSON.parse text = Except.error e →
        loadAccounts d = Except.ok (JSON.arr [])) := by
  refine ⟨?_, ?_, ?_⟩
  · cases hr : readFileSync d with
    | error e => exact ⟨JSON.arr [], by simp [loadAccounts, tryCatch, hr]⟩
    | ok text =>
      cases hp : JSON.parse text with
      | error e => exact ⟨JSON.arr [], by simp [loadAccounts, tryCatch, hr, hp]⟩
      | ok v => exact ⟨v, by simp [loadAccounts, tryCatch, hr, hp]⟩
  · intro e he
    simp [loadAccounts, tryCatch, he]
  · intro text e ht hp
    simp [loadAccounts, tryCatch, ht, hp]

/-- A text that parses is what `loadAccounts` returns. -/
theorem loadAccounts_of_parse (d : Disk) (text : JSString) (v : JSON)
    (hc : d.content = some text) (hp : JSON.parse text = Except.ok v) :
    loadAccounts d = Except.ok v := by
  simp [loadAccounts, tryCatch, readFileSync, hc, hp]

/-- C9 (evaluation at the failing input): when the vault file holds the text
of an empty object, `loadAccounts` returns that object, which is not an
array, and both `selectWallet` and `createWallet` end with a `TypeError`. -/
theorem C9_object_vault_breaks_callers :
    loadAccounts ⟨some (js "\x7b\x7d"), true⟩ = Except.ok (JSON.obj []) ∧
      selectWallet 0 { freshWorld with disk := ⟨some (js "\x7b\x7d"), true⟩ } =
        Except.error (Halt.threw JSError.typeError) ∧
      createWallet exampleSuite exampleCreate
          { freshWorld with disk := ⟨some (js "\x7b\x7d"), true⟩ } =
        Except.error (Halt.threw JSError.typeError) :=
  ⟨rfl, rfl, rfl⟩

end TronGridCli

set_option exponentiation.threshold 5000

namespace TronGridCli

/-! # Sending -/

/-- `getBalance` changes the client only for the token, by `setAddress`. -/
theorem getBalance_client (lib : ChainLibrary) (script : SendScript) (c c1 : ChainClient)
    (b : JSNumber) (h : getBalance lib script c = Except.ok (b, c1)) :
    (script.type = TokenType.TRX → c1 = c) ∧
      (script.type = TokenType.USDT → setAddress lib c TetherAddress = Except.ok c1) := by
  unfold getBalance at h
  cases ht : script.type with
  | TRX =>
    rw [ht] at h
    constructor
    swap
    · intro h0
      cases h0
    intro _
    cases hb : script.balance with
    | error e => rw [hb] at h; cases h
    | ok v =>
      rw [hb] at h
      simp only [Except.ok.injEq, Prod.mk.injEq] at h
      exact h.2.symm
  | USDT =>
    rw [ht] at h
    constructor
    · intro h0
      cases h0
    intro _
    cases hs : setAddress lib c TetherAddress with
    | error e => rw [hs] at h; cases h
    | ok c2 =>
      rw [hs] at h
      cases hb : script.balance with
      | error e => rw [hb] at h; cases h
      | ok v =>
        rw [hb] at h
        simp only [Except.ok.injEq, Prod.mk.injEq] at h
        rw [h.2]

/-- After `setPrivateKey` the client holds the key. -/
theorem setPrivateKey_key (lib : ChainLibrary) (c c1 : ChainClient) (key : JSString)
    (h : setPrivateKey lib c key = Except.ok c1) : c1.defaultPrivateKey = some key := by
  unfold setPrivateKey at h
  cases hk : lib.fromPrivateKey key with
  | none => rw [hk] at h; cases h
  | some a =>
    rw [hk] at h
    simp only at h
    cases hs : setAddress lib c a with
    | error e => rw [hs] at h; cases h
    | ok c2 =>
      rw [hs] at h
      simp only [Except.ok.injEq] at h
      rw [← h]

/-- `pressToContinue` only writes to the console. -/
theorem pressToContinue_ok (b : Bool) (w w1 : World) (h : pressToContinue b w = Except.ok w1) :
    w1 = { w with console := w.console ++ [ConsoleEvent.log [], ConsoleEvent.clear] } := by
  unfold pressToContinue at h
  cases b with
  | false => simp at h
  | true =>
    simp only [if_true, Except.ok.injEq] at h
    exact h.symm

/-- What a returned run of `sendToken` did. -/
theorem sendToken_ok (cs : CipherSuite) (lib : ChainLibrary) (wallet : Account)
    (script : SendScript) (w w1 : World)
    (h : sendToken cs lib wallet script w = Except.ok w1) :
    ∃ balance c1 amount rest password rest1 privateKey txid c3,
      getBalance lib script w.client = Except.ok (balance, c1) ∧
      promptAmount balance script.amounts = some (amount, rest) ∧
      askForPassword script.passwords = some (password, rest1) ∧
      decryptWithAES cs script.random password wallet.privateKey = Except.ok privateKey ∧
      script.transfer = Except.ok txid ∧
      (script.type = TokenType.USDT → c3.defaultPrivateKey = some privateKey) ∧
      (script.type = TokenType.TRX → c3 = c1) ∧
      (∃ key quantity, c3.defaultPrivateKey = some key ∧
        w1 = { disk := w.disk
               client := c3
               broadcasts := w.broadcasts ++
                 [⟨script.type, script.recipient, quantity, key⟩]
               console := w.console ++ [ConsoleEvent.log [js "Transaction sent:", txid],
                 ConsoleEvent.log [], ConsoleEvent.clear] }) := by
  unfold sendToken at h
  cases hg : getBalance lib script w.client with
  | error e => rw [hg] at h; cases h
  | ok r =>
    obtain ⟨balance, c1⟩ := r
    rw [hg] at h
    simp only [orThrow] at h
    cases hp : promptAmount balance script.amounts with
    | none => rw [hp] at h; cases h
    | some r =>
      obtain ⟨amount, rest⟩ := r
      rw [hp] at h
      simp only [expectInput] at h
      cases ha : askForPassword script.passwords with
      | none => rw [ha] at h; cases h
      | some r =>
        obtain ⟨password, rest1⟩ := r
        rw [ha] at h
        simp only at h
        cases hd : decryptWithAES cs script.random password wallet.privateKey with
        | error e => rw [hd] at h; cases h
        | ok privateKey =>
          rw [hd] at h
          simp only at h
          cases ht : script.type with
          | USDT =>
            rw [ht] at h
            simp only at h
            cases hs : setAddress lib c1 TetherAddress with
            | error e => rw [hs] at h; cases h
            | ok c2 =>
              rw [hs] at h
              simp only at h
              cases hk : setPrivateKey lib c2 privateKey with
              | error e => rw [hk] at h; cases h
              | ok c3 =>
                rw [hk] at h
                simp only at h
                have hkey := setPrivateKey_key lib c2 c3 privateKey hk
                unfold signAndBroadcast at h
                rw [hkey] at h
                simp only at h
                cases hr : script.transfer with
                | error e => rw [hr] at h; cases h
                | ok txid =>
                  rw [hr] at h
                  simp only at h
                  have hw := pressToContinue_ok _ _ _ h
                  refine ⟨balance, c1, amount, rest, password, rest1, privateKey, txid, c3,
                    ?_, ?_, ?_, ?_, ?_, ?_, ?_, privateKey, Quantity.timesMillion amount, hkey, ?_⟩
                  · rfl
                  · exact hp
                  · rfl
                  · exact hd
                  · rfl
                  · intro _
                    exact hkey
                  · intro h0
                    cases h0
                  · rw [hw]
                    simp
          | TRX =>
            rw [ht] at h
            simp only at h
            unfold signAndBroadcast at h
            cases hkey : c1.defaultPrivateKey with
            | none => rw [hkey] at h; cases h
            | some key =>
              rw [hkey] at h
              simp only at h
              cases hr : script.transfer with
              | error e => rw [hr] at h; cases h
              | ok txid =>
                rw [hr] at h
                simp only at h
                have hw := pressToContinue_ok _ _ _ h
                refine ⟨balance, c1, amount, rest, password, rest1, privateKey, txid, c1,
                  ?_, ?_, ?_, ?_, ?_, ?_, ?_, key, Quantity.toSun amount, ?_, ?_⟩
                · rfl
                · exact hp
                · rfl
                · exact hd
                · rfl
                · intro h0
                  cases h0
                · intro _
                  rfl
                · exact hkey
                · rw [hw]
                  simp

/-- C2 (evaluation at the failing input): the client still holds the key
`KEYX` of an earlier token transfer; the operator sends the native coin from
a wallet whose stored key decrypts, under the entered password, to `KEYY`.
The transfer is signed with `KEYX`, not with the decrypted key; and from a
fresh client, which holds no key, the native transfer fails, while the token
transfer is signed with the decrypted key. -/
theorem C2_native_transfer_ignores_decrypted_key :
    decryptWithAES exampleSuite [] (js "pw") exampleWallet.privateKey = Except.ok (js "KEYY") ∧
      (sendToken exampleSuite exampleLibrary exampleWallet (exampleSend TokenType.TRX)
          staleKeyWorld).map (fun w => w.broadcasts) =
        Except.ok [⟨TokenType.TRX, js "TRecipient", Quantity.toSun (JSNumber.ofNat 2),
          js "KEYX"⟩] ∧
      sendToken exampleSuite exampleLibrary exampleWallet (exampleSend TokenType.TRX)
          freshWorld = Except.error (Halt.threw JSError.invalidPrivateKey) ∧
      (sendToken exampleSuite exampleLibrary exampleWallet (exampleSend TokenType.USDT)
          staleKeyWorld).map (fun w => w.broadcasts) =
        Except.ok [⟨TokenType.USDT, js "TRecipient",
          Quantity.timesMillion (JSNumber.ofNat 2), js "KEYY"⟩] :=
  ⟨rfl, rfl, rfl, rfl⟩

/-- C7 (counterexample): a token transfer from a fresh client, which holds no
private key, returns with the decrypted key `KEYY` as the default private key
of the shared client. -/
theorem C7_token_transfer_leaves_key_in_client :
    freshWorld.client.defaultPrivateKey = none ∧
      (sendToken exampleSuite exampleLibrary exampleWallet (exampleSend TokenType.USDT)
          freshWorld).map (fun w => w.client.defaultPrivateKey) =
        Except.ok (some (js "KEYY")) :=
  ⟨rfl, rfl⟩

/-- C7 (amended): when `sendToken` returns, the vault file is as before; the
console has gained only the line `Transaction sent:` with the identifier the
network returned, the empty line and the clearing of `pressToContinue`; after a
native-coin transfer the shared client is as the balance query left it, which
is as it was before the call; after a token transfer the decrypted key is the
default private key of the shared client. -/
theorem C7_sendToken_key_retention (cs : CipherSuite) (lib : ChainLibrary) (wallet : Account)
    (script : SendScript) (w w1 : World)
    (h : sendToken cs lib wallet script w = Except.ok w1) :
    w1.disk = w.disk ∧
      (∃ txid, script.transfer = Except.ok txid ∧
        w1.console = w.console ++ [ConsoleEvent.log [js "Transaction sent:", txid],
          ConsoleEvent.log [], ConsoleEvent.clear]) ∧
      (script.type = TokenType.TRX → w1.client = w.client) ∧
      (script.type = TokenType.USDT →
        ∃ password rest privateKey,
          askForPassword script.passwords = some (password, rest) ∧
          decryptWithAES cs script.random password wallet.privateKey = Except.ok privateKey ∧
          w1.client.defaultPrivateKey = some privateKey) := by
  obtain ⟨balance, c1, amount, rest, password, rest1, privateKey, txid, c3, hg, _, ha, hd, hr,
    husdt, htrx, key, _, _, hw⟩ := sendToken_ok cs lib wallet script w w1 h
  have hgc := getBalance_client lib script w.client c1 balance hg
  subst hw
  refine ⟨rfl, ⟨txid, hr, rfl⟩, ?_, ?_⟩
  · intro ht
    show c3 = w.client
    rw [htrx ht, hgc.1 ht]
  · intro ht
    exact ⟨password, rest1, privateKey, ha, hd, husdt ht⟩

/-- C7 (witness): the amended statement at the token transfer of the worked
example, from a fresh client. -/
theorem C7_witness :
    sendToken exampleSuite exampleLibrary exampleWallet (exampleSend TokenType.USDT)
        freshWorld =
      Except.ok
        { disk := freshWorld.disk
          client := ⟨some (js "KEYY"), some (js "TKEYY")⟩
          console := [ConsoleEvent.log [js "Transaction sent:", js "txid1"],
            ConsoleEvent.log [], ConsoleEvent.clear]
          broadcasts := [⟨TokenType.USDT, js "TRecipient",
            Quantity.timesMillion (JSNumber.ofNat 2), js "KEYY"⟩] } ∧
    ((⟨some (js "KEYY"), some (js "TKEYY")⟩ : ChainClient).defaultPrivateKey =
        some (js "KEYY")) ∧
    (freshWorld.disk = freshWorld.disk ∧
      (∃ txid, (exampleSend TokenType.USDT).transfer = Except.ok txid ∧
        [ConsoleEvent.log [js "Transaction sent:", js "txid1"], ConsoleEvent.log [],
            ConsoleEvent.clear] =
          freshWorld.console ++ [ConsoleEvent.log [js "Transaction sent:", txid],
            ConsoleEvent.log [], ConsoleEvent.clear]) ∧
      ((exampleSend TokenType.USDT).type = TokenType.TRX →
        (⟨some (js "KEYY"), some (js "TKEYY")⟩ : ChainClient) = freshWorld.client) ∧
      ((exampleSend TokenType.USDT).type = TokenType.USDT →
        ∃ password rest privateKey,
          askForPassword (exampleSend TokenType.USDT).passwords = some (password, rest) ∧
          decryptWithAES exampleSuite (exampleSend TokenType.USDT).random password
            exampleWallet.privateKey = Except.ok privateKey ∧
          (⟨some (js "KEYY"), some (js "TKEYY")⟩ : ChainClient).defaultPrivateKey =
            some privateKey)) :=
  ⟨rfl, rfl,
    C7_sendToken_key_retention exampleSuite exampleLibrary exampleWallet
      (exampleSend TokenType.USDT) freshWorld _ rfl⟩

end TronGridCli

namespace TronGridCli

namespace JSON

/-! # `JSON.parse` inverts `JSON.stringify` -/

theorem hexVal_hexDigit (d : Nat) (h : d < 16) : hexVal (hexDigit d) = some d := by
  unfold hexVal hexDigit
  by_cases h1 : d < 10
  · simp only [h1, if_true]
    have h2 : 0x30 ≤ 0x30 + d ∧ 0x30 + d ≤ 0x39 := by omega
    rw [if_pos h2]
    congr 1
    omega
  · simp only [h1, if_false]
    have h2 : ¬ (0x30 ≤ 0x61 + (d - 10) ∧ 0x61 + (d - 10) ≤ 0x39) := by omega
    have h3 : ¬ (0x41 ≤ 0x61 + (d - 10) ∧ 0x61 + (d - 10) ≤ 0x46) := by omega
    have h4 : 0x61 ≤ 0x61 + (d - 10) ∧ 0x61 + (d - 10) ≤ 0x66 := by omega
    rw [if_neg h2, if_neg h3, if_pos h4]
    congr 1
    omega

theorem psb_close (cs : List Nat) : parseStringBody (0x22 :: cs) = some ([], cs) := by
  rw [parseStringBody.eq_def]
  simp

theorem psb_raw (c : Nat) (cs : List Nat) (h1 : c ≠ 0x22) (h2 : c ≠ 0x5C) (h3 : ¬ c < 0x20) :
    parseStringBody (c :: cs) = consUnit c (parseStringBody cs) := by
  rw [parseStringBody.eq_def]
  simp [h1, h2, h3]

theorem psb_escape (e u : Nat) (cs : List Nat) (h1 : e ≠ 0x75) (h2 : unescape e = some u) :
    parseStringBody (0x5C :: e :: cs) = consUnit u (parseStringBody cs) := by
  rw [parseStringBody.eq_def]
  simp [h1, h2]

theorem psb_unicode (h1 h2 h3 h4 a b c d : Nat) (rest : List Nat)
    (e1 : hexVal h1 = some a) (e2 : hexVal h2 = some b) (e3 : hexVal h3 = some c)
    (e4 : hexVal h4 = some d) :
    parseStringBody (0x5C :: 0x75 :: h1 :: h2 :: h3 :: h4 :: rest) =
      consUnit (a * 4096 + b * 256 + c * 16 + d) (parseStringBody rest) := by
  rw [parseStringBody.eq_def]
  simp [e1, e2, e3, e4]

theorem parseStringBody_unicodeEscape (u : Nat) (h : u < 65536) (tail : List Nat) :
    parseStringBody (unicodeEscape u ++ tail) = consUnit u (parseStringBody tail) := by
  have e1 := hexVal_hexDigit (u / 4096 % 16) (Nat.mod_lt _ (by decide))
  have e2 := hexVal_hexDigit (u / 256 % 16) (Nat.mod_lt _ (by decide))
  have e3 := hexVal_hexDigit (u / 16 % 16) (Nat.mod_lt _ (by decide))
  have e4 := hexVal_hexDigit (u % 16) (Nat.mod_lt _ (by decide))
  have e5 : u / 4096 % 16 * 4096 + u / 256 % 16 * 256 + u / 16 % 16 * 16 + u % 16 = u := by
    omega
  simp only [unicodeEscape, List.cons_append, List.nil_append]
  rw [psb_unicode _ _ _ _ _ _ _ _ _ e1 e2 e3 e4, e5]

theorem parseStringBody_quoteUnit (u : Nat) (h : u < 65536 ∨ ¬ (u < 0x20))
    (tail : List Nat) :
    parseStringBody (quoteUnit u ++ tail) = consUnit u (parseStringBody tail) := by
  unfold quoteUnit
  split_ifs with h1 h2 h3 h4 h5 h6 h7 h8
  · subst h1; exact psb_escape _ _ _ (by decide) (by decide)
  · subst h2; exact psb_escape _ _ _ (by decide) (by decide)
  · subst h3; exact psb_escape _ _ _ (by decide) (by decide)
  · subst h4; exact psb_escape _ _ _ (by decide) (by decide)
  · subst h5; exact psb_escape _ _ _ (by decide) (by decide)
  · subst h6; exact psb_escape _ _ _ (by decide) (by decide)
  · subst h7; exact psb_escape _ _ _ (by decide) (by decide)
  · apply parseStringBody_unicodeEscape
    simp only [isHighSurrogate, isLowSurrogate, Bool.and_eq_true, decide_eq_true_eq] at h8
    omega
  · have h9 : ¬ u < 0x20 := fun hlt => h8 (Or.inl hlt)
    exact psb_raw u tail h6 h7 h9

theorem parseStringBody_raw (u : Nat) (h : isHighSurrogate u = true ∨ isLowSurrogate u = true)
    (tail : List Nat) :
    parseStringBody (u :: tail) = consUnit u (parseStringBody tail) := by
  simp only [isHighSurrogate, isLowSurrogate, Bool.and_eq_true, decide_eq_true_eq] at h
  exact psb_raw u tail (by omega) (by omega) (by omega)

theorem quoteUnits_not_high (u : Nat) (us : List Nat) (hu : ¬ isHighSurrogate u = true) :
    quoteUnits (u :: us) = quoteUnit u ++ quoteUnits us := by
  rw [quoteUnits.eq_def]
  simp [hu]

/-- A quoted string is read back as it was, whatever follows it. -/
theorem parseStringBody_quoteUnits (s : JSString) (rest : List Nat) :
    parseStringBody (quoteUnits s ++ 0x22 :: rest) = some (s, rest) := by
  induction s using quoteUnits.induct with
  | case1 => exact psb_close rest
  | case2 u hu =>
    simp only [quoteUnits, hu, if_true]
    rw [parseStringBody_quoteUnit u _ _, psb_close]
    · rfl
    · simp only [isHighSurrogate, Bool.and_eq_true, decide_eq_true_eq] at hu
      omega
  | case3 u hu l us1 hl ih =>
    simp only [quoteUnits, hu, hl, if_true, List.cons_append]
    rw [parseStringBody_raw u (Or.inl hu), parseStringBody_raw l (Or.inr hl), ih]
    rfl
  | case4 u hu l us1 hl ih =>
    simp only [quoteUnits, hu, hl, if_true, if_false, List.append_assoc,
      Bool.false_eq_true]
    rw [parseStringBody_quoteUnit u _ _, ih]
    · rfl
    · simp only [isHighSurrogate, Bool.and_eq_true, decide_eq_true_eq] at hu
      omega
  | case5 u us hu ih =>
    rw [quoteUnits_not_high u us hu, List.append_assoc]
    rw [parseStringBody_quoteUnit u _ _, ih]
    · rfl
    · omega

/-- The string parser after the opening quote of a quoted string. -/
theorem parseStringBody_quote (s : JSString) (rest : List Nat) :
    ∃ tail, quote s ++ rest = 0x22 :: tail ∧ parseStringBody tail = some (s, rest) :=
  ⟨quoteUnits s ++ 0x22 :: rest, by simp [quote], parseStringBody_quoteUnits s rest⟩

/-! ## White space -/

theorem skipWs_cons_of_not_ws (c : Nat) (cs : List Nat) (h : isWs c = false) :
    skipWs (c :: cs) = c :: cs := by
  simp [skipWs, h]

theorem skipWs_replicate_space (n : Nat) (xs : List Nat) :
    skipWs (List.replicate n 0x20 ++ xs) = skipWs xs := by
  induction n with
  | zero => rfl
  | succ n ih =>
    rw [List.replicate_succ, List.cons_append, skipWs]
    simp only [show isWs 0x20 = true from rfl, if_true]
    exact ih

theorem skipWs_newline (level : Nat) (xs : List Nat) :
    skipWs (newline level ++ xs) = skipWs xs := by
  rw [newline, List.cons_append, skipWs]
  simp only [show isWs 0x0A = true from rfl, if_true]
  exact skipWs_replicate_space _ xs

theorem skipWs_space (xs : List Nat) : skipWs (0x20 :: xs) = skipWs xs := by
  rw [skipWs]
  simp only [show isWs 0x20 = true from rfl, if_true]

/-! ## One step of each parser -/

theorem parseValue_zero (input : List Nat) : parseValue 0 input = none := by
  rw [parseValue]

theorem parseValue_skip (fuel : Nat) (input : List Nat) :
    parseValue fuel (skipWs input) = parseValue fuel input := by
  cases fuel with
  | zero => rw [parseValue_zero, parseValue_zero]
  | succ f =>
    have h : skipWs (skipWs input) = skipWs input := by
      induction input with
      | nil => rfl
      | cons c cs ih =>
        by_cases hc : isWs c = true
        · simp only [skipWs, hc, if_true]
          exact ih
        · simp only [skipWs, hc, if_false, Bool.false_eq_true]
    rw [parseValue, parseValue, h]

theorem parseValue_newline (fuel level : Nat) (xs : List Nat) :
    parseValue fuel (newline level ++ xs) = parseValue fuel xs := by
  rw [← parseValue_skip, skipWs_newline, parseValue_skip]

theorem parseValue_space (fuel : Nat) (xs : List Nat) :
    parseValue fuel (0x20 :: xs) = parseValue fuel xs := by
  rw [← parseValue_skip, skipWs_space, parseValue_skip]

theorem parseElements_newline (fuel level : Nat) (acc : List JSON) (xs : List Nat) :
    parseElements fuel acc (newline level ++ xs) = parseElements fuel acc xs := by
  cases fuel with
  | zero => rw [parseElements, parseElements]
  | succ f => rw [parseElements, parseElements, parseValue_newline]

theorem parseMembers_newline (fuel level : Nat) (acc : List (JSString × JSON))
    (xs : List Nat) :
    parseMembers fuel acc (newline level ++ xs) = parseMembers fuel acc xs := by
  cases fuel with
  | zero => rw [parseMembers, parseMembers]
  | succ f => rw [parseMembers, parseMembers, skipWs_newline]

theorem parseValue_null (f : Nat) (rest : List Nat) :
    parseValue (f + 1) (0x6E :: 0x75 :: 0x6C :: 0x6C :: rest) = some (null, rest) := by
  rw [parseValue, skipWs_cons_of_not_ws 0x6E _ rfl]
  simp [expectWord]

theorem parseValue_true (f : Nat) (rest : List Nat) :
    parseValue (f + 1) (0x74 :: 0x72 :: 0x75 :: 0x65 :: rest) = some (bool true, rest) := by
  rw [parseValue, skipWs_cons_of_not_ws 0x74 _ rfl]
  simp [expectWord]

theorem parseValue_false (f : Nat) (rest : List Nat) :
    parseValue (f + 1) (0x66 :: 0x61 :: 0x6C :: 0x73 :: 0x65 :: rest) =
      some (bool false, rest) := by
  rw [parseValue, skipWs_cons_of_not_ws 0x66 _ rfl]
  simp [expectWord]

theorem parseValue_str (f : Nat) (s : JSString) (rest : List Nat) :
    parseValue (f + 1) (quote s ++ rest) = some (str s, rest) := by
  have h : quote s ++ rest = 0x22 :: (quoteUnits s ++ 0x22 :: rest) := by simp [quote]
  rw [h, parseValue, skipWs_cons_of_not_ws 0x22 _ rfl]
  simp [parseStringBody_quoteUnits]

theorem parseValue_arr_empty (f : Nat) (rest : List Nat) :
    parseValue (f + 1) (0x5B :: 0x5D :: rest) = some (arr [], rest) := by
  rw [parseValue, skipWs_cons_of_not_ws 0x5B _ rfl]
  simp [skipWs_cons_of_not_ws 0x5D rest rfl]

theorem parseValue_obj_empty (f : Nat) (rest : List Nat) :
    parseValue (f + 1) (0x7B :: 0x7D :: rest) = some (obj [], rest) := by
  rw [parseValue, skipWs_cons_of_not_ws 0x7B _ rfl]
  simp [skipWs_cons_of_not_ws 0x7D rest rfl]

theorem parseValue_arr (f : Nat) (cs : List Nat) (d : Nat) (ds : List Nat)
    (h : skipWs cs = d :: ds) (hd : d ≠ 0x5D) :
    parseValue (f + 1) (0x5B :: cs) = parseElements f [] (d :: ds) := by
  rw [parseValue, skipWs_cons_of_not_ws 0x5B _ rfl]
  simp [h, hd]

theorem parseValue_obj (f : Nat) (cs : List Nat) (d : Nat) (ds : List Nat)
    (h : skipWs cs = d :: ds) (hd : d ≠ 0x7D) :
    parseValue (f + 1) (0x7B :: cs) = parseMembers f [] (d :: ds) := by
  rw [parseValue, skipWs_cons_of_not_ws 0x7B _ rfl]
  simp [h, hd]

theorem parseElements_more (f : Nat) (acc : List JSON) (input : List Nat) (v : JSON)
    (r cs : List Nat) (hv : parseValue f input = some (v, r)) (hr : skipWs r = 0x2C :: cs) :
    parseElements (f + 1) acc input = parseElements f (acc ++ [v]) cs := by
  rw [parseElements]
  simp [hv, hr]

theorem parseElements_last (f : Nat) (acc : List JSON) (input : List Nat) (v : JSON)
    (r cs : List Nat) (hv : parseValue f input = some (v, r)) (hr : skipWs r = 0x5D :: cs) :
    parseElements (f + 1) acc input = some (arr (acc ++ [v]), cs) := by
  rw [parseElements]
  simp [hv, hr]

theorem parseMembers_more (f : Nat) (acc : List (JSString × JSON)) (input cs : List Nat)
    (k : JSString) (afterKey afterColon : List Nat) (v : JSON) (r cs1 : List Nat)
    (h1 : skipWs input = 0x22 :: cs) (h2 : parseStringBody cs = some (k, afterKey))
    (h3 : skipWs afterKey = 0x3A :: afterColon)
    (h4 : parseValue f afterColon = some (v, r)) (h5 : skipWs r = 0x2C :: cs1) :
    parseMembers (f + 1) acc input = parseMembers f (defineProp acc k v) cs1 := by
  rw [parseMembers]
  simp [h1, h2, h3, h4, h5]

theorem parseMembers_last (f : Nat) (acc : List (JSString × JSON)) (input cs : List Nat)
    (k : JSString) (afterKey afterColon : List Nat) (v : JSON) (r cs1 : List Nat)
    (h1 : skipWs input = 0x22 :: cs) (h2 : parseStringBody cs = some (k, afterKey))
    (h3 : skipWs afterKey = 0x3A :: afterColon)
    (h4 : parseValue f afterColon = some (v, r)) (h5 : skipWs r = 0x7D :: cs1) :
    parseMembers (f + 1) acc input = some (obj (defineProp acc k v), cs1) := by
  rw [parseMembers]
  simp [h1, h2, h3, h4, h5]

end JSON

end TronGridCli

set_option exponentiation.threshold 5000

namespace TronGridCli

namespace JSNumber

/-! # The doubles are closed under rounding -/

theorem log2_zero : log2 0 = 0 := by decide

theorem log2_pow (m : Nat) (h : m < 4096) : log2 (2 ^ m) = m := by
  have h1 : 2 ^ m < 2 ^ 4096 := Nat.pow_lt_pow_right (by decide) h
  have h2 := le_log2 (2 ^ m) m h1 (Nat.le_refl _)
  have h3 := log2_lt (2 ^ m) (m + 1) (Nat.pos_pow_of_pos _ (by decide))
    (Nat.pow_lt_pow_right (by decide) (Nat.lt_succ_self m))
  omega

theorem log2_eq (n m : Nat) (h1 : 2 ^ m ≤ n) (h2 : n < 2 ^ (m + 1)) (hm : m < 4095) :
    log2 n = m := by
  have h4096 : n < 2 ^ 4096 :=
    lt_of_lt_of_le h2 (Nat.pow_le_pow_right (by decide) (by omega))
  have h3 := le_log2 n m h4096 h1
  have h4 := log2_lt n (m + 1) (le_trans (Nat.pos_pow_of_pos _ (by decide)) h1) h2
  omega

theorem roundHalfEven_le_succ (p q : Nat) : roundHalfEven p q ≤ p / q + 1 := by
  unfold roundHalfEven
  split
  · exact Nat.le_succ _
  · split
    · exact Nat.le_refl _
    · split
      · exact Nat.le_succ _
      · exact Nat.le_refl _

/-- A whole number of units with at most 53 binary digits, shifted, is a
double magnitude. -/
theorem isDouble_shift (m sh : Nat) (h1 : 2 ^ 52 ≤ m) (h2 : m ≤ 2 ^ 53)
    (hb : m * 2 ^ sh < 2 ^ 2098) : m * 2 ^ sh % 2 ^ (log2 (m * 2 ^ sh) - 52) = 0 := by
  have hpos : 0 < 2 ^ sh := Nat.pos_pow_of_pos _ (by decide)
  have hsh : sh < 2098 := by
    by_contra hc
    have h3 : (2 : Nat) ^ 2098 ≤ 2 ^ sh := Nat.pow_le_pow_right (by decide) (by omega)
    have h4 : 1 * 2 ^ sh ≤ m * 2 ^ sh :=
      Nat.mul_le_mul_right _ (le_trans (Nat.pos_pow_of_pos _ (by decide)) h1)
    omega
  rcases Nat.lt_or_ge m (2 ^ 53) with hlt | hge
  · have hl : log2 (m * 2 ^ sh) = 52 + sh := by
      apply log2_eq _ _ _ _ (by omega)
      · rw [pow_add]
        exact Nat.mul_le_mul_right _ h1
      · rw [show 52 + sh + 1 = 53 + sh by omega, pow_add]
        exact Nat.mul_lt_mul_of_pos_right hlt hpos
    rw [hl, Nat.add_sub_cancel_left]
    exact Nat.mul_mod_left _ _
  · have hm : m = 2 ^ 53 := Nat.le_antisymm h2 hge
    subst hm
    rw [← pow_add, log2_pow _ (by omega), show 53 + sh - 52 = 1 + sh by omega]
    exact Nat.mod_eq_zero_of_dvd (pow_dvd_pow 2 (by omega))

/-- What rounding yields is a double magnitude. -/
theorem isDouble_roundUnits (p q : Nat) (hq : 0 < q) (hg : ¬ 2 ^ 2098 * q ≤ p)
    (hb : roundUnits p q < 2 ^ 2098) :
    roundUnits p q % 2 ^ (log2 (roundUnits p q) - 52) = 0 := by
  have hx : p / q < 2 ^ 2098 := by
    rw [Nat.div_lt_iff_lt_mul hq]
    exact Nat.lt_of_not_le hg
  have hx4096 : p / q < 2 ^ 4096 :=
    lt_trans hx (Nat.pow_lt_pow_right (by decide) (by decide))
  by_cases hl : log2 (p / q) ≤ 52
  · have hsh : log2 (p / q) - 52 = 0 := Nat.sub_eq_zero_of_le hl
    have hlt : p / q < 2 ^ 53 :=
      lt_of_lt_of_le (lt_pow_log2 _ hx4096) (Nat.pow_le_pow_right (by decide) (by omega))
    unfold roundUnits
    rw [hsh, pow_zero, Nat.mul_one, Nat.mul_one]
    have hr := roundHalfEven_le_succ p q
    generalize roundHalfEven p q = r at hr ⊢
    rcases Nat.lt_or_ge r (2 ^ 53) with h1 | h1
    · have h2 : log2 r - 52 = 0 := by
        rcases Nat.eq_zero_or_pos r with h0 | h0
        · rw [h0, log2_zero]
        · have := log2_lt r 53 h0 h1
          omega
      rw [h2, pow_zero, Nat.mod_one]
    · have h2 : r = 2 ^ 53 := by omega
      rw [h2, log2_pow 53 (by decide)]
      decide
  · have hL : 52 < log2 (p / q) := Nat.lt_of_not_le hl
    have hx1 : 1 ≤ p / q := by
      rcases Nat.eq_zero_or_pos (p / q) with h0 | h0
      · rw [h0, log2_zero] at hL
        omega
      · exact h0
    have hlo := pow_log2_le (p / q) hx1
    have hhi := lt_pow_log2 (p / q) hx4096
    have hb1 := hb
    unfold roundUnits at hb1 ⊢
    generalize hsh : log2 (p / q) - 52 = sh at hb1 ⊢
    have hL2 : log2 (p / q) = 52 + sh := by omega
    rw [hL2] at hlo hhi
    have hpos : 0 < 2 ^ sh := Nat.pos_pow_of_pos _ (by decide)
    have ht : p / (q * 2 ^ sh) = p / q / 2 ^ sh := (Nat.div_div_eq_div_mul p q (2 ^ sh)).symm
    have ht1 : 2 ^ 52 ≤ p / (q * 2 ^ sh) := by
      rw [ht, Nat.le_div_iff_mul_le hpos, ← pow_add]
      exact hlo
    have ht2 : p / (q * 2 ^ sh) < 2 ^ 53 := by
      rw [ht, Nat.div_lt_iff_lt_mul hpos, ← pow_add, show 53 + sh = 52 + sh + 1 by omega]
      exact hhi
    have hr1 := div_le_roundHalfEven p (q * 2 ^ sh)
    have hr2 := roundHalfEven_le_succ p (q * 2 ^ sh)
    generalize roundHalfEven p (q * 2 ^ sh) = r at hb1 hr1 hr2 ⊢
    exact isDouble_shift r sh (by omega) (by omega) hb1

/-- The value of `ofRatio` is a double. -/
theorem isDouble_ofRatio (negative : Bool) (p q : Nat) (hq : 0 < q) :
    isDouble (ofRatio negative p q) = true := by
  unfold ofRatio
  split
  · rfl
  · split
    · rename_i hg hb
      simp only [isDouble, Bool.and_eq_true, decide_eq_true_eq]
      exact ⟨hb, isDouble_roundUnits p q hq hg hb⟩
    · rfl

/-- The value of a number literal is a double. -/
theorem isDouble_ofDecimal (negative : Bool) (digits : Nat) (exponent : Int) :
    isDouble (ofDecimal negative digits exponent) = true := by
  unfold ofDecimal
  split
  · exact isDouble_ofRatio _ _ _ (by decide)
  · exact isDouble_ofRatio _ _ _ (Nat.pos_pow_of_pos _ (by decide))

/-! # Rounding a double gives the double -/

theorem roundHalfEven_of_dvd (p q : Nat) (hq : 0 < q) (h : p % q = 0) :
    roundHalfEven p q = p / q := by
  unfold roundHalfEven
  rw [h, if_pos (by omega)]

/-- A double magnitude is its own rounding. -/
theorem roundUnits_self (u : Nat) (h : u % 2 ^ (log2 u - 52) = 0) : roundUnits u 1 = u := by
  unfold roundUnits
  rw [Nat.div_one, Nat.one_mul,
    roundHalfEven_of_dvd u _ (Nat.pos_pow_of_pos _ (by decide)) h]
  exact Nat.div_mul_cancel (Nat.dvd_of_mod_eq_zero h)

theorem ofRatio_self (negative : Bool) (u : Nat) (h : isDouble (fin negative u) = true) :
    ofRatio negative u 1 = fin negative u := by
  simp only [isDouble, Bool.and_eq_true, decide_eq_true_eq] at h
  unfold ofRatio
  rw [Nat.mul_one, if_neg (Nat.not_le_of_lt h.1), roundUnits_self u h.2, if_pos h.1]

/-! # Rounding depends on the ratio only -/

theorem roundHalfEven_mul_left (c p q : Nat) (hc : 0 < c) :
    roundHalfEven (c * p) (c * q) = roundHalfEven p q := by
  unfold roundHalfEven
  rw [Nat.mul_div_mul_left p q hc, Nat.mul_mod_mul_left]
  have h1 : 2 * (c * (p % q)) < c * q ↔ 2 * (p % q) < q := by
    rw [show 2 * (c * (p % q)) = c * (2 * (p % q)) by ring]
    exact Nat.mul_lt_mul_left hc
  have h2 : c * q < 2 * (c * (p % q)) ↔ q < 2 * (p % q) := by
    rw [show 2 * (c * (p % q)) = c * (2 * (p % q)) by ring]
    exact Nat.mul_lt_mul_left hc
  simp only [h1, h2]

theorem roundUnits_mul_left (c p q : Nat) (hc : 0 < c) :
    roundUnits (c * p) (c * q) = roundUnits p q := by
  unfold roundUnits
  rw [Nat.mul_div_mul_left p q hc, Nat.mul_assoc, roundHalfEven_mul_left c p _ hc]

theorem ofRatio_mul_left (negative : Bool) (c p q : Nat) (hc : 0 < c) :
    ofRatio negative (c * p) (c * q) = ofRatio negative p q := by
  unfold ofRatio
  rw [roundUnits_mul_left c p q hc]
  have h1 : 2 ^ 2098 * (c * q) ≤ c * p ↔ 2 ^ 2098 * q ≤ p := by
    rw [show 2 ^ 2098 * (c * q) = c * (2 ^ 2098 * q) by ring]
    exact mul_le_mul_left hc
  simp only [h1]

/-- A decimal keeps its value when digits are traded for exponent. -/
theorem ofDecimal_shift (negative : Bool) (d j : Nat) (e : Int) :
    ofDecimal negative (d * 10 ^ j) e = ofDecimal negative d (e + j) := by
  have h10 : ∀ k : Nat, 0 < 10 ^ k := fun k => Nat.pos_pow_of_pos _ (by decide)
  unfold ofDecimal
  by_cases h1 : 0 ≤ e
  · have h2 : 0 ≤ e + j := by omega
    rw [if_pos h1, if_pos h2]
    have h3 : (e + j).toNat = j + e.toNat := by omega
    have h4 : d * 10 ^ j * 10 ^ e.toNat * 2 ^ 1074 = d * 10 ^ (e + j).toNat * 2 ^ 1074 := by
      rw [h3, pow_add]
      ring
    rw [h4]
  · by_cases h2 : 0 ≤ e + j
    · rw [if_neg h1, if_pos h2]
      have h3 : j = (e + j).toNat + (-e).toNat := by omega
      have h4 : d * 10 ^ j * 2 ^ 1074 =
          10 ^ (-e).toNat * (d * 10 ^ (e + j).toNat * 2 ^ 1074) := by
        conv_lhs => rw [h3, pow_add]
        ring
      have h5 := ofRatio_mul_left negative (10 ^ (-e).toNat)
        (d * 10 ^ (e + j).toNat * 2 ^ 1074) 1 (h10 _)
      rw [Nat.mul_one] at h5
      rw [h4, h5]
    · rw [if_neg h1, if_neg h2]
      have h3 : (-e).toNat = j + (-(e + j)).toNat := by omega
      have h4 : d * 10 ^ j * 2 ^ 1074 = 10 ^ j * (d * 2 ^ 1074) := by ring
      rw [h3, pow_add, h4]
      exact ofRatio_mul_left _ _ _ _ (h10 _)

theorem ofRatio_sign (n1 n2 : Bool) (p q u : Nat) (h : ofRatio n1 p q = fin n1 u) :
    ofRatio n2 p q = fin n2 u := by
  unfold ofRatio at h ⊢
  by_cases hg : 2 ^ 2098 * q ≤ p
  · rw [if_pos hg] at h
    cases h
  · rw [if_neg hg] at h ⊢
    by_cases hb : roundUnits p q < 2 ^ 2098
    · rw [if_pos hb] at h ⊢
      rw [(JSNumber.fin.inj h).2]
    · rw [if_neg hb] at h
      cases h

theorem ofDecimal_sign (n1 n2 : Bool) (d u : Nat) (e : Int)
    (h : ofDecimal n1 d e = fin n1 u) : ofDecimal n2 d e = fin n2 u := by
  unfold ofDecimal at h ⊢
  by_cases he : 0 ≤ e
  · rw [if_pos he] at h ⊢
    exact ofRatio_sign n1 n2 _ _ u h
  · rw [if_neg he] at h ⊢
    exact ofRatio_sign n1 n2 _ _ u h

theorem ofDecimal_zero (negative : Bool) (e : Int) : ofDecimal negative 0 e = fin negative 0 := by
  have h0 : ∀ q, 0 < q → ofRatio negative 0 q = fin negative 0 := by
    intro q hq
    have hg : ¬ 2 ^ 2098 * q ≤ 0 := by
      have : 0 < 2 ^ 2098 * q := Nat.mul_pos (Nat.pos_pow_of_pos _ (by decide)) hq
      omega
    have hr : roundUnits 0 q = 0 := by
      unfold roundUnits roundHalfEven
      simp
    unfold ofRatio
    rw [if_neg hg, hr, if_pos (Nat.pos_pow_of_pos _ (by decide))]
  unfold ofDecimal
  split
  · rw [Nat.zero_mul, Nat.zero_mul]
    exact h0 1 (by decide)
  · rw [Nat.zero_mul]
    exact h0 _ (Nat.pos_pow_of_pos _ (by decide))

end JSNumber

end TronGridCli

set_option exponentiation.threshold 5000

namespace TronGridCli

namespace JSON

/-! # Decimal numerals -/

theorem indexValue_foldl (l : List Nat) (acc : Nat) :
    l.foldl (fun acc c => acc * 10 + (c - 0x30)) acc =
      acc * 10 ^ l.length + l.foldl (fun acc c => acc * 10 + (c - 0x30)) 0 := by
  induction l generalizing acc with
  | nil => simp
  | cons c cs ih =>
    rw [List.foldl_cons, List.foldl_cons, ih, ih (0 * 10 + (c - 0x30)), List.length_cons,
      pow_succ]
    ring

theorem indexValue_append (a b : List Nat) :
    indexValue (a ++ b) = indexValue a * 10 ^ b.length + indexValue b := by
  unfold indexValue
  rw [List.foldl_append, indexValue_foldl]

theorem indexValue_singleton (c : Nat) : indexValue [c] = c - 0x30 := by
  simp [indexValue]

theorem indexValue_cons (c : Nat) (cs : List Nat) :
    indexValue (c :: cs) = (c - 0x30) * 10 ^ cs.length + indexValue cs := by
  rw [← List.singleton_append, indexValue_append, indexValue_singleton]

theorem indexValue_zeros (z : Nat) : indexValue (List.replicate z 0x30) = 0 := by
  induction z with
  | zero => rfl
  | succ z ih =>
    rw [List.replicate_succ, indexValue_cons, ih, Nat.sub_self, Nat.zero_mul]

theorem indexValue_append_zeros (a : List Nat) (z : Nat) :
    indexValue (a ++ List.replicate z 0x30) = indexValue a * 10 ^ z := by
  rw [indexValue_append, indexValue_zeros, List.length_replicate, Nat.add_zero]

theorem indexValue_zeros_append (a : List Nat) (z : Nat) :
    indexValue (List.replicate z 0x30 ++ a) = indexValue a := by
  rw [indexValue_append, indexValue_zeros, Nat.zero_mul, Nat.zero_add]

theorem isDigit_digit (n : Nat) (h : n < 10) : isDigit (0x30 + n) = true := by
  simp only [isDigit, Bool.and_eq_true, decide_eq_true_eq]
  omega

theorem isDigit_zeros (z : Nat) : ∀ c ∈ List.replicate z 0x30, isDigit c = true := by
  intro c hc
  rw [(List.mem_replicate.1 hc).2]
  rfl

theorem takeDigits_append (ds rest : List Nat) (hd : ∀ c ∈ ds, isDigit c = true)
    (hr : ∀ c ∈ rest.head?, isDigit c = false) : takeDigits (ds ++ rest) = (ds, rest) := by
  induction ds with
  | nil =>
    cases rest with
    | nil => rfl
    | cons c cs =>
      have h := hr c rfl
      rw [List.nil_append, takeDigits, h]
      rfl
  | cons d ds ih =>
    have h1 := hd d (List.mem_cons_self _ _)
    have h2 := ih (fun c hc => hd c (List.mem_cons_of_mem _ hc))
    rw [List.cons_append, takeDigits, if_pos h1, h2]

theorem digitsLoop_digits (fuel n : Nat) (acc : List Nat)
    (h : ∀ c ∈ acc, isDigit c = true) : ∀ c ∈ digitsLoop fuel n acc, isDigit c = true := by
  induction fuel generalizing n acc with
  | zero => exact h
  | succ f ih =>
    rw [digitsLoop]
    split
    · intro c hc
      rcases List.mem_cons.1 hc with rfl | hc
      · exact isDigit_digit n ‹_›
      · exact h c hc
    · apply ih
      intro c hc
      rcases List.mem_cons.1 hc with rfl | hc
      · exact isDigit_digit _ (Nat.mod_lt _ (by decide))
      · exact h c hc

theorem digitsLoop_value (fuel n : Nat) (acc : List Nat) (h : n < fuel) :
    indexValue (digitsLoop fuel n acc) = n * 10 ^ acc.length + indexValue acc := by
  induction fuel generalizing n acc with
  | zero => omega
  | succ f ih =>
    rw [digitsLoop]
    split
    · rw [indexValue_cons, Nat.add_sub_cancel_left]
    · rw [ih _ _ (by omega), indexValue_cons, Nat.add_sub_cancel_left, List.length_cons,
        pow_succ]
      have e := Nat.div_add_mod n 10
      generalize 10 ^ acc.length = t
      calc n / 10 * (t * 10) + (n % 10 * t + indexValue acc)
          = (10 * (n / 10) + n % 10) * t + indexValue acc := by ring
        _ = n * t + indexValue acc := by rw [e]

theorem digitsLoop_head (fuel n : Nat) (acc : List Nat) (h : n < fuel) (h0 : 0 < n) :
    ∃ d ds, digitsLoop fuel n acc = d :: ds ∧ d ≠ 0x30 := by
  induction fuel generalizing n acc with
  | zero => omega
  | succ f ih =>
    rw [digitsLoop]
    split
    · exact ⟨_, _, rfl, by omega⟩
    · exact ih _ _ (by omega) (by omega)

theorem digitsOf_digits (n : Nat) : ∀ c ∈ digitsOf n, isDigit c = true :=
  digitsLoop_digits _ _ _ (fun _ hc => absurd hc (List.not_mem_nil _))

theorem digitsOf_value (n : Nat) : indexValue (digitsOf n) = n := by
  rw [digitsOf, digitsLoop_value _ _ _ (Nat.lt_succ_self n)]
  simp [indexValue]

theorem digitsOf_head (n : Nat) (h0 : 0 < n) : ∃ d ds, digitsOf n = d :: ds ∧ d ≠ 0x30 :=
  digitsLoop_head _ _ _ (Nat.lt_succ_self n) h0

theorem digitsOf_ne_nil (n : Nat) : digitsOf n ≠ [] := by
  rcases Nat.eq_zero_or_pos n with rfl | h0
  · decide
  · obtain ⟨d, ds, h, _⟩ := digitsOf_head n h0
    rw [h]
    exact List.cons_ne_nil _ _

theorem stripZeros_append (l : List Nat) :
    ∃ z, l = stripZeros l ++ List.replicate z 0x30 := by
  refine ⟨(l.reverse.takeWhile fun c => decide (c = 0x30)).length, ?_⟩
  have h := List.takeWhile_append_dropWhile (fun c => decide (c = 0x30)) l.reverse
  have h2 : (l.reverse.takeWhile fun c => decide (c = 0x30)) =
      List.replicate (l.reverse.takeWhile fun c => decide (c = 0x30)).length 0x30 :=
    List.eq_replicate_iff.2 ⟨rfl, fun b hb => by simpa using List.mem_takeWhile_imp hb⟩
  have h3 := congrArg List.reverse h
  rw [List.reverse_append, List.reverse_reverse, h2, List.reverse_replicate] at h3
  exact h3.symm

theorem stripZeros_cons (d : Nat) (ds : List Nat) (h0 : d ≠ 0x30) :
    ∃ ss z, stripZeros (d :: ds) = d :: ss ∧ d :: ds = d :: ss ++ List.replicate z 0x30 := by
  obtain ⟨z, hz⟩ := stripZeros_append (d :: ds)
  cases hs : stripZeros (d :: ds) with
  | nil =>
    rw [hs, List.nil_append] at hz
    have hm : d ∈ List.replicate z 0x30 := by
      rw [← hz]
      exact List.mem_cons_self _ _
    exact absurd (List.mem_replicate.1 hm).2 h0
  | cons s ss =>
    rw [hs, List.cons_append] at hz
    obtain ⟨rfl, hds⟩ := List.cons.inj hz
    exact ⟨ss, z, rfl, by rw [hds]; rfl⟩

/-! # Reading a numeral back -/

theorem parseInt_digits (d : Nat) (ds rest : List Nat) (h1 : isDigit d = true)
    (h0 : d ≠ 0x30) (hd : ∀ c ∈ ds, isDigit c = true)
    (hr : ∀ c ∈ rest.head?, isDigit c = false) :
    parseInt (d :: (ds ++ rest)) = some (d :: ds, rest) := by
  rw [parseInt, if_neg h0, if_pos h1, takeDigits_append ds rest hd hr]

theorem parseInt_zero (rest : List Nat) : parseInt (0x30 :: rest) = some ([0x30], rest) := by
  rw [parseInt, if_pos rfl]

theorem parseFrac_digits (frac rest : List Nat) (hne : frac ≠ [])
    (hd : ∀ c ∈ frac, isDigit c = true) (hr : ∀ c ∈ rest.head?, isDigit c = false) :
    parseFrac (0x2E :: (frac ++ rest)) = some (frac, rest) := by
  rw [parseFrac, if_pos rfl, takeDigits_append frac rest hd hr]
  cases frac with
  | nil => exact absurd rfl hne
  | cons c cs => rfl

theorem parseFrac_none (rest : List Nat) (hr : ∀ c ∈ rest.head?, c ≠ 0x2E) :
    parseFrac rest = some ([], rest) := by
  cases rest with
  | nil => rfl
  | cons c cs => rw [parseFrac, if_neg (hr c rfl)]

theorem parseExp_none (rest : List Nat) (hr : ∀ c ∈ rest.head?, c ≠ 0x65 ∧ c ≠ 0x45) :
    parseExp rest = some (0, rest) := by
  cases rest with
  | nil => rfl
  | cons c cs =>
    have h := hr c rfl
    rw [parseExp.eq_def]
    simp only [if_neg (show ¬ (c = 0x65 ∨ c = 0x45) by tauto)]

theorem parseExp_digits (n : Int) (rest : List Nat)
    (hr : ∀ c ∈ rest.head?, isDigit c = false) :
    parseExp (0x65 :: (if n < 0 then 0x2D else 0x2B) :: (digitsOf n.natAbs ++ rest)) =
      some (n, rest) := by
  have ht := takeDigits_append (digitsOf n.natAbs) rest (digitsOf_digits _) hr
  have hv := digitsOf_value n.natAbs
  have hne := digitsOf_ne_nil n.natAbs
  generalize digitsOf n.natAbs = D at ht hv hne
  cases D with
  | nil => exact absurd rfl hne
  | cons c cs =>
    by_cases hn : n < 0
    · rw [if_pos hn, parseExp, if_pos (Or.inl rfl)]
      simp only [if_neg (by decide : ¬ (0x2D : Nat) = 0x2B), if_true, ht, hv]
      congr 2
      omega
    · rw [if_neg hn, parseExp, if_pos (Or.inl rfl)]
      simp only [if_true, ht, hv]
      congr 2
      omega

theorem parseNumber_parts (negative : Bool) (text int frac r1 r2 r3 : List Nat) (exp : Int)
    (hc : text.head? ≠ some 0x2D) (h1 : parseInt text = some (int, r1))
    (h2 : parseFrac r1 = some (frac, r2)) (h3 : parseExp r2 = some (exp, r3)) :
    parseNumber ((if negative then [0x2D] else []) ++ text) =
      some (JSNumber.ofDecimal negative (indexValue (int ++ frac)) (exp - frac.length), r3) := by
  cases text with
  | nil => cases h1
  | cons c cs =>
    have hc1 : c ≠ 0x2D := fun h => hc (by rw [h]; rfl)
    cases negative
    · simp only [Bool.false_eq_true, if_false, List.nil_append, parseNumber, if_neg hc1, h1, h2,
        h3]
    · simp only [if_true, List.singleton_append, parseNumber, h1, h2, h3]

end JSON

end TronGridCli

set_option exponentiation.threshold 5000

namespace TronGridCli

namespace JSON

/-! # Reading back the text of a decimal -/

theorem isDigit_ne (c : Nat) (h : isDigit c = true) :
    c ≠ 0x2D ∧ c ≠ 0x2E ∧ c ≠ 0x65 ∧ c ≠ 0x45 ∧ c < 0xD800 := by
  simp only [isDigit, Bool.and_eq_true, decide_eq_true_eq] at h
  omega

theorem head_not_digit (c : Nat) (cs : List Nat) (h : isDigit c = false) :
    ∀ x ∈ (c :: cs).head?, isDigit x = false := by
  intro x hx
  cases hx
  exact h

/-- The plain layout: the digits, then zeros up to the decimal point. -/
theorem parts_plain (negative : Bool) (d : Nat) (ds : List Nat) (n : Int) (rest : List Nat)
    (h1 : isDigit d = true) (h0 : d ≠ 0x30) (hd : ∀ c ∈ ds, isDigit c = true)
    (hr : ∀ c ∈ rest.head?, isDigit c = false ∧ c ≠ 0x2E ∧ c ≠ 0x65 ∧ c ≠ 0x45)
    (hn : ((d :: ds).length : Int) ≤ n) :
    parseNumber ((if negative then [0x2D] else []) ++
        ((d :: ds) ++ List.replicate (n.toNat - (d :: ds).length) 0x30 ++ rest)) =
      some (JSNumber.ofDecimal negative (indexValue (d :: ds)) (n - (d :: ds).length), rest) := by
  have hint := parseInt_digits d (ds ++ List.replicate (n.toNat - (d :: ds).length) 0x30) rest
    h1 h0 (fun c hc => (List.mem_append.1 hc).elim (hd c) (isDigit_zeros _ c))
    (fun c hc => (hr c hc).1)
  have e : (d :: ds) ++ List.replicate (n.toNat - (d :: ds).length) 0x30 ++ rest =
      d :: (ds ++ List.replicate (n.toNat - (d :: ds).length) 0x30 ++ rest) := by
    simp
  have h := parseNumber_parts negative
    (d :: (ds ++ List.replicate (n.toNat - (d :: ds).length) 0x30 ++ rest)) _ [] _ rest rest 0
    (by rw [List.head?_cons]
        exact fun h => (isDigit_ne d h1).1 (Option.some.inj h))
    hint
    (parseFrac_none rest fun c hc => (hr c hc).2.1)
    (parseExp_none rest fun c hc => (hr c hc).2.2)
  rw [e, h, List.append_nil, ← List.cons_append, indexValue_append_zeros,
    JSNumber.ofDecimal_shift]
  congr 3
  rw [List.length_nil]
  have hl : (d :: ds).length ≤ n.toNat := by omega
  omega

/-- The layout with the decimal point inside the digits. -/
theorem parts_point (negative : Bool) (d : Nat) (ds : List Nat) (n : Int) (rest : List Nat)
    (h1 : isDigit d = true) (h0 : d ≠ 0x30) (hd : ∀ c ∈ ds, isDigit c = true)
    (hr : ∀ c ∈ rest.head?, isDigit c = false ∧ c ≠ 0x2E ∧ c ≠ 0x65 ∧ c ≠ 0x45)
    (hn0 : 0 < n) (hn : n < ((d :: ds).length : Int)) :
    parseNumber ((if negative then [0x2D] else []) ++
        ((d :: ds).take n.toNat ++ 0x2E :: (d :: ds).drop n.toNat ++ rest)) =
      some (JSNumber.ofDecimal negative (indexValue (d :: ds)) (n - (d :: ds).length), rest) := by
  obtain ⟨m, hm⟩ : ∃ m, n.toNat = m + 1 := ⟨n.toNat - 1, by omega⟩
  have hml : m < ds.length := by
    rw [List.length_cons] at hn
    omega
  rw [hm, List.take_succ_cons, List.drop_succ_cons]
  have hint := parseInt_digits d (ds.take m) (0x2E :: (ds.drop m ++ rest)) h1 h0
    (fun c hc => hd c (List.mem_of_mem_take hc)) (head_not_digit _ _ (by decide))
  have hfrac := parseFrac_digits (ds.drop m) rest
    (fun h => by
      have := congrArg List.length h
      rw [List.length_drop, List.length_nil] at this
      omega)
    (fun c hc => hd c (List.mem_of_mem_drop hc)) (fun c hc => (hr c hc).1)
  have h := parseNumber_parts negative (d :: (ds.take m ++ 0x2E :: (ds.drop m ++ rest)))
    (d :: ds.take m) (ds.drop m) _ rest rest 0
    (by rw [List.head?_cons]
        exact fun h => (isDigit_ne d h1).1 (Option.some.inj h))
    hint hfrac (parseExp_none rest fun c hc => (hr c hc).2.2)
  have e : d :: List.take m ds ++ 0x2E :: List.drop m ds ++ rest =
      d :: (ds.take m ++ 0x2E :: (ds.drop m ++ rest)) := by
    simp
  rw [e, h, List.cons_append, List.take_append_drop]
  congr 3
  rw [List.length_drop, List.length_cons]
  omega

/-- The layout with a leading `0.` and zeros before the digits. -/
theorem parts_small (negative : Bool) (d : Nat) (ds : List Nat) (n : Int) (rest : List Nat)
    (h1 : isDigit d = true) (hd : ∀ c ∈ ds, isDigit c = true)
    (hr : ∀ c ∈ rest.head?, isDigit c = false ∧ c ≠ 0x2E ∧ c ≠ 0x65 ∧ c ≠ 0x45)
    (hn : n ≤ 0) :
    parseNumber ((if negative then [0x2D] else []) ++
        (0x30 :: 0x2E :: (List.replicate (-n).toNat 0x30 ++ (d :: ds)) ++ rest)) =
      some (JSNumber.ofDecimal negative (indexValue (d :: ds)) (n - (d :: ds).length), rest) := by
  have hfrac := parseFrac_digits (List.replicate (-n).toNat 0x30 ++ (d :: ds)) rest
    (by simp)
    (fun c hc => (List.mem_append.1 hc).elim (isDigit_zeros _ c)
      (fun hc => (List.mem_cons.1 hc).elim (fun e => e ▸ h1) (hd c)))
    (fun c hc => (hr c hc).1)
  have h := parseNumber_parts negative
    (0x30 :: 0x2E :: (List.replicate (-n).toNat 0x30 ++ (d :: ds) ++ rest))
    [0x30] (List.replicate (-n).toNat 0x30 ++ (d :: ds)) _ rest rest 0
    (by rw [List.head?_cons]; decide) (parseInt_zero _) hfrac
    (parseExp_none rest fun c hc => (hr c hc).2.2)
  have e : 0x30 :: 0x2E :: (List.replicate (-n).toNat 0x30 ++ (d :: ds)) ++ rest =
      0x30 :: 0x2E :: (List.replicate (-n).toNat 0x30 ++ (d :: ds) ++ rest) := by
    simp
  have e2 : [0x30] ++ (List.replicate (-n).toNat 0x30 ++ (d :: ds)) =
      List.replicate ((-n).toNat + 1) 0x30 ++ (d :: ds) := by
    rw [List.replicate_succ]
    rfl
  rw [e, h, e2, indexValue_zeros_append]
  congr 3
  rw [List.length_append, List.length_replicate, List.length_cons]
  omega

/-- The exponent layout. -/
theorem parts_exponent (negative : Bool) (d : Nat) (ds : List Nat) (n : Int) (rest : List Nat)
    (h1 : isDigit d = true) (h0 : d ≠ 0x30) (hd : ∀ c ∈ ds, isDigit c = true)
    (hr : ∀ c ∈ rest.head?, isDigit c = false ∧ c ≠ 0x2E ∧ c ≠ 0x65 ∧ c ≠ 0x45) :
    parseNumber ((if negative then [0x2D] else []) ++
        ((match d :: ds with
          | [] => []
          | [d] => d :: 0x65 :: (if n - 1 < 0 then 0x2D else 0x2B) :: digitsOf (n - 1).natAbs
          | d :: ds =>
            d :: 0x2E :: (ds ++ 0x65 :: (if n - 1 < 0 then 0x2D else 0x2B) ::
              digitsOf (n - 1).natAbs)) ++ rest)) =
      some (JSNumber.ofDecimal negative (indexValue (d :: ds)) (n - (d :: ds).length), rest) := by
  have hexp := parseExp_digits (n - 1) rest (fun c hc => (hr c hc).1)
  cases ds with
  | nil =>
    have hint := parseInt_digits d []
      (0x65 :: (if n - 1 < 0 then 0x2D else 0x2B) :: (digitsOf (n - 1).natAbs ++ rest)) h1 h0
      (fun c hc => absurd hc (List.not_mem_nil _)) (head_not_digit _ _ (by decide))
    have h := parseNumber_parts negative _ [d] [] _ _ rest (n - 1)
      (by rw [List.nil_append, List.head?_cons]
          exact fun h => (isDigit_ne d h1).1 (Option.some.inj h))
      hint (parseFrac_none _ (fun c hc => by cases hc; decide)) hexp
    simp only [List.cons_append, List.nil_append] at h ⊢
    rw [h]
    congr 3
    simp
  | cons e es =>
    have hint := parseInt_digits d []
      (0x2E :: ((e :: es) ++ 0x65 :: (if n - 1 < 0 then 0x2D else 0x2B) ::
        (digitsOf (n - 1).natAbs ++ rest))) h1 h0
      (fun c hc => absurd hc (List.not_mem_nil _)) (head_not_digit _ _ (by decide))
    have hfrac := parseFrac_digits (e :: es)
      (0x65 :: (if n - 1 < 0 then 0x2D else 0x2B) :: (digitsOf (n - 1).natAbs ++ rest))
      (List.cons_ne_nil _ _) hd (head_not_digit _ _ (by decide))
    have h := parseNumber_parts negative _ [d] (e :: es) _ _ rest (n - 1)
      (by rw [List.nil_append, List.head?_cons]
          exact fun h => (isDigit_ne d h1).1 (Option.some.inj h))
      hint hfrac hexp
    simp only [List.cons_append, List.nil_append, List.append_assoc] at h ⊢
    rw [h]
    congr 3
    simp only [List.length_cons]
    omega

theorem parseNumber_formatDecimal (negative : Bool) (d : Nat) (ds : List Nat) (n : Int)
    (rest : List Nat) (h1 : isDigit d = true) (h0 : d ≠ 0x30)
    (hd : ∀ c ∈ ds, isDigit c = true)
    (hr : ∀ c ∈ rest.head?, isDigit c = false ∧ c ≠ 0x2E ∧ c ≠ 0x65 ∧ c ≠ 0x45) :
    parseNumber ((if negative then [0x2D] else []) ++ (formatDecimal (d :: ds) n ++ rest)) =
      some (JSNumber.ofDecimal negative (indexValue (d :: ds)) (n - (d :: ds).length), rest) := by
  unfold formatDecimal
  by_cases c1 : ((d :: ds).length : Int) ≤ n ∧ n ≤ 21
  · rw [if_pos c1]
    exact parts_plain negative d ds n rest h1 h0 hd hr c1.1
  · rw [if_neg c1]
    by_cases c2 : 0 < n ∧ n ≤ 21
    · rw [if_pos c2]
      exact parts_point negative d ds n rest h1 h0 hd hr c2.1 (by omega)
    · rw [if_neg c2]
      by_cases c3 : -6 < n ∧ n ≤ 0
      · rw [if_pos c3]
        exact parts_small negative d ds n rest h1 hd hr c3.2
      · rw [if_neg c3]
        exact parts_exponent negative d ds n rest h1 h0 hd hr

/-- The text of a decimal starts with a digit. -/
theorem formatDecimal_head (d : Nat) (ds : List Nat) (n : Int) (h1 : isDigit d = true) :
    ∃ c cs, formatDecimal (d :: ds) n = c :: cs ∧ isDigit c = true := by
  unfold formatDecimal
  split
  · exact ⟨d, _, rfl, h1⟩
  · split
    · rename_i c2
      obtain ⟨m, hm⟩ : ∃ m, n.toNat = m + 1 := ⟨n.toNat - 1, by omega⟩
      rw [hm, List.take_succ_cons]
      exact ⟨d, _, rfl, h1⟩
    · split
      · exact ⟨0x30, _, rfl, rfl⟩
      · cases ds with
        | nil => exact ⟨d, _, rfl, h1⟩
        | cons e es => exact ⟨d, _, rfl, h1⟩

/-- The text of a decimal is made of digits, the point, `e` and a sign. -/
theorem formatDecimal_ascii (digits : List Nat) (n : Int)
    (hd : ∀ c ∈ digits, isDigit c = true) : ∀ c ∈ formatDecimal digits n, c < 0xD800 := by
  have hdig : ∀ c, isDigit c = true → c < 0xD800 := fun c h => (isDigit_ne c h).2.2.2.2
  have hexp : ∀ c ∈ (0x65 :: (if n - 1 < 0 then 0x2D else 0x2B) :: digitsOf (n - 1).natAbs),
      c < 0xD800 := by
    intro c hc
    rcases List.mem_cons.1 hc with rfl | hc
    · decide
    · rcases List.mem_cons.1 hc with rfl | hc
      · split <;> decide
      · exact hdig c (digitsOf_digits _ c hc)
  unfold formatDecimal
  intro c hc
  split at hc
  · rcases List.mem_append.1 hc with h | h
    · exact hdig c (hd c h)
    · exact hdig c (isDigit_zeros _ c h)
  · split at hc
    · rcases List.mem_append.1 hc with h | h
      · exact hdig c (hd c (List.mem_of_mem_take h))
      · rcases List.mem_cons.1 h with rfl | h
        · decide
        · exact hdig c (hd c (List.mem_of_mem_drop h))
    · split at hc
      · rcases List.mem_cons.1 hc with rfl | hc
        · decide
        · rcases List.mem_cons.1 hc with rfl | hc
          · decide
          · rcases List.mem_append.1 hc with h | h
            · exact hdig c (isDigit_zeros _ c h)
            · exact hdig c (hd c h)
      · split at hc
        · exact absurd hc (List.not_mem_nil _)
        · rcases List.mem_cons.1 hc with rfl | hc
          · exact hdig c (hd c (List.mem_cons_self _ _))
          · exact hexp c hc
        · rcases List.mem_cons.1 hc with rfl | hc
          · exact hdig c (hd c (List.mem_cons_self _ _))
          · rcases List.mem_cons.1 hc with rfl | hc
            · decide
            · rcases List.mem_append.1 hc with h | h
              · exact hdig c (hd c (List.mem_cons_of_mem _ h))
              · exact hexp c h

end JSON

end TronGridCli

set_option exponentiation.threshold 5000

namespace TronGridCli

namespace JSON

/-! # The shortest decimal of a double -/

theorem log10_step_le (n : Nat) (l : List Nat) :
    ∀ e, 10 ^ e ≤ n →
      10 ^ l.foldl (fun e b => if 10 ^ (e + b) ≤ n then e + b else e) e ≤ n := by
  induction l with
  | nil => exact fun e h => h
  | cons b l ih =>
    intro e h
    rw [List.foldl_cons]
    by_cases hb : 10 ^ (e + b) ≤ n
    · rw [if_pos hb]
      exact ih _ hb
    · rw [if_neg hb]
      exact ih _ h

theorem pow_log10_le (n : Nat) (h : 1 ≤ n) : 10 ^ log10 n ≤ n :=
  log10_step_le n _ 0 (by simpa using h)

theorem log10_zero : log10 0 = 0 := by decide

theorem log10_lt (n m : Nat) (hm : 0 < m) (h : n < 10 ^ m) : log10 n < m := by
  rcases Nat.eq_zero_or_pos n with rfl | h1
  · rw [log10_zero]
    exact hm
  · exact (Nat.pow_lt_pow_iff_right (by decide : 1 < 10)).1
      (lt_of_le_of_lt (pow_log10_le n h1) h)

theorem decimalExponent_bounds (u : Nat) :
    -323 ≤ decimalExponent u ∧ decimalExponent u ≤ 324 ∨ 2 ^ 2098 ≤ u := by
  by_cases hu : u < 2 ^ 2098
  · left
    have hpow : (2 : Nat) ^ 1074 ≤ 10 ^ 324 := by decide
    unfold decimalExponent
    by_cases h : 2 ^ 1074 ≤ u
    · rw [if_pos h]
      have h1 : u / 2 ^ 1074 < 10 ^ 324 := by
        have h2 : u / 2 ^ 1074 < 2 ^ 1024 := by
          rw [Nat.div_lt_iff_lt_mul (Nat.pos_pow_of_pos _ (by decide)), ← pow_add]
          exact hu
        exact lt_of_lt_of_le h2 (by decide)
      have h3 := log10_lt _ 324 (by decide) h1
      clear h h1 hu hpow
      omega
    · rw [if_neg h]
      have h1 : (2 ^ 1074 - 1) / u < 10 ^ 324 :=
        lt_of_le_of_lt (Nat.div_le_self _ _) (by decide)
      have h3 := log10_lt _ 324 (by decide) h1
      clear h h1 hu hpow
      omega
  · right
    exact Nat.le_of_not_lt hu

/-- With 1074 decimals the decimal of a double is exact. -/
theorem ofDecimal_exact (u : Nat) (hd : JSNumber.isDouble (JSNumber.fin false u) = true) :
    JSNumber.ofDecimal false (u * 5 ^ 1074) (-1074) = JSNumber.fin false u := by
  have hpos : 0 < 10 ^ 1074 := Nat.pos_pow_of_pos _ (by decide)
  have e : (-(-1074 : Int)).toNat = 1074 := by decide
  have e2 : u * 5 ^ 1074 * 2 ^ 1074 = 10 ^ 1074 * u := by
    rw [Nat.mul_assoc, ← Nat.mul_pow, Nat.mul_comm]
  have h := JSNumber.ofRatio_mul_left false (10 ^ 1074) u 1 hpos
  rw [Nat.mul_one] at h
  unfold JSNumber.ofDecimal
  rw [if_neg (by decide), e, e2, h]
  exact JSNumber.ofRatio_self false u hd

theorem shortestAt_exact (u : Nat) (n : Int) (k : Nat) (hk : n - k = -1074)
    (hd : JSNumber.isDouble (JSNumber.fin false u) = true) :
    ∃ r, shortestAt u n k = some r := by
  have hneg : ¬ (0 : Int) ≤ n - k := by omega
  have hkn : ((k : Int) - n).toNat = 1074 := by omega
  have hq : 0 < 2 ^ 1074 := Nat.pos_pow_of_pos _ (by decide)
  have e : u * 10 ^ 1074 = u * 5 ^ 1074 * 2 ^ 1074 := by
    rw [Nat.mul_assoc, ← Nat.mul_pow]
  have hnear : JSNumber.roundHalfEven (u * 10 ^ 1074) (2 ^ 1074) = u * 5 ^ 1074 := by
    rw [JSNumber.roundHalfEven_of_dvd _ _ hq (by rw [e]; exact Nat.mul_mod_left _ _), e,
      Nat.mul_div_cancel _ hq]
  unfold shortestAt
  simp only [if_neg hneg, hkn, hnear]
  rw [hk, if_pos (ofDecimal_exact u hd)]
  exact ⟨_, rfl⟩

theorem shortest_value (u near far s : Nat) (e scale : Int)
    (h : (if JSNumber.ofDecimal false near e = JSNumber.fin false u then some (near, e)
      else if JSNumber.ofDecimal false far e = JSNumber.fin false u then some (far, e)
      else none) = some (s, scale)) :
    JSNumber.ofDecimal false s scale = JSNumber.fin false u := by
  by_cases h1 : JSNumber.ofDecimal false near e = JSNumber.fin false u
  · rw [if_pos h1] at h
    obtain ⟨rfl, rfl⟩ := Prod.mk.inj (Option.some.inj h)
    exact h1
  · rw [if_neg h1] at h
    by_cases h2 : JSNumber.ofDecimal false far e = JSNumber.fin false u
    · rw [if_pos h2] at h
      obtain ⟨rfl, rfl⟩ := Prod.mk.inj (Option.some.inj h)
      exact h2
    · rw [if_neg h2] at h
      cases h

theorem shortestAt_value (u : Nat) (n : Int) (k s : Nat) (scale : Int)
    (h : shortestAt u n k = some (s, scale)) :
    JSNumber.ofDecimal false s scale = JSNumber.fin false u :=
  shortest_value u _ _ s _ scale h

theorem findSome_of_mem {α β : Type} (f : α → Option β) (l : List α) (a : α) (b : β)
    (ha : a ∈ l) (hf : f a = some b) : ∃ c, l.findSome? f = some c := by
  induction l with
  | nil => exact absurd ha (List.not_mem_nil _)
  | cons x xs ih =>
    rw [List.findSome?_cons]
    cases hx : f x with
    | some c => exact ⟨c, rfl⟩
    | none =>
      rcases List.mem_cons.1 ha with rfl | ha
      · rw [hf] at hx
        cases hx
      · exact ih ha

theorem mem_of_findSome {α β : Type} (f : α → Option β) (l : List α) (b : β)
    (h : l.findSome? f = some b) : ∃ a ∈ l, f a = some b := by
  induction l with
  | nil => cases h
  | cons x xs ih =>
    rw [List.findSome?_cons] at h
    cases hx : f x with
    | some c =>
      rw [hx] at h
      exact ⟨x, List.mem_cons_self _ _, by rw [hx]; exact h⟩
    | none =>
      rw [hx] at h
      obtain ⟨a, ha, hf⟩ := ih h
      exact ⟨a, List.mem_cons_of_mem _ ha, hf⟩

/-- The search of `Number::toString` finds a decimal whose value is the
number. -/
theorem search_shortest (u : Nat) (hd : JSNumber.isDouble (JSNumber.fin false u) = true) :
    ∃ s scale,
      ((List.range 1400).findSome? fun i => shortestAt u (decimalExponent u) (i + 1)) =
        some (s, scale) ∧
      JSNumber.ofDecimal false s scale = JSNumber.fin false u := by
  have hu : u < 2 ^ 2098 := by
    simp only [JSNumber.isDouble, Bool.and_eq_true, decide_eq_true_eq] at hd
    exact hd.1
  rcases decimalExponent_bounds u with hb | hb
  · obtain ⟨i, hi⟩ : ∃ i : Nat, decimalExponent u - ((i + 1 : Nat) : Int) = -1074 :=
      ⟨(decimalExponent u + 1073).toNat, by omega⟩
    have hi1 : i < 1400 := by omega
    obtain ⟨r, hr⟩ := shortestAt_exact u (decimalExponent u) (i + 1) hi hd
    obtain ⟨c, hc⟩ := findSome_of_mem (fun i => shortestAt u (decimalExponent u) (i + 1))
      (List.range 1400) i r (List.mem_range.2 hi1) hr
    obtain ⟨s, scale⟩ := c
    obtain ⟨a, _, ha⟩ := mem_of_findSome _ _ _ hc
    exact ⟨s, scale, hc, shortestAt_value u _ _ s scale ha⟩
  · exact absurd hu (Nat.not_lt_of_le hb)

/-- The text of a positive double, as the decimal it denotes. -/
theorem positiveToString_eq (u : Nat) (h0 : 0 < u)
    (hd : JSNumber.isDouble (JSNumber.fin false u) = true) :
    ∃ d ds n, positiveToString u = formatDecimal (d :: ds) n ∧ isDigit d = true ∧ d ≠ 0x30 ∧
      (∀ c ∈ ds, isDigit c = true) ∧
      ∀ negative, JSNumber.ofDecimal negative (indexValue (d :: ds)) (n - (d :: ds).length) =
        JSNumber.fin negative u := by
  obtain ⟨s, scale, hs, hv⟩ := search_shortest u hd
  have hs0 : 0 < s := by
    rcases Nat.eq_zero_or_pos s with rfl | h
    · rw [JSNumber.ofDecimal_zero] at hv
      have := (JSNumber.fin.inj hv).2
      omega
    · exact h
  obtain ⟨d, ds0, hD, hd0⟩ := digitsOf_head s hs0
  obtain ⟨ss, z, hS, hz⟩ := stripZeros_cons d ds0 hd0
  have hdig := digitsOf_digits s
  rw [hD] at hdig
  have hdigS : ∀ c ∈ d :: ss, isDigit c = true := by
    intro c hc
    apply hdig
    rw [hz]
    exact List.mem_append_left _ hc
  have hval : indexValue (d :: ss) * 10 ^ z = s := by
    rw [← indexValue_append_zeros, ← hz, ← hD, digitsOf_value]
  refine ⟨d, ss, scale + (digitsOf s).length, ?_, hdigS d (List.mem_cons_self _ _), hd0,
    fun c hc => hdigS c (List.mem_cons_of_mem _ hc), ?_⟩
  · unfold positiveToString
    rw [hs]
    simp only
    rw [hD, hS]
  · intro negative
    have hlen : (digitsOf s).length = (d :: ss).length + z := by
      rw [hD, hz, List.length_append, List.length_replicate]
    have he : scale + ((digitsOf s).length : Int) - ((d :: ss).length : Int) = scale + z := by
      rw [hlen]
      push_cast
      omega
    rw [he, ← JSNumber.ofDecimal_shift, hval]
    exact JSNumber.ofDecimal_sign false negative s u scale hv

/-- `JSON.parse` reads the text of a double that is finite and not `-0` back
as that double. -/
theorem parseNumber_numberToString (negative : Bool) (u : Nat) (rest : List Nat)
    (hd : JSNumber.isDouble (JSNumber.fin negative u) = true)
    (hz : JSNumber.roundTrips (JSNumber.fin negative u) = true)
    (hr : ∀ c ∈ rest.head?, isDigit c = false ∧ c ≠ 0x2E ∧ c ≠ 0x65 ∧ c ≠ 0x45) :
    parseNumber (numberToString (JSNumber.fin negative u) ++ rest) =
      some (JSNumber.fin negative u, rest) := by
  rcases Nat.eq_zero_or_pos u with rfl | h0
  · have hn : negative = false := by
      cases negative
      · rfl
      · simp [JSNumber.roundTrips] at hz
    subst hn
    have h := parseNumber_parts false (0x30 :: rest) [0x30] [] rest rest rest 0
      (by rw [List.head?_cons]; decide) (parseInt_zero _)
      (parseFrac_none rest fun c hc => (hr c hc).2.1)
      (parseExp_none rest fun c hc => (hr c hc).2.2)
    rw [numberToString, if_pos rfl]
    simp only [Bool.false_eq_true, if_false, List.nil_append] at h
    rw [List.singleton_append, h]
    rfl
  · obtain ⟨d, ds, n, ht, h1, hd0, hds, hv⟩ := positiveToString_eq u h0 hd
    have h := parseNumber_formatDecimal negative d ds n rest h1 hd0 hds hr
    rw [hv negative] at h
    rw [numberToString, if_neg (by omega), ht]
    cases negative
    · simpa using h
    · simpa using h

/-- The text of a finite double starts with a digit or the minus sign. -/
theorem numberToString_head (negative : Bool) (u : Nat)
    (hd : JSNumber.isDouble (JSNumber.fin negative u) = true) :
    ∃ c cs, numberToString (JSNumber.fin negative u) = c :: cs ∧
      (isDigit c = true ∨ c = 0x2D) := by
  rcases Nat.eq_zero_or_pos u with rfl | h0
  · exact ⟨0x30, [], by rw [numberToString, if_pos rfl], Or.inl rfl⟩
  · obtain ⟨d, ds, n, ht, h1, _, _, _⟩ := positiveToString_eq u h0 hd
    obtain ⟨c, cs, hc, hcd⟩ := formatDecimal_head d ds n h1
    rw [numberToString, if_neg (by omega), ht, hc]
    cases negative
    · exact ⟨c, cs, rfl, Or.inl hcd⟩
    · exact ⟨0x2D, c :: cs, rfl, Or.inr rfl⟩

/-- The text of a finite double has no character that UTF-8 cannot hold. -/
theorem numberToString_ascii (negative : Bool) (u : Nat) :
    ∀ c ∈ numberToString (JSNumber.fin negative u), c < 0xD800 := by
  have hp : ∀ c ∈ positiveToString u, c < 0xD800 := by
    unfold positiveToString
    split
    · rename_i s scale _
      refine formatDecimal_ascii _ _ ?_
      intro c hc
      obtain ⟨z, hz⟩ := stripZeros_append (digitsOf s)
      apply digitsOf_digits s
      rw [hz]
      exact List.mem_append_left _ hc
    · exact fun c hc => absurd hc (List.not_mem_nil _)
  intro c hc
  rw [numberToString] at hc
  split at hc
  · rcases List.mem_cons.1 hc with rfl | hc
    · decide
    · exact absurd hc (List.not_mem_nil _)
  · split at hc
    · rcases List.mem_cons.1 hc with rfl | hc
      · decide
      · exact hp c hc
    · exact hp c hc

end JSON

end TronGridCli

namespace TronGridCli

namespace JSON

/-! ## The round trip of values -/

theorem digit_or_minus (c : Nat) (h : isDigit c = true ∨ c = 0x2D) :
    isWs c = false ∧ c ≠ 0x5D ∧ c ≠ 0x7D ∧ c ≠ 0x7B ∧ c ≠ 0x5B ∧ c ≠ 0x22 ∧ c ≠ 0x74 ∧
      c ≠ 0x66 ∧ c ≠ 0x6E := by
  have hc : (0x30 ≤ c ∧ c ≤ 0x39) ∨ c = 0x2D := by
    simpa only [isDigit, Bool.and_eq_true, decide_eq_true_eq] using h
  refine ⟨?_, by omega, by omega, by omega, by omega, by omega, by omega, by omega, by omega⟩
  simp only [isWs, Bool.or_eq_false_iff, decide_eq_false_iff_not]
  omega

theorem parseValue_num (f c : Nat) (cs : List Nat) (x : JSNumber) (rest : List Nat)
    (hc : isDigit c = true ∨ c = 0x2D) (h : parseNumber (c :: cs) = some (x, rest)) :
    parseValue (f + 1) (c :: cs) = some (num x, rest) := by
  have hd := digit_or_minus c hc
  rw [parseValue, skipWs_cons_of_not_ws c cs hd.1]
  simp only [if_neg hd.2.2.2.1, if_neg hd.2.2.2.2.1, if_neg hd.2.2.2.2.2.1,
    if_neg hd.2.2.2.2.2.2.1, if_neg hd.2.2.2.2.2.2.2.1, if_neg hd.2.2.2.2.2.2.2.2, h]

theorem stringifyItems_head (level : Nat) (vs : List JSON) (rest : List Nat) :
    ∀ c ∈ (stringifyItems level vs ++ rest).head?,
      isDigit c = false ∧ c ≠ 0x2E ∧ c ≠ 0x65 ∧ c ≠ 0x45 := by
  intro c hc
  cases vs with
  | nil =>
    rw [stringifyItems, newline] at hc
    cases hc
    decide
  | cons v vs =>
    rw [stringifyItems] at hc
    cases hc
    decide

theorem stringifyProps_head (level : Nat) (ps : List (JSString × JSON)) (rest : List Nat) :
    ∀ c ∈ (stringifyProps level ps ++ rest).head?,
      isDigit c = false ∧ c ≠ 0x2E ∧ c ≠ 0x65 ∧ c ≠ 0x45 := by
  intro c hc
  cases ps with
  | nil =>
    rw [stringifyProps, newline] at hc
    cases hc
    decide
  | cons p ps =>
    obtain ⟨k, v⟩ := p
    rw [stringifyProps] at hc
    cases hc
    decide

theorem stringifyAt_head (level : Nat) (v : JSON) (hp : plain v = true) (rest : List Nat) :
    ∃ d ds, stringifyAt level v ++ rest = d :: ds ∧ isWs d = false ∧ d ≠ 0x5D ∧ d ≠ 0x7D := by
  cases v with
  | null => exact ⟨_, _, rfl, by decide, by decide, by decide⟩
  | bool b =>
    cases b
    · exact ⟨_, _, rfl, by decide, by decide, by decide⟩
    · exact ⟨_, _, rfl, by decide, by decide, by decide⟩
  | num x =>
    cases x with
    | nan => simp [plain, JSNumber.roundTrips] at hp
    | inf negative => simp [plain, JSNumber.roundTrips] at hp
    | fin negative u =>
      rw [plain, Bool.and_eq_true] at hp
      obtain ⟨c, cs, hc, hcd⟩ := numberToString_head negative u hp.1
      have h := digit_or_minus c hcd
      refine ⟨c, cs ++ rest, ?_, h.1, h.2.1, h.2.2.1⟩
      rw [stringifyAt, hc]
      rfl
  | str s => exact ⟨_, _, rfl, by decide, by decide, by decide⟩
  | arr vs =>
    cases vs with
    | nil => exact ⟨_, _, rfl, by decide, by decide, by decide⟩
    | cons v vs => exact ⟨_, _, rfl, by decide, by decide, by decide⟩
  | obj ps =>
    cases ps with
    | nil => exact ⟨_, _, rfl, by decide, by decide, by decide⟩
    | cons p ps =>
      obtain ⟨k, v⟩ := p
      exact ⟨_, _, rfl, by decide, by decide, by decide⟩

theorem stringifyAt_arr_cons (level : Nat) (v : JSON) (vs : List JSON) (rest : List Nat) :
    stringifyAt level (arr (v :: vs)) ++ rest =
      0x5B :: (newline (level + 1) ++ (stringifyAt (level + 1) v ++
        (stringifyItems level vs ++ rest))) := by
  simp [stringifyAt]

theorem stringifyItems_nil (level : Nat) (rest : List Nat) :
    stringifyItems level [] ++ rest = newline level ++ 0x5D :: rest := by
  simp [stringifyItems]

theorem stringifyItems_cons (level : Nat) (v : JSON) (vs : List JSON) (rest : List Nat) :
    stringifyItems level (v :: vs) ++ rest =
      0x2C :: (newline (level + 1) ++ (stringifyAt (level + 1) v ++
        (stringifyItems level vs ++ rest))) := by
  simp [stringifyItems]

theorem stringifyAt_obj_cons (level : Nat) (k : JSString) (v : JSON)
    (ps : List (JSString × JSON)) (rest : List Nat) :
    stringifyAt level (obj ((k, v) :: ps)) ++ rest =
      0x7B :: (newline (level + 1) ++ 0x22 :: (quoteUnits k ++ 0x22 :: 0x3A :: 0x20 ::
        (stringifyAt (level + 1) v ++ (stringifyProps level ps ++ rest)))) := by
  simp [stringifyAt, quote]

theorem stringifyProps_nil (level : Nat) (rest : List Nat) :
    stringifyProps level [] ++ rest = newline level ++ 0x7D :: rest := by
  simp [stringifyProps]

theorem stringifyProps_cons (level : Nat) (k : JSString) (v : JSON)
    (ps : List (JSString × JSON)) (rest : List Nat) :
    stringifyProps level ((k, v) :: ps) ++ rest =
      0x2C :: (newline (level + 1) ++ 0x22 :: (quoteUnits k ++ 0x22 :: 0x3A :: 0x20 ::
        (stringifyAt (level + 1) v ++ (stringifyProps level ps ++ rest)))) := by
  simp [stringifyProps, quote]

theorem insertIndexKey_last (k : JSString) (v : JSON) (acc : List (JSString × JSON))
    (h : (acc.map Prod.fst).all
      (fun k1 => isArrayIndex k1 && decide (indexValue k1 < indexValue k)) = true) :
    insertIndexKey k v acc = acc ++ [(k, v)] := by
  induction acc with
  | nil => rfl
  | cons p ps ih =>
    obtain ⟨k1, v1⟩ := p
    simp only [List.map_cons, List.all_cons, Bool.and_eq_true] at h
    rw [insertIndexKey]
    simp only [h.1.1, h.1.2, Bool.and_self, if_true, List.cons_append]
    rw [ih h.2]

theorem keysInOrder_iff (keys : List JSString) :
    keysInOrder keys = true ↔ keys.Pairwise fun k1 k2 => keyBefore k1 k2 = true := by
  simp [keysInOrder]

theorem keyBefore_iff (k1 k2 : JSString) :
    keyBefore k1 k2 = true ↔
      k1 ≠ k2 ∧ (isArrayIndex k2 = true →
        isArrayIndex k1 = true ∧ indexValue k1 < indexValue k2) := by
  simp only [keyBefore, Bool.and_eq_true, decide_eq_true_eq, Bool.or_eq_true,
    Bool.not_eq_true']
  constructor
  · rintro ⟨h1, h2⟩
    refine ⟨h1, fun hi => ?_⟩
    rcases h2 with h2 | h2
    · rw [hi] at h2
      cases h2
    · exact h2
  · rintro ⟨h1, h2⟩
    refine ⟨h1, ?_⟩
    by_cases hi : isArrayIndex k2 = true
    · exact Or.inr (h2 hi)
    · exact Or.inl (by simpa using hi)

theorem defineProp_new (acc : List (JSString × JSON)) (k : JSString) (v : JSON)
    (h : ∀ k1 ∈ acc.map Prod.fst, keyBefore k1 k = true) :
    defineProp acc k v = acc ++ [(k, v)] := by
  have hnot : ¬ (acc.map Prod.fst).contains k = true := by
    intro hc
    have hm : k ∈ acc.map Prod.fst := by simpa using hc
    exact ((keyBefore_iff k k).1 (h k hm)).1 rfl
  unfold defineProp
  rw [if_neg hnot]
  by_cases hi : isArrayIndex k = true
  · rw [if_pos hi]
    apply insertIndexKey_last
    rw [List.all_eq_true]
    intro k1 hk1
    have := ((keyBefore_iff k1 k).1 (h k1 hk1)).2 hi
    simp [this.1, this.2]
  · rw [if_neg hi]

theorem defineAll_inOrder (ps : List (JSString × JSON)) :
    ∀ acc : List (JSString × JSON),
      keysInOrder (acc.map Prod.fst ++ ps.map Prod.fst) = true →
      defineAll acc ps = acc ++ ps := by
  induction ps with
  | nil =>
    intro acc _
    simp [defineAll]
  | cons p ps ih =>
    intro acc h
    obtain ⟨k, v⟩ := p
    have hk : ∀ k1 ∈ acc.map Prod.fst, keyBefore k1 k = true := by
      rw [keysInOrder_iff, List.map_cons, List.pairwise_append] at h
      intro k1 hk1
      exact h.2.2 k1 hk1 k (List.mem_cons_self _ _)
    rw [defineAll, defineProp_new acc k v hk, ih]
    · simp
    · simpa using h

theorem fuel_succ (n fuel : Nat) (h : 1 + n ≤ fuel) : ∃ f, fuel = f + 1 ∧ n ≤ f :=
  ⟨fuel - 1, by omega, by omega⟩

mutual
theorem parseValue_stringifyAt : (v : JSON) → plain v = true → ∀ (level : Nat)
    (rest : List Nat) (fuel : Nat), need v ≤ fuel →
    (∀ c ∈ rest.head?, isDigit c = false ∧ c ≠ 0x2E ∧ c ≠ 0x65 ∧ c ≠ 0x45) →
    parseValue fuel (stringifyAt level v ++ rest) = some (v, rest)
  | null, _, level, rest, fuel, hf, _ => by
    obtain ⟨f, rfl, _⟩ := fuel_succ 0 fuel hf
    exact parseValue_null f rest
  | bool true, _, level, rest, fuel, hf, _ => by
    obtain ⟨f, rfl, _⟩ := fuel_succ 0 fuel hf
    exact parseValue_true f rest
  | bool false, _, level, rest, fuel, hf, _ => by
    obtain ⟨f, rfl, _⟩ := fuel_succ 0 fuel hf
    exact parseValue_false f rest
  | num JSNumber.nan, hp, _, _, _, _, _ => by simp [plain, JSNumber.roundTrips] at hp
  | num (JSNumber.inf _), hp, _, _, _, _, _ => by simp [plain, JSNumber.roundTrips] at hp
  | num (JSNumber.fin negative u), hp, level, rest, fuel, hf, hr => by
    obtain ⟨f, rfl, _⟩ := fuel_succ 0 fuel hf
    rw [plain, Bool.and_eq_true] at hp
    obtain ⟨c, cs, hc, hcd⟩ := numberToString_head negative u hp.1
    have h := parseNumber_numberToString negative u rest hp.1 hp.2 hr
    rw [stringifyAt]
    rw [hc, List.cons_append] at h ⊢
    exact parseValue_num f c _ _ rest hcd h
  | str s, _, level, rest, fuel, hf, _ => by
    obtain ⟨f, rfl, _⟩ := fuel_succ 0 fuel hf
    exact parseValue_str f s rest
  | arr [], _, level, rest, fuel, hf, _ => by
    obtain ⟨f, rfl, _⟩ := fuel_succ 0 fuel hf
    exact parseValue_arr_empty f rest
  | arr (v :: vs), hp, level, rest, fuel, hf, _ => by
    obtain ⟨f, rfl, hf1⟩ := fuel_succ _ fuel hf
    have hpl : plainItems (v :: vs) = true := by
      rw [plain] at hp
      exact hp
    have hpv : plain v = true ∧ plainItems vs = true := by
      rw [plainItems, Bool.and_eq_true] at hpl
      exact hpl
    obtain ⟨d, ds, hd, hws, h1, _⟩ := stringifyAt_head (level + 1) v hpv.1
      (stringifyItems level vs ++ rest)
    rw [stringifyAt_arr_cons, parseValue_arr f _ d ds
      (by rw [skipWs_newline, hd, skipWs_cons_of_not_ws d ds hws]) h1, ← hd]
    exact parseElements_stringifyItems (v :: vs) hpl v vs rfl [] level rest f hf1
  | obj [], _, level, rest, fuel, hf, _ => by
    obtain ⟨f, rfl, _⟩ := fuel_succ 0 fuel hf
    exact parseValue_obj_empty f rest
  | obj ((k, v) :: ps), hp, level, rest, fuel, hf, _ => by
    obtain ⟨f, rfl, hf1⟩ := fuel_succ _ fuel hf
    have hpv : keysInOrder (List.map Prod.fst ((k, v) :: ps)) = true ∧
        plainProps ((k, v) :: ps) = true := by
      rw [plain, Bool.and_eq_true] at hp
      exact hp
    rw [stringifyAt_obj_cons, parseValue_obj f _ 0x22 _
      (by rw [skipWs_newline, skipWs_cons_of_not_ws 0x22 _ rfl]) (by decide)]
    rw [parseMembers_stringifyProps ((k, v) :: ps) hpv.2 k v ps rfl [] level rest f hf1,
      defineAll_inOrder _ [] (by simpa using hpv.1)]
    rfl
theorem parseElements_stringifyItems : (l : List JSON) → plainItems l = true →
    ∀ (v : JSON) (vs : List JSON), l = v :: vs →
    ∀ (acc : List JSON) (level : Nat) (rest : List Nat) (fuel : Nat),
    needItems l ≤ fuel →
    parseElements fuel acc (stringifyAt (level + 1) v ++ (stringifyItems level vs ++ rest)) =
      some (arr (acc ++ l), rest)
  | [], _, _, _, hl, _, _, _, _, _ => by cases hl
  | [v0], hp, v, vs, hl, acc, level, rest, fuel, hf => by
    obtain ⟨rfl, rfl⟩ : v0 = v ∧ [] = vs := by simpa using hl
    obtain ⟨f, rfl, hf1⟩ := fuel_succ _ fuel (by rw [needItems, Nat.add_assoc] at hf; exact hf)
    have hv : plain v0 = true := by
      rw [plainItems, Bool.and_eq_true] at hp
      exact hp.1
    have h1 := parseValue_stringifyAt v0 hv (level + 1) (stringifyItems level [] ++ rest) f
      (by omega) (stringifyItems_head _ _ _)
    exact parseElements_last f acc _ v0 _ rest h1
      (by rw [stringifyItems_nil, skipWs_newline, skipWs_cons_of_not_ws 0x5D _ rfl])
  | v0 :: v1 :: vs1, hp, v, vs, hl, acc, level, rest, fuel, hf => by
    obtain ⟨rfl, rfl⟩ : v0 = v ∧ v1 :: vs1 = vs := by simpa using hl
    obtain ⟨f, rfl, hf1⟩ := fuel_succ _ fuel (by rw [needItems, Nat.add_assoc] at hf; exact hf)
    have hpv : plain v0 = true ∧ plainItems (v1 :: vs1) = true := by
      rw [plainItems, Bool.and_eq_true] at hp
      exact hp
    have h1 := parseValue_stringifyAt v0 hpv.1 (level + 1)
      (stringifyItems level (v1 :: vs1) ++ rest) f (by omega) (stringifyItems_head _ _ _)
    rw [parseElements_more f acc _ v0 _ _ h1
      (by rw [stringifyItems_cons, skipWs_cons_of_not_ws 0x2C _ rfl])]
    rw [parseElements_newline,
      parseElements_stringifyItems (v1 :: vs1) hpv.2 v1 vs1 rfl (acc ++ [v0]) level rest f
        (by omega)]
    simp
theorem parseMembers_stringifyProps : (l : List (JSString × JSON)) → plainProps l = true →
    ∀ (k : JSString) (v : JSON) (ps : List (JSString × JSON)), l = (k, v) :: ps →
    ∀ (acc : List (JSString × JSON)) (level : Nat) (rest : List Nat) (fuel : Nat),
    needProps l ≤ fuel →
    parseMembers fuel acc (0x22 :: (quoteUnits k ++ 0x22 :: 0x3A :: 0x20 ::
        (stringifyAt (level + 1) v ++ (stringifyProps level ps ++ rest)))) =
      some (obj (defineAll acc l), rest)
  | [], _, _, _, _, hl, _, _, _, _, _ => by cases hl
  | [(k0, v0)], hp, k, v, ps, hl, acc, level, rest, fuel, hf => by
    obtain ⟨⟨rfl, rfl⟩, rfl⟩ : (k0 = k ∧ v0 = v) ∧ [] = ps := by simpa using hl
    obtain ⟨f, rfl, hf1⟩ := fuel_succ _ fuel (by rw [needProps, Nat.add_assoc] at hf; exact hf)
    have hv : plain v0 = true := by
      rw [plainProps, Bool.and_eq_true] at hp
      exact hp.1
    have h4 : parseValue f (0x20 :: (stringifyAt (level + 1) v0 ++
        (stringifyProps level [] ++ rest))) = some (v0, stringifyProps level [] ++ rest) := by
      rw [parseValue_space]
      exact parseValue_stringifyAt v0 hv (level + 1) _ f (by omega)
        (stringifyProps_head _ _ _)
    exact parseMembers_last f acc _ _ k0 _ _ v0 _ rest
      (skipWs_cons_of_not_ws 0x22 _ rfl)
      (parseStringBody_quoteUnits k0 _)
      (skipWs_cons_of_not_ws 0x3A _ rfl) h4
      (by rw [stringifyProps_nil, skipWs_newline, skipWs_cons_of_not_ws 0x7D _ rfl])
  | (k0, v0) :: (k1, v1) :: ps1, hp, k, v, ps, hl, acc, level, rest, fuel, hf => by
    obtain ⟨⟨rfl, rfl⟩, rfl⟩ : (k0 = k ∧ v0 = v) ∧ (k1, v1) :: ps1 = ps := by simpa using hl
    obtain ⟨f, rfl, hf1⟩ := fuel_succ _ fuel (by rw [needProps, Nat.add_assoc] at hf; exact hf)
    have hpv : plain v0 = true ∧ plainProps ((k1, v1) :: ps1) = true := by
      rw [plainProps, Bool.and_eq_true] at hp
      exact hp
    have h4 : parseValue f (0x20 :: (stringifyAt (level + 1) v0 ++
        (stringifyProps level ((k1, v1) :: ps1) ++ rest))) =
        some (v0, stringifyProps level ((k1, v1) :: ps1) ++ rest) := by
      rw [parseValue_space]
      exact parseValue_stringifyAt v0 hpv.1 (level + 1) _ f (by omega)
        (stringifyProps_head _ _ _)
    rw [parseMembers_more f acc _ _ k0 _ _ v0 _ _
      (skipWs_cons_of_not_ws 0x22 _ rfl)
      (parseStringBody_quoteUnits k0 _)
      (skipWs_cons_of_not_ws 0x3A _ rfl) h4
      (by rw [stringifyProps_cons, skipWs_cons_of_not_ws 0x2C _ rfl])]
    rw [parseMembers_newline,
      parseMembers_stringifyProps ((k1, v1) :: ps1) hpv.2 k1 v1 ps1 rfl (defineProp acc k0 v0)
        level rest f (by omega)]
    rfl
end

end JSON

end TronGridCli

namespace TronGridCli

namespace JSON

/-! ## Fuel -/

theorem newline_length (level : Nat) : (newline level).length = 1 + 4 * level := by
  simp [newline, Nat.add_comm]

mutual
theorem need_le : (v : JSON) → ∀ level : Nat, need v ≤ (stringifyAt level v).length + 1
  | null, _ => by simp [need]
  | bool _, _ => by simp [need]
  | num _, _ => by simp [need]
  | str _, _ => by simp [need]
  | arr [], _ => by simp [need, needItems]
  | arr (v :: vs), level => by
    have h1 := need_le v (level + 1)
    have h2 := needItems_le vs level
    rw [need, needItems, stringifyAt]
    simp only [List.length_cons, List.length_append, newline_length]
    omega
  | obj [], _ => by simp [need, needProps]
  | obj ((k, v) :: ps), level => by
    have h1 := need_le v (level + 1)
    have h2 := needProps_le ps level
    rw [need, needProps, stringifyAt]
    simp only [List.length_cons, List.length_append, newline_length, List.length_nil]
    omega
theorem needItems_le : (vs : List JSON) → ∀ level : Nat,
    needItems vs + 2 ≤ (stringifyItems level vs).length
  | [], level => by
    rw [needItems, stringifyItems]
    simp only [List.length_cons, List.length_append, newline_length, List.length_nil]
    omega
  | v :: vs, level => by
    have h1 := need_le v (level + 1)
    have h2 := needItems_le vs level
    rw [needItems, stringifyItems]
    simp only [List.length_cons, List.length_append, newline_length]
    omega
theorem needProps_le : (ps : List (JSString × JSON)) → ∀ level : Nat,
    needProps ps + 2 ≤ (stringifyProps level ps).length
  | [], level => by
    rw [needProps, stringifyProps]
    simp only [List.length_cons, List.length_append, newline_length, List.length_nil]
    omega
  | (k, v) :: ps, level => by
    have h1 := need_le v (level + 1)
    have h2 := needProps_le ps level
    rw [needProps, stringifyProps]
    simp only [List.length_cons, List.length_append, newline_length, List.length_nil]
    omega
end

/-- `JSON.parse` reads back what `JSON.stringify(value, null, 4)` wrote, for
every plain value. -/
theorem parse_stringify (v : JSON) (hp : plain v = true) :
    parse (stringify v) = Except.ok v := by
  have hfuel : need v ≤ 2 * (stringify v).length + 2 := by
    have := need_le v 0
    rw [stringify]
    omega
  have h := parseValue_stringifyAt v hp 0 [] _ hfuel (fun c hc => by cases hc)
  rw [List.append_nil] at h
  have h1 : parseValue (2 * (stringify v).length + 2) (stringify v) = some (v, []) := h
  rw [parse, h1]
  rfl

/-! ## The text written to the file is the text produced -/

theorem rls_cons_plain (c : Nat) (l : List Nat) (h1 : isHighSurrogate c = false)
    (h2 : isLowSurrogate c = false) (hl : replaceLoneSurrogates l = l) :
    replaceLoneSurrogates (c :: l) = c :: l := by
  rw [replaceLoneSurrogates.eq_def]
  simp [h1, h2, hl]

theorem rls_cons_pair (c d : Nat) (l : List Nat) (h1 : isHighSurrogate c = true)
    (h2 : isLowSurrogate d = true) (hl : replaceLoneSurrogates l = l) :
    replaceLoneSurrogates (c :: d :: l) = c :: d :: l := by
  rw [replaceLoneSurrogates.eq_def]
  simp [h1, h2, hl]

theorem rls_ascii_append (a l : List Nat) (ha : ∀ c ∈ a, c < 0xD800)
    (hl : replaceLoneSurrogates l = l) : replaceLoneSurrogates (a ++ l) = a ++ l := by
  induction a with
  | nil => exact hl
  | cons c cs ih =>
    have hc : c < 0xD800 := ha c (List.mem_cons_self _ _)
    rw [List.cons_append]
    apply rls_cons_plain
    · simp only [isHighSurrogate, Bool.and_eq_false_iff, decide_eq_false_iff_not]
      omega
    · simp only [isLowSurrogate, Bool.and_eq_false_iff, decide_eq_false_iff_not]
      omega
    · exact ih (fun d hd => ha d (List.mem_cons_of_mem _ hd))

theorem quoteUnit_ascii_or_self (u : Nat) (hh : isHighSurrogate u = false)
    (hl : isLowSurrogate u = false) :
    (∀ c ∈ quoteUnit u, c < 0xD800) ∨ quoteUnit u = [u] := by
  unfold quoteUnit
  split_ifs with h1 h2 h3 h4 h5 h6 h7 h8
  · left; decide
  · left; decide
  · left; decide
  · left; decide
  · left; decide
  · left; decide
  · left; decide
  · left
    have hu : u < 0x20 := by
      rcases h8 with h | h | h
      · exact h
      · rw [hh] at h; cases h
      · rw [hl] at h; cases h
    intro c hc
    simp only [unicodeEscape, List.mem_cons, List.mem_singleton, List.not_mem_nil,
      or_false] at hc
    have e : ∀ n, n < 16 → hexDigit n < 0xD800 := by
      intro n hn
      unfold hexDigit
      split_ifs <;> omega
    rcases hc with rfl | rfl | rfl | rfl | rfl | rfl
    · decide
    · decide
    · exact e _ (Nat.mod_lt _ (by decide))
    · exact e _ (Nat.mod_lt _ (by decide))
    · exact e _ (Nat.mod_lt _ (by decide))
    · exact e _ (Nat.mod_lt _ (by decide))
  · right; rfl

theorem rls_quoteUnit_append (u : Nat) (l : List Nat) (hh : isHighSurrogate u = false)
    (hlow : isLowSurrogate u = false) (hl : replaceLoneSurrogates l = l) :
    replaceLoneSurrogates (quoteUnit u ++ l) = quoteUnit u ++ l := by
  rcases quoteUnit_ascii_or_self u hh hlow with h | h
  · exact rls_ascii_append _ l h hl
  · rw [h]
    exact rls_cons_plain u l hh hlow hl

theorem quoteUnit_surrogate_ascii (u : Nat)
    (h : isHighSurrogate u = true ∨ isLowSurrogate u = true) :
    ∀ c ∈ quoteUnit u, c < 0xD800 := by
  have hu : 0xD800 ≤ u ∧ u ≤ 0xDFFF := by
    simp only [isHighSurrogate, isLowSurrogate, Bool.and_eq_true, decide_eq_true_eq] at h
    omega
  unfold quoteUnit
  rw [if_neg (by omega), if_neg (by omega), if_neg (by omega), if_neg (by omega),
    if_neg (by omega), if_neg (by omega), if_neg (by omega), if_pos (Or.inr h)]
  intro c hc
  simp only [unicodeEscape, List.mem_cons, List.mem_singleton, List.not_mem_nil,
    or_false] at hc
  have e : ∀ n, n < 16 → hexDigit n < 0xD800 := by
    intro n hn
    unfold hexDigit
    split_ifs <;> omega
  rcases hc with rfl | rfl | rfl | rfl | rfl | rfl
  · decide
  · decide
  · exact e _ (Nat.mod_lt _ (by decide))
  · exact e _ (Nat.mod_lt _ (by decide))
  · exact e _ (Nat.mod_lt _ (by decide))
  · exact e _ (Nat.mod_lt _ (by decide))

theorem rls_quoteUnits_append (s : JSString) (l : List Nat)
    (hl : replaceLoneSurrogates l = l) :
    replaceLoneSurrogates (quoteUnits s ++ l) = quoteUnits s ++ l := by
  induction s using quoteUnits.induct with
  | case1 => exact hl
  | case2 u hu =>
    simp only [quoteUnits, hu, if_true]
    exact rls_ascii_append _ l (quoteUnit_surrogate_ascii u (Or.inl hu)) hl
  | case3 u hu d us1 hd ih =>
    simp only [quoteUnits, hu, hd, if_true, List.cons_append]
    exact rls_cons_pair u d _ hu hd ih
  | case4 u hu d us1 hd ih =>
    simp only [quoteUnits, hu, hd, if_true, if_false, List.append_assoc, Bool.false_eq_true]
    exact rls_ascii_append _ _ (quoteUnit_surrogate_ascii u (Or.inl hu)) ih
  | case5 u us hu ih =>
    rw [quoteUnits_not_high u us hu, List.append_assoc]
    by_cases hlow : isLowSurrogate u = true
    · exact rls_ascii_append _ _ (quoteUnit_surrogate_ascii u (Or.inr hlow)) ih
    · exact rls_quoteUnit_append u _ (by simpa using hu) (by simpa using hlow) ih

theorem rls_newline_append (level : Nat) (l : List Nat) (hl : replaceLoneSurrogates l = l) :
    replaceLoneSurrogates (newline level ++ l) = newline level ++ l := by
  apply rls_ascii_append _ l _ hl
  intro c hc
  simp only [newline, List.mem_cons, List.mem_replicate] at hc
  rcases hc with rfl | ⟨_, rfl⟩
  · decide
  · decide

mutual
theorem rls_stringifyAt : (v : JSON) → plain v = true → ∀ (level : Nat) (l : List Nat),
    replaceLoneSurrogates l = l →
    replaceLoneSurrogates (stringifyAt level v ++ l) = stringifyAt level v ++ l
  | null, _, _, l, hl => rls_ascii_append [0x6E, 0x75, 0x6C, 0x6C] l (by decide) hl
  | bool true, _, _, l, hl => rls_ascii_append [0x74, 0x72, 0x75, 0x65] l (by decide) hl
  | bool false, _, _, l, hl =>
    rls_ascii_append [0x66, 0x61, 0x6C, 0x73, 0x65] l (by decide) hl
  | num JSNumber.nan, _, _, l, hl => rls_ascii_append [0x6E, 0x75, 0x6C, 0x6C] l (by decide) hl
  | num (JSNumber.inf _), _, _, l, hl =>
    rls_ascii_append [0x6E, 0x75, 0x6C, 0x6C] l (by decide) hl
  | num (JSNumber.fin negative u), _, _, l, hl => by
    rw [stringifyAt]
    exact rls_ascii_append _ l (numberToString_ascii negative u) hl
  | str s, _, _, l, hl => by
    rw [stringifyAt, quote, List.cons_append, List.append_assoc]
    exact rls_ascii_append [0x22] _ (by decide)
      (rls_quoteUnits_append s _ (rls_ascii_append [0x22] l (by decide) hl))
  | arr [], _, _, l, hl => rls_ascii_append [0x5B, 0x5D] l (by decide) hl
  | arr (v :: vs), hp, level, l, hl => by
    have hpv : plain v = true ∧ plainItems vs = true := by
      rw [plain, plainItems, Bool.and_eq_true] at hp
      exact hp
    rw [stringifyAt_arr_cons]
    exact rls_ascii_append [0x5B] _ (by decide)
      (rls_newline_append _ _ (rls_stringifyAt v hpv.1 _ _
        (rls_stringifyItems vs hpv.2 level l hl)))
  | obj [], _, _, l, hl => rls_ascii_append [0x7B, 0x7D] l (by decide) hl
  | obj ((k, v) :: ps), hp, level, l, hl => by
    have hpv : keysInOrder (List.map Prod.fst ((k, v) :: ps)) = true ∧ plain v = true ∧
        plainProps ps = true := by
      rw [plain, plainProps, Bool.and_eq_true, Bool.and_eq_true] at hp
      exact hp
    rw [stringifyAt_obj_cons]
    exact rls_ascii_append [0x7B] _ (by decide)
      (rls_newline_append _ _ (rls_ascii_append [0x22] _ (by decide)
        (rls_quoteUnits_append k _ (rls_ascii_append [0x22, 0x3A, 0x20] _ (by decide)
          (rls_stringifyAt v hpv.2.1 _ _ (rls_stringifyProps ps hpv.2.2 level l hl))))))
theorem rls_stringifyItems : (vs : List JSON) → plainItems vs = true →
    ∀ (level : Nat) (l : List Nat), replaceLoneSurrogates l = l →
    replaceLoneSurrogates (stringifyItems level vs ++ l) = stringifyItems level vs ++ l
  | [], _, level, l, hl => by
    rw [stringifyItems_nil]
    exact rls_newline_append _ _ (rls_ascii_append [0x5D] l (by decide) hl)
  | v :: vs, hp, level, l, hl => by
    have hpv : plain v = true ∧ plainItems vs = true := by
      rw [plainItems, Bool.and_eq_true] at hp
      exact hp
    rw [stringifyItems_cons]
    exact rls_ascii_append [0x2C] _ (by decide)
      (rls_newline_append _ _ (rls_stringifyAt v hpv.1 _ _
        (rls_stringifyItems vs hpv.2 level l hl)))
theorem rls_stringifyProps : (ps : List (JSString × JSON)) → plainProps ps = true →
    ∀ (level : Nat) (l : List Nat), replaceLoneSurrogates l = l →
    replaceLoneSurrogates (stringifyProps level ps ++ l) = stringifyProps level ps ++ l
  | [], _, level, l, hl => by
    rw [stringifyProps_nil]
    exact rls_newline_append _ _ (rls_ascii_append [0x7D] l (by decide) hl)
  | (k, v) :: ps, hp, level, l, hl => by
    have hpv : plain v = true ∧ plainProps ps = true := by
      rw [plainProps, Bool.and_eq_true] at hp
      exact hp
    rw [stringifyProps_cons]
    exact rls_ascii_append [0x2C] _ (by decide)
      (rls_newline_append _ _ (rls_ascii_append [0x22] _ (by decide)
        (rls_quoteUnits_append k _ (rls_ascii_append [0x22, 0x3A, 0x20] _ (by decide)
          (rls_stringifyAt v hpv.1 _ _ (rls_stringifyProps ps hpv.2 level l hl))))))
end

/-- Writing the serialisation of a plain value as UTF-8 changes nothing in
it: it contains no lone surrogate. -/
theorem replaceLoneSurrogates_stringify (v : JSON) (hp : plain v = true) :
    replaceLoneSurrogates (stringify v) = stringify v := by
  have h := rls_stringifyAt v hp 0 [] rfl
  rw [List.append_nil] at h
  exact h

end JSON

end TronGridCli

namespace TronGridCli

namespace JSON

/-! # What `JSON.parse` returns has its properties in enumeration order -/

/-! ## Array indices are determined by their value -/

theorem foldl_digits_eq (k : List Nat) :
    ∀ acc : Nat, k.foldl (fun a c => a * 10 + (c - 0x30)) acc =
      acc * 10 ^ k.length + Nat.ofDigits 10 ((k.map fun c => c - 0x30).reverse) := by
  induction k with
  | nil =>
    intro acc
    rw [List.foldl_nil, List.map_nil, List.reverse_nil, Nat.ofDigits_nil, List.length_nil,
      pow_zero, mul_one, add_zero]
  | cons c cs ih =>
    intro acc
    rw [List.foldl_cons, ih, List.map_cons, List.reverse_cons, Nat.ofDigits_append,
      Nat.ofDigits_singleton, List.length_reverse, List.length_map, List.length_cons]
    ring

theorem indexValue_eq (k : List Nat) :
    indexValue k = Nat.ofDigits 10 ((k.map fun c => c - 0x30).reverse) := by
  rw [indexValue, foldl_digits_eq]
  simp

theorem isArrayIndex_cons (c : Nat) (cs : List Nat) (h : isArrayIndex (c :: cs) = true) :
    (∀ d ∈ c :: cs, 0x30 ≤ d ∧ d ≤ 0x39) ∧ (c ≠ 0x30 ∨ cs = []) := by
  simp only [isArrayIndex, Bool.and_eq_true, List.all_eq_true, Bool.or_eq_true,
    decide_eq_true_eq, List.isEmpty_iff] at h
  refine ⟨fun d hd => ?_, h.1.2⟩
  have := h.1.1 d hd
  simpa [isDigit] using this

theorem map_sub_injective (k k1 : List Nat) (hk : ∀ d ∈ k, 0x30 ≤ d ∧ d ≤ 0x39)
    (hk1 : ∀ d ∈ k1, 0x30 ≤ d ∧ d ≤ 0x39)
    (h : (k.map fun c => c - 0x30) = (k1.map fun c => c - 0x30)) : k = k1 := by
  induction k generalizing k1 with
  | nil =>
    cases k1 with
    | nil => rfl
    | cons c cs => simp at h
  | cons c cs ih =>
    cases k1 with
    | nil => simp at h
    | cons c1 cs1 =>
      simp only [List.map_cons, List.cons.injEq] at h
      have h1 := hk c (List.mem_cons_self _ _)
      have h2 := hk1 c1 (List.mem_cons_self _ _)
      have hc : c = c1 := by omega
      rw [hc, ih cs1 (fun d hd => hk d (List.mem_cons_of_mem _ hd))
        (fun d hd => hk1 d (List.mem_cons_of_mem _ hd)) h.2]

/-- The digits of an array index other than `0`, least significant first, are
the digits of its value. -/
theorem digits_indexValue (c : Nat) (cs : List Nat) (h : isArrayIndex (c :: cs) = true)
    (h0 : c ≠ 0x30) :
    Nat.digits 10 (indexValue (c :: cs)) = (((c :: cs).map fun d => d - 0x30).reverse) := by
  obtain ⟨hd, _⟩ := isArrayIndex_cons c cs h
  rw [indexValue_eq]
  apply Nat.digits_ofDigits 10 (by decide)
  · intro l hl
    rw [List.mem_reverse, List.mem_map] at hl
    obtain ⟨d, hd1, rfl⟩ := hl
    have := hd d hd1
    omega
  · intro _
    have := hd c (List.mem_cons_self _ _)
    simp only [List.map_cons, List.reverse_cons, List.getLast_append_singleton]
    omega

theorem indexValue_injective (k k1 : JSString) (hk : isArrayIndex k = true)
    (hk1 : isArrayIndex k1 = true) (h : indexValue k = indexValue k1) : k = k1 := by
  cases k with
  | nil => simp [isArrayIndex] at hk
  | cons c cs =>
    cases k1 with
    | nil => simp [isArrayIndex] at hk1
    | cons c1 cs1 =>
      obtain ⟨hd, hz⟩ := isArrayIndex_cons c cs hk
      obtain ⟨hd1, hz1⟩ := isArrayIndex_cons c1 cs1 hk1
      by_cases h0 : c = 0x30
      · have hcs : cs = [] := by
          rcases hz with hz | hz
          · exact absurd h0 hz
          · exact hz
        subst h0 hcs
        by_cases h1 : c1 = 0x30
        · have hcs1 : cs1 = [] := by
            rcases hz1 with hz1 | hz1
            · exact absurd h1 hz1
            · exact hz1
          rw [h1, hcs1]
        · have hdig := digits_indexValue c1 cs1 hk1 h1
          rw [← h] at hdig
          have hv : indexValue [0x30] = 0 := rfl
          rw [hv, Nat.digits_zero] at hdig
          simp at hdig
      · by_cases h1 : c1 = 0x30
        · have hcs1 : cs1 = [] := by
            rcases hz1 with hz1 | hz1
            · exact absurd h1 hz1
            · exact hz1
          subst h1 hcs1
          have hdig := digits_indexValue c cs hk h0
          rw [h] at hdig
          have hv : indexValue [0x30] = 0 := rfl
          rw [hv, Nat.digits_zero] at hdig
          simp at hdig
        · have hdig := digits_indexValue c cs hk h0
          have hdig1 := digits_indexValue c1 cs1 hk1 h1
          rw [h, hdig1] at hdig
          exact (map_sub_injective _ _ hd hd1 (List.reverse_injective hdig.symm))

/-! ## `defineProp` keeps the keys in enumeration order -/

theorem map_fst_replaceValue (k : JSString) (v : JSON) (acc : List (JSString × JSON)) :
    (replaceValue k v acc).map Prod.fst = acc.map Prod.fst := by
  induction acc with
  | nil => rfl
  | cons p ps ih =>
    obtain ⟨k1, v1⟩ := p
    rw [replaceValue]
    split_ifs
    · rfl
    · rw [List.map_cons, ih, List.map_cons]

theorem mem_keys_insertIndexKey (k : JSString) (v : JSON) (acc : List (JSString × JSON))
    (y : JSString) (hy : y ∈ (insertIndexKey k v acc).map Prod.fst) :
    y = k ∨ y ∈ acc.map Prod.fst := by
  induction acc with
  | nil =>
    simp only [insertIndexKey, List.map_cons, List.map_nil, List.mem_singleton] at hy
    exact Or.inl hy
  | cons p ps ih =>
    obtain ⟨k1, v1⟩ := p
    rw [insertIndexKey] at hy
    split_ifs at hy
    · rw [List.map_cons, List.mem_cons] at hy
      rcases hy with h | h
      · exact Or.inr (by rw [h]; exact List.mem_cons_self _ _)
      · rcases ih h with h1 | h1
        · exact Or.inl h1
        · exact Or.inr (List.mem_cons_of_mem _ h1)
    · rw [List.map_cons, List.mem_cons] at hy
      rcases hy with h | h
      · exact Or.inl h
      · exact Or.inr h

theorem pairwise_insertIndexKey (k : JSString) (v : JSON) (hk : isArrayIndex k = true)
    (acc : List (JSString × JSON)) (hnew : k ∉ acc.map Prod.fst)
    (h : (acc.map Prod.fst).Pairwise fun k1 k2 => keyBefore k1 k2 = true) :
    ((insertIndexKey k v acc).map Prod.fst).Pairwise fun k1 k2 => keyBefore k1 k2 = true := by
  induction acc with
  | nil => simp [insertIndexKey]
  | cons p ps ih =>
    obtain ⟨k1, v1⟩ := p
    rw [List.map_cons, List.pairwise_cons] at h
    have hne : k1 ≠ k := by
      intro he
      exact hnew (by rw [List.map_cons, he]; exact List.mem_cons_self _ _)
    have hnew' : k ∉ ps.map Prod.fst := fun hm =>
      hnew (by rw [List.map_cons]; exact List.mem_cons_of_mem _ hm)
    rw [insertIndexKey]
    split_ifs with hc
    · simp only [Bool.and_eq_true, decide_eq_true_eq] at hc
      rw [List.map_cons, List.pairwise_cons]
      refine ⟨?_, ih hnew' h.2⟩
      intro y hy
      rcases mem_keys_insertIndexKey k v ps y hy with h1 | h1
      · rw [h1]
        exact (keyBefore_iff k1 k).2 ⟨hne, fun _ => hc⟩
      · exact h.1 y h1
    · rw [List.map_cons, List.pairwise_cons, List.map_cons, List.pairwise_cons]
      refine ⟨?_, h⟩
      have hk1 : isArrayIndex k1 = true → indexValue k < indexValue k1 := by
        intro hi
        have hle : ¬ indexValue k1 < indexValue k := by
          intro hlt
          exact hc (by simp [hi, hlt])
        have hneq : indexValue k ≠ indexValue k1 := fun he =>
          hne (indexValue_injective k k1 hk hi he).symm
        omega
      intro y hy
      rcases List.mem_cons.mp hy with h1 | h1
      · rw [h1]
        exact (keyBefore_iff k k1).2 ⟨fun he => hne he.symm, fun hi => ⟨hk, hk1 hi⟩⟩
      · have hy1 := (keyBefore_iff k1 y).1 (h.1 y h1)
        refine (keyBefore_iff k y).2 ⟨fun he => hnew' (by rw [he]; exact h1), fun hi => ?_⟩
        have := hy1.2 hi
        exact ⟨hk, Nat.lt_trans (hk1 this.1) this.2⟩

/-- Defining a property keeps the keys in enumeration order. -/
theorem keysInOrder_defineProp (acc : List (JSString × JSON)) (k : JSString) (v : JSON)
    (h : keysInOrder (acc.map Prod.fst) = true) :
    keysInOrder ((defineProp acc k v).map Prod.fst) = true := by
  rw [keysInOrder_iff] at h ⊢
  unfold defineProp
  split_ifs with h1 h2
  · rw [map_fst_replaceValue]
    exact h
  · exact pairwise_insertIndexKey k v h2 acc (by simpa using h1) h
  · rw [List.map_append, List.pairwise_append]
    refine ⟨h, by simp, ?_⟩
    intro x hx y hy
    simp only [List.map_cons, List.map_nil, List.mem_singleton] at hy
    subst hy
    refine (keyBefore_iff x y).2 ⟨?_, fun hi => absurd hi h2⟩
    intro he
    apply h1
    rw [← he]
    simpa using hx

/-! ## `defineProp` keeps the values regular -/

theorem regularProps_append (xs ys : List (JSString × JSON)) :
    regularProps (xs ++ ys) = (regularProps xs && regularProps ys) := by
  induction xs with
  | nil => simp [regularProps]
  | cons p ps ih =>
    obtain ⟨k, v⟩ := p
    rw [List.cons_append, regularProps, regularProps, ih, Bool.and_assoc]

theorem regularProps_replaceValue (k : JSString) (v : JSON) (acc : List (JSString × JSON))
    (ha : regularProps acc = true) (hv : regular v = true) :
    regularProps (replaceValue k v acc) = true := by
  induction acc with
  | nil => rfl
  | cons p ps ih =>
    obtain ⟨k1, v1⟩ := p
    rw [regularProps, Bool.and_eq_true] at ha
    rw [replaceValue]
    split_ifs
    · rw [regularProps, hv, ha.2]
      rfl
    · rw [regularProps, ha.1, ih ha.2]
      rfl

theorem regularProps_insertIndexKey (k : JSString) (v : JSON) (acc : List (JSString × JSON))
    (ha : regularProps acc = true) (hv : regular v = true) :
    regularProps (insertIndexKey k v acc) = true := by
  induction acc with
  | nil =>
    rw [insertIndexKey, regularProps, hv]
    rfl
  | cons p ps ih =>
    obtain ⟨k1, v1⟩ := p
    have ha' := ha
    rw [regularProps, Bool.and_eq_true] at ha'
    rw [insertIndexKey]
    split_ifs
    · rw [regularProps, ha'.1, ih ha'.2]
      rfl
    · rw [regularProps, hv, ha]
      rfl

theorem regularProps_defineProp (acc : List (JSString × JSON)) (k : JSString) (v : JSON)
    (ha : regularProps acc = true) (hv : regular v = true) :
    regularProps (defineProp acc k v) = true := by
  unfold defineProp
  split_ifs
  · exact regularProps_replaceValue k v acc ha hv
  · exact regularProps_insertIndexKey k v acc ha hv
  · rw [regularProps_append, ha, regularProps, hv]
    rfl

theorem regularItems_append (xs ys : List JSON) :
    regularItems (xs ++ ys) = (regularItems xs && regularItems ys) := by
  induction xs with
  | nil => simp [regularItems]
  | cons v vs ih => rw [List.cons_append, regularItems, regularItems, ih, Bool.and_assoc]

end JSON

end TronGridCli

namespace TronGridCli

namespace JSON

/-! ## The parser returns regular values -/

theorem isDouble_of_parseNumber (input : List Nat) (x : JSNumber) (rest : List Nat)
    (h : parseNumber input = some (x, rest)) : x.isDouble = true := by
  unfold parseNumber at h
  simp only at h
  repeat' split at h
  all_goals first
    | (cases h
       exact JSNumber.isDouble_ofDecimal _ _ _)
    | cases h

theorem parse_regular_fuel (fuel : Nat) :
    (∀ input v rest, parseValue fuel input = some (v, rest) → regular v = true) ∧
    (∀ acc input v rest, parseElements fuel acc input = some (v, rest) →
      regularItems acc = true → regular v = true) ∧
    (∀ acc input v rest, parseMembers fuel acc input = some (v, rest) →
      keysInOrder (acc.map Prod.fst) = true → regularProps acc = true →
      regular v = true) := by
  induction fuel with
  | zero =>
    refine ⟨?_, ?_, ?_⟩
    · intro input v rest h
      rw [parseValue] at h
      cases h
    · intro acc input v rest h
      rw [parseElements] at h
      cases h
    · intro acc input v rest h
      rw [parseMembers] at h
      cases h
  | succ f ih =>
    obtain ⟨ih1, ih2, ih3⟩ := ih
    refine ⟨?_, ?_, ?_⟩
    · intro input v rest h
      rw [parseValue] at h
      repeat' split at h
      all_goals first
        | exact ih3 _ _ _ _ h rfl rfl
        | exact ih2 _ _ _ _ h rfl
        | (cases h
           rw [regular]
           exact isDouble_of_parseNumber _ _ _ (by assumption))
        | (cases h <;> rfl)
    · intro acc input v rest h hacc
      rw [parseElements] at h
      cases hv : parseValue f input with
      | none =>
        rw [hv] at h
        cases h
      | some r =>
        obtain ⟨v0, r0⟩ := r
        rw [hv] at h
        simp only at h
        have hacc' : regularItems (acc ++ [v0]) = true := by
          rw [regularItems_append, hacc, regularItems, ih1 _ _ _ hv]
          rfl
        cases hs : skipWs r0 with
        | nil =>
          rw [hs] at h
          cases h
        | cons c cs =>
          rw [hs] at h
          simp only at h
          split_ifs at h with h1 h2
          · exact ih2 _ _ _ _ h hacc'
          · cases h
            rw [regular]
            exact hacc'
    · intro acc input v rest h hk hacc
      rw [parseMembers] at h
      cases hs : skipWs input with
      | nil =>
        rw [hs] at h
        cases h
      | cons q cs =>
        rw [hs] at h
        simp only at h
        split_ifs at h with hq
        cases hkey : parseStringBody cs with
        | none =>
          rw [hkey] at h
          cases h
        | some r =>
          obtain ⟨k, afterKey⟩ := r
          rw [hkey] at h
          simp only at h
          cases hs2 : skipWs afterKey with
          | nil =>
            rw [hs2] at h
            cases h
          | cons colon afterColon =>
            rw [hs2] at h
            simp only at h
            split_ifs at h with hcolon
            cases hv : parseValue f afterColon with
            | none =>
              rw [hv] at h
              cases h
            | some r =>
              obtain ⟨v0, r0⟩ := r
              rw [hv] at h
              simp only at h
              have hk' := keysInOrder_defineProp acc k v0 hk
              have hacc' := regularProps_defineProp acc k v0 hacc (ih1 _ _ _ hv)
              cases hs3 : skipWs r0 with
              | nil =>
                rw [hs3] at h
                cases h
              | cons c cs1 =>
                rw [hs3] at h
                simp only at h
                split_ifs at h with h1 h2
                · exact ih3 _ _ _ _ h hk' hacc'
                · cases h
                  rw [regular, hk', hacc']
                  rfl

/-- Whatever `JSON.parse` returns has the properties of every object in
enumeration order. -/
theorem regular_of_parse (text : JSString) (v : JSON) (h : parse text = Except.ok v) :
    regular v = true := by
  unfold parse at h
  cases hp : parseValue (2 * text.length + 2) text with
  | none =>
    rw [hp] at h
    cases h
  | some r =>
    obtain ⟨v0, rest⟩ := r
    rw [hp] at h
    simp only at h
    cases hs : skipWs rest with
    | nil =>
      rw [hs] at h
      cases h
      exact (parse_regular_fuel _).1 _ _ _ hp
    | cons c cs =>
      rw [hs] at h
      cases h

mutual
theorem plain_of_regular : (v : JSON) → regular v = true → roundTrips v = true →
    plain v = true
  | null, _, _ => rfl
  | bool _, _, _ => rfl
  | num x, ho, hn => by
    rw [regular] at ho
    rw [roundTrips] at hn
    rw [plain, ho, hn]
    rfl
  | str _, _, _ => rfl
  | arr vs, ho, hn => by
    rw [regular] at ho
    rw [roundTrips] at hn
    rw [plain]
    exact plainItems_of_regular vs ho hn
  | obj ps, ho, hn => by
    rw [regular, Bool.and_eq_true] at ho
    rw [roundTrips] at hn
    rw [plain, ho.1, plainProps_of_regular ps ho.2 hn]
    rfl
theorem plainItems_of_regular : (vs : List JSON) → regularItems vs = true →
    roundTripsItems vs = true → plainItems vs = true
  | [], _, _ => rfl
  | v :: vs, ho, hn => by
    rw [regularItems, Bool.and_eq_true] at ho
    rw [roundTripsItems, Bool.and_eq_true] at hn
    rw [plainItems, plain_of_regular v ho.1 hn.1, plainItems_of_regular vs ho.2 hn.2]
    rfl
theorem plainProps_of_regular : (ps : List (JSString × JSON)) → regularProps ps = true →
    roundTripsProps ps = true → plainProps ps = true
  | [], _, _ => rfl
  | (_, v) :: ps, ho, hn => by
    rw [regularProps, Bool.and_eq_true] at ho
    rw [roundTripsProps, Bool.and_eq_true] at hn
    rw [plainProps, plain_of_regular v ho.1 hn.1, plainProps_of_regular ps ho.2 hn.2]
    rfl
end

end JSON

end TronGridCli

set_option maxRecDepth 100000
set_option exponentiation.threshold 5000

namespace TronGridCli

/-! # Saving and loading the vault -/

/-- Saving a plain value to a writable file succeeds, the file then holds the
serialisation, and loading returns the value. -/
theorem loadAccounts_saveAccounts (d : Disk) (v : JSON) (hw : d.writable = true)
    (hp : JSON.plain v = true) :
    saveAccounts d v = Except.ok ⟨some (JSON.stringify v), true⟩ ∧
      loadAccounts ⟨some (JSON.stringify v), true⟩ = Except.ok v := by
  constructor
  · cases d with
    | mk content writable =>
      simp only at hw
      subst hw
      simp [saveAccounts, writeFileSync, JSON.replaceLoneSurrogates_stringify v hp]
  · simp [loadAccounts, tryCatch, readFileSync, JSON.parse_stringify v hp]

theorem plain_toJSON (a : Account) : JSON.plain a.toJSON = true := by
  have h : JSON.keysInOrder
      (List.map Prod.fst [(js "address", JSON.null), (js "privateKey", JSON.null),
        (js "publicKey", JSON.null), (js "name", JSON.null)]) = true := by decide
  have h2 : JSON.keysInOrder
      (List.map Prod.fst [(js "base58", JSON.null), (js "hex", JSON.null)]) = true := by decide
  simp only [Account.toJSON, JSON.plain, JSON.plainProps, Bool.and_true, List.map_cons,
    List.map_nil] at h h2 ⊢
  simp [h, h2]

theorem plainItems_map_toJSON (accounts : List Account) :
    JSON.plainItems (accounts.map Account.toJSON) = true := by
  induction accounts with
  | nil => rfl
  | cons a as ih =>
    rw [List.map_cons, JSON.plainItems, plain_toJSON, ih]
    rfl

theorem plainItems_append (xs ys : List JSON) (hx : JSON.plainItems xs = true)
    (hy : JSON.plainItems ys = true) : JSON.plainItems (xs ++ ys) = true := by
  induction xs with
  | nil => exact hy
  | cons x xs ih =>
    rw [JSON.plainItems, Bool.and_eq_true] at hx
    rw [List.cons_append, JSON.plainItems, hx.1, ih hx.2]
    rfl

/-- C5: saving a sequence of account records to a writable vault file and
loading it returns the same records, field for field; and saving what was
loaded writes the same text again (four-space indentation, properties in
their order: the text is `JSON.stringify(accounts, null, 4)`). -/
theorem C5_save_load_round_trip (accounts : List Account) (d : Disk)
    (hw : d.writable = true) :
    ∃ d1, saveAccounts d (JSON.arr (accounts.map Account.toJSON)) = Except.ok d1 ∧
      d1.content = some (JSON.stringify (JSON.arr (accounts.map Account.toJSON))) ∧
      loadAccounts d1 = Except.ok (JSON.arr (accounts.map Account.toJSON)) ∧
      ∀ loaded, loadAccounts d1 = Except.ok loaded →
        ∃ d2, saveAccounts d1 loaded = Except.ok d2 ∧ d2.content = d1.content := by
  have hp : JSON.plain (JSON.arr (accounts.map Account.toJSON)) = true := by
    rw [JSON.plain]
    exact plainItems_map_toJSON accounts
  obtain ⟨h1, h2⟩ := loadAccounts_saveAccounts d _ hw hp
  refine ⟨_, h1, rfl, h2, ?_⟩
  intro loaded hl
  rw [h2] at hl
  cases hl
  exact ⟨_, (loadAccounts_saveAccounts _ _ rfl hp).1, rfl⟩

/-- C5 (witness): the vault of the example wallet, with the text written. -/
theorem C5_witness :
    (⟨none, true⟩ : Disk).writable = true ∧
      JSON.stringify (JSON.arr ([exampleWallet].map Account.toJSON)) = exampleVaultText ∧
      ∃ d1, saveAccounts ⟨none, true⟩ (JSON.arr ([exampleWallet].map Account.toJSON)) =
          Except.ok d1 ∧
        d1.content = some (JSON.stringify (JSON.arr ([exampleWallet].map Account.toJSON))) ∧
        loadAccounts d1 = Except.ok (JSON.arr ([exampleWallet].map Account.toJSON)) ∧
        ∀ loaded, loadAccounts d1 = Except.ok loaded →
          ∃ d2, saveAccounts d1 loaded = Except.ok d2 ∧ d2.content = d1.content :=
  ⟨rfl, rfl, C5_save_load_round_trip [exampleWallet] ⟨none, true⟩ rfl⟩

/-! # Creating a wallet -/

/-- The prompt for the name is repeated over the blank entries and returns
the first entry that is not blank, trimmed. -/
theorem askForName_append (blanks : List JSString) (value : JSString) (rest : List JSString)
    (hblank : ∀ b ∈ blanks, (trim b).length = 0) (hvalue : (trim value).length ≠ 0) :
    askForName (blanks ++ value :: rest) = some (trim value, rest) := by
  induction blanks with
  | nil => rw [List.nil_append, askForName, if_neg hvalue]
  | cons b bs ih =>
    rw [List.cons_append, askForName, if_pos (hblank b (List.mem_cons_self _ _))]
    exact ih fun x hx => hblank x (List.mem_cons_of_mem _ hx)

/-- The prompt for the password is repeated over the mismatched pairs and
returns the first password that was confirmed. -/
theorem askForPassword_append (mismatches : List (JSString × JSString)) (password : JSString)
    (rest : List (JSString × JSString)) (hmis : ∀ p ∈ mismatches, p.1 ≠ p.2) :
    askForPassword (mismatches ++ (password, password) :: rest) = some (password, rest) := by
  induction mismatches with
  | nil => rw [List.nil_append, askForPassword, if_neg (fun h => h rfl)]
  | cons p ps ih =>
    obtain ⟨p1, p2⟩ := p
    rw [List.cons_append, askForPassword, if_pos (hmis (p1, p2) (List.mem_cons_self _ _))]
    exact ih fun x hx => hmis x (List.mem_cons_of_mem _ hx)

/-- A text without a lone surrogate has a UTF-8 encoding. -/
theorem utf8Parse_ok (s : JSString) (h : isWellFormed s = true) :
    ∃ bytes, Crypto.utf8Parse s = Except.ok bytes := by
  induction s using Crypto.utf8Parse.induct with
  | case1 => exact ⟨[], rfl⟩
  | case2 u hu =>
    simp [isWellFormed, hu] at h
  | case3 u hu l us1 hl ih =>
    have h1 : isWellFormed us1 = true := by
      simpa [isWellFormed, hu, hl] using h
    obtain ⟨bytes, hb⟩ := ih h1
    rw [Crypto.utf8Parse]
    simp only [hu, hl, if_true, hb, Crypto.prepend]
    exact ⟨_, rfl⟩
  | case4 u hu l us1 hl =>
    simp [isWellFormed, hu, hl] at h
  | case5 u us hu hl =>
    unfold isWellFormed at h
    simp [hu, hl] at h
  | case6 u us hu hl ih =>
    have h1 : isWellFormed us = true := by
      unfold isWellFormed at h
      simpa [hu, hl] using h
    obtain ⟨bytes, hb⟩ := ih h1
    rw [Crypto.utf8Parse.eq_def]
    simp only [hu, hl, if_false, hb, Crypto.prepend, Bool.false_eq_true]
    exact ⟨_, rfl⟩

/-- Encrypting a text without a lone surrogate under a password without a
lone surrogate returns a text. -/
theorem encryptWithAES_ok (cs : CipherSuite) (salt : List Nat) (password data : JSString)
    (hp : isWellFormed password = true) (hd : isWellFormed data = true) :
    ∃ encrypted, encryptWithAES cs salt password data = Except.ok encrypted := by
  obtain ⟨message, hm⟩ := utf8Parse_ok data hd
  obtain ⟨passphrase, hpp⟩ := utf8Parse_ok password hp
  unfold encryptWithAES
  rw [hm]
  simp only [hpp]
  exact ⟨_, rfl⟩

/-- What `loadAccounts` returns has the properties of every object in
enumeration order. -/
theorem regular_of_loadAccounts (d : Disk) (v : JSON) (h : loadAccounts d = Except.ok v) :
    JSON.regular v = true := by
  unfold loadAccounts tryCatch at h
  cases hr : readFileSync d with
  | error e =>
    rw [hr] at h
    cases h
    rfl
  | ok text =>
    rw [hr] at h
    simp only at h
    cases hp : JSON.parse text with
    | error e =>
      rw [hp] at h
      cases h
      rfl
    | ok v0 =>
      rw [hp] at h
      cases h
      exact JSON.regular_of_parse text v hp

/-- C4: on a writable vault file whose loaded value is an array in which
every number is finite and not `-0`, with a derived private key that has no
lone surrogate, an operator who after any number of blank entries enters a
name that is not blank, and after any number of mismatched pairs a password
(without a lone surrogate) and its confirmation, `createWallet` completes:
it returns the record with the trimmed name entered, the derived address and
public key, and the derived private key encrypted under the entered password;
and `loadAccounts` afterwards returns the array it returned before with that
record appended at the end (so every earlier record is there, unchanged and
in its place, and the length has grown by one). -/
theorem C4_createWallet_appends_record (cs : CipherSuite) (script : CreateScript) (w : World)
    (blanks restNames : List JSString) (value : JSString)
    (mismatches restPasswords : List (JSString × JSString)) (password : JSString)
    (before : List JSON)
    (hnames : script.names = blanks ++ value :: restNames)
    (hblank : ∀ b ∈ blanks, (trim b).length = 0)
    (hvalue : (trim value).length ≠ 0)
    (hpasswords : script.passwords = mismatches ++ (password, password) :: restPasswords)
    (hmis : ∀ p ∈ mismatches, p.1 ≠ p.2)
    (hpassword : isWellFormed password = true)
    (hkey : isWellFormed script.account.privateKey = true)
    (hload : loadAccounts w.disk = Except.ok (JSON.arr before))
    (hnumbers : JSON.roundTripsItems before = true)
    (hwritable : w.disk.writable = true) :
    ∃ encrypted wallet w1,
      encryptWithAES cs script.salt password script.account.privateKey =
        Except.ok encrypted ∧
      wallet = { address := script.account.address
                 privateKey := encrypted
                 publicKey := script.account.publicKey
                 name := trim value } ∧
      createWallet cs script w = Except.ok (wallet, w1) ∧
      w1 = { w with
             disk := ⟨some (JSON.stringify (JSON.arr (before ++ [wallet.toJSON]))), true⟩
             console := w.console ++ [ConsoleEvent.log [js "Wallet created successfully."]] } ∧
      loadAccounts w1.disk = Except.ok (JSON.arr (before ++ [wallet.toJSON])) ∧
      (before ++ [wallet.toJSON]).length = before.length + 1 := by
  obtain ⟨encrypted, he⟩ := encryptWithAES_ok cs script.salt password
    script.account.privateKey hpassword hkey
  have hn := askForName_append blanks value restNames hblank hvalue
  have hpw := askForPassword_append mismatches password restPasswords hmis
  rw [← hnames] at hn
  rw [← hpasswords] at hpw
  have hplain : JSON.plain (JSON.arr (before ++ [Account.toJSON
      ⟨script.account.address, encrypted, script.account.publicKey, trim value⟩])) = true := by
    have hr := regular_of_loadAccounts _ _ hload
    rw [JSON.regular] at hr
    rw [JSON.plain]
    apply plainItems_append _ _ (JSON.plainItems_of_regular before hr hnumbers)
    rw [JSON.plainItems, plain_toJSON]
    rfl
  obtain ⟨h1, h2⟩ := loadAccounts_saveAccounts w.disk _ hwritable hplain
  refine ⟨encrypted, _, _, he, rfl, ?_, rfl, h2, by simp⟩
  simp only [createWallet, hn, hpw, he, hload, expectInput, orThrow, accountsPush, h1]

/-- C4 (witness): the operator of `exampleCreate` adds the wallet `Alice` to
the vault that holds the example wallet, after a blank name and a mismatched
password pair. -/
theorem C4_witness :
    exampleCreate.names = [js "  "] ++ js " Alice " :: [] ∧
      exampleCreate.passwords =
        [(js "secret1", js "secret2")] ++ (js "secret1", js "secret1") :: [] ∧
      loadAccounts oneWalletWorld.disk = Except.ok (JSON.arr [exampleWallet.toJSON]) ∧
      createWallet exampleSuite exampleCreate oneWalletWorld =
        Except.ok (aliceWallet,
          { oneWalletWorld with
            disk := ⟨some (JSON.stringify
              (JSON.arr [exampleWallet.toJSON, aliceWallet.toJSON])), true⟩
            console := [ConsoleEvent.log [js "Wallet created successfully."]] }) ∧
      ∃ encrypted wallet w1,
        encryptWithAES exampleSuite exampleCreate.salt (js "secret1")
          exampleCreate.account.privateKey = Except.ok encrypted ∧
        wallet = { address := exampleCreate.account.address
                   privateKey := encrypted
                   publicKey := exampleCreate.account.publicKey
                   name := trim (js " Alice ") } ∧
        createWallet exampleSuite exampleCreate oneWalletWorld = Except.ok (wallet, w1) ∧
        w1 = { oneWalletWorld with
               disk := ⟨some (JSON.stringify
                 (JSON.arr ([exampleWallet.toJSON] ++ [wallet.toJSON]))), true⟩
               console := oneWalletWorld.console ++
                 [ConsoleEvent.log [js "Wallet created successfully."]] } ∧
        loadAccounts w1.disk =
          Except.ok (JSON.arr ([exampleWallet.toJSON] ++ [wallet.toJSON])) ∧
        ([exampleWallet.toJSON] ++ [wallet.toJSON]).length =
          [exampleWallet.toJSON].length + 1 :=
  ⟨rfl, rfl, rfl, rfl,
    C4_createWallet_appends_record exampleSuite exampleCreate oneWalletWorld
      [js "  "] [] (js " Alice ") [(js "secret1", js "secret2")] [] (js "secret1")
      [exampleWallet.toJSON] rfl
      (fun b hb => by
        rw [List.mem_singleton.1 hb]
        rfl)
      (by decide)
      rfl
      (fun p hp => by
        rw [List.mem_singleton.1 hp]
        decide)
      rfl rfl rfl rfl rfl⟩

/-- C4 (counterexample): the vault `[1e400]` loads as an array holding
`Infinity`; `createWallet` completes on it and writes `null` for that element,
so that `loadAccounts` afterwards returns `null` where it returned `Infinity`
before: not the earlier sequence with one record appended. -/
theorem C4_overflowing_number_becomes_null :
    loadAccounts overflowWorld.disk = Except.ok (JSON.arr [JSON.num (JSNumber.inf false)]) ∧
      JSON.stringify (JSON.arr [JSON.num (JSNumber.inf false)]) = js "[\n    null\n]" ∧
      createWallet exampleSuite exampleCreate overflowWorld =
        Except.ok (aliceWallet,
          { overflowWorld with
            disk := ⟨some (JSON.stringify
              (JSON.arr [JSON.num (JSNumber.inf false), aliceWallet.toJSON])), true⟩
            console := [ConsoleEvent.log [js "Wallet created successfully."]] }) ∧
      loadAccounts ⟨some (JSON.stringify
          (JSON.arr [JSON.num (JSNumber.inf false), aliceWallet.toJSON])), true⟩ =
        Except.ok (JSON.arr [JSON.null, aliceWallet.toJSON]) ∧
      JSON.arr [JSON.null, aliceWallet.toJSON] ≠
        JSON.arr ([JSON.num (JSNumber.inf false)] ++ [aliceWallet.toJSON]) :=
  ⟨rfl, rfl, rfl, rfl, fun h => JSON.noConfusion (List.cons.inj (JSON.arr.inj h)).1⟩

end TronGridCli

namespace TronGridCli

namespace Crypto

open JSON (isHighSurrogate isLowSurrogate)

/-! # `decryptWithAES` inverts `encryptWithAES` -/

/-! ## UTF-8 -/

theorem isCont_iff (b : Nat) : isCont b = true ↔ 0x80 ≤ b ∧ b ≤ 0xBF := by
  simp [isCont]

/-- Decoding the encoding of a code point that is not a surrogate and lies in
the basic plane yields the code point as one unit. -/
theorem utf8DecodePoint_encode_bmp (u : Nat) (rest : List Nat) (hu : u < 65536)
    (hs : ¬ (0xD800 ≤ u ∧ u ≤ 0xDFFF)) :
    utf8DecodePoint (utf8EncodePoint u ++ rest) = some ([u], rest) := by
  unfold utf8EncodePoint
  split_ifs with h1 h2
  · simp [utf8DecodePoint, h1]
  · have c1 : isCont (0x80 + u % 64) = true := (isCont_iff _).2 (by omega)
    have e0 : ¬ 0xC0 + u / 64 < 0x80 := by omega
    have e1 : 0xC2 ≤ 0xC0 + u / 64 ∧ 0xC0 + u / 64 ≤ 0xDF := by omega
    have e2 : (0xC0 + u / 64 - 0xC0) * 64 + (0x80 + u % 64 - 0x80) = u := by omega
    simp only [utf8DecodePoint, List.cons_append, List.nil_append, e0, e1, c1, e2, if_true,
      if_false, and_self]
  · have c1 : isCont (0x80 + u / 64 % 64) = true := (isCont_iff _).2 (by omega)
    have c2 : isCont (0x80 + u % 64) = true := (isCont_iff _).2 (by omega)
    have e0 : ¬ 0xE0 + u / 4096 < 0x80 := by omega
    have e1 : ¬ (0xC2 ≤ 0xE0 + u / 4096 ∧ 0xE0 + u / 4096 ≤ 0xDF) := by omega
    have e2 : 0xE0 ≤ 0xE0 + u / 4096 ∧ 0xE0 + u / 4096 ≤ 0xEF := by omega
    have e3 : (0xE0 + u / 4096 - 0xE0) * 4096 + (0x80 + u / 64 % 64 - 0x80) * 64 +
        (0x80 + u % 64 - 0x80) = u := by omega
    have e4 : 0x800 ≤ u := by omega
    simp only [utf8DecodePoint, List.cons_append, List.nil_append, e0, e1, e2, c1, c2, e3, e4,
      hs, if_true, if_false, and_self, not_false_eq_true]

/-- Decoding the encoding of the code point of a surrogate pair yields the
pair. -/
theorem utf8DecodePoint_encode_pair (u l : Nat) (rest : List Nat)
    (hu : 0xD800 ≤ u ∧ u ≤ 0xDBFF) (hl : 0xDC00 ≤ l ∧ l ≤ 0xDFFF) :
    utf8DecodePoint
        (utf8EncodePoint (0x10000 + (u - 0xD800) * 0x400 + (l - 0xDC00)) ++ rest) =
      some ([u, l], rest) := by
  generalize hcp : 0x10000 + (u - 0xD800) * 0x400 + (l - 0xDC00) = cp
  have h1 : 0x10000 ≤ cp ∧ cp ≤ 0x10FFFF := by omega
  unfold utf8EncodePoint
  rw [if_neg (by omega), if_neg (by omega), if_neg (by omega)]
  have c1 : isCont (0x80 + cp / 4096 % 64) = true := (isCont_iff _).2 (by omega)
  have c2 : isCont (0x80 + cp / 64 % 64) = true := (isCont_iff _).2 (by omega)
  have c3 : isCont (0x80 + cp % 64) = true := (isCont_iff _).2 (by omega)
  have e0 : ¬ 0xF0 + cp / 262144 < 0x80 := by omega
  have e1 : ¬ (0xC2 ≤ 0xF0 + cp / 262144 ∧ 0xF0 + cp / 262144 ≤ 0xDF) := by omega
  have e2 : ¬ (0xE0 ≤ 0xF0 + cp / 262144 ∧ 0xF0 + cp / 262144 ≤ 0xEF) := by omega
  have e3 : 0xF0 ≤ 0xF0 + cp / 262144 ∧ 0xF0 + cp / 262144 ≤ 0xF4 := by omega
  have e4 : (0xF0 + cp / 262144 - 0xF0) * 262144 + (0x80 + cp / 4096 % 64 - 0x80) * 4096 +
      (0x80 + cp / 64 % 64 - 0x80) * 64 + (0x80 + cp % 64 - 0x80) = cp := by omega
  have e5 : 0xD800 + (cp - 0x10000) / 0x400 = u := by omega
  have e6 : 0xDC00 + (cp - 0x10000) % 0x400 = l := by omega
  simp only [utf8DecodePoint, List.cons_append, List.nil_append, e0, e1, e2, e3, c1, c2, c3,
    e4, e5, e6, h1, if_true, if_false, and_self]

theorem utf8EncodePoint_ne_nil (cp : Nat) : ∃ b bs, utf8EncodePoint cp = b :: bs := by
  unfold utf8EncodePoint
  split_ifs
  · exact ⟨_, _, rfl⟩
  · exact ⟨_, _, rfl⟩
  · exact ⟨_, _, rfl⟩
  · exact ⟨_, _, rfl⟩

/-- One step of the decoding loop over an encoded code point. -/
theorem utf8StringifyLoop_step (fuel cp : Nat) (units rest : List Nat)
    (h : utf8DecodePoint (utf8EncodePoint cp ++ rest) = some (units, rest)) :
    utf8StringifyLoop (fuel + 1) (utf8EncodePoint cp ++ rest) =
      prependUnits units (utf8StringifyLoop fuel rest) := by
  obtain ⟨b, bs, hb⟩ := utf8EncodePoint_ne_nil cp
  rw [hb, List.cons_append] at h ⊢
  rw [utf8StringifyLoop, h]

theorem isBytes_utf8EncodePoint (cp : Nat) (h : cp ≤ 0x10FFFF) :
    isBytes (utf8EncodePoint cp) = true := by
  unfold utf8EncodePoint isBytes
  split_ifs <;> simp <;> omega

theorem isBytes_append (a b : List Nat) (ha : isBytes a = true) (hb : isBytes b = true) :
    isBytes (a ++ b) = true := by
  simp only [isBytes, List.all_append, Bool.and_eq_true] at *
  exact ⟨ha, hb⟩

/-- A well-formed string is encoded without error, into bytes that decode to
the string, whatever fuel at least the number of bytes the loop is given. -/
theorem utf8_round_trip_loop (s : JSString) (h16 : isUtf16 s = true)
    (hwf : isWellFormed s = true) :
    ∃ bytes, utf8Parse s = Except.ok bytes ∧ isBytes bytes = true ∧
      ∀ fuel, bytes.length ≤ fuel → utf8StringifyLoop fuel bytes = Except.ok s := by
  induction s using utf8Parse.induct with
  | case1 =>
    refine ⟨[], rfl, rfl, ?_⟩
    intro fuel _
    cases fuel <;> rfl
  | case2 u hu => simp [isWellFormed, hu] at hwf
  | case3 u hu l us hl ih =>
    have h16' : isUtf16 us = true := by
      simp only [isUtf16, List.all_cons, Bool.and_eq_true] at h16 ⊢
      exact h16.2.2
    have hwf' : isWellFormed us = true := by
      simp only [isWellFormed, hu, hl, if_true, Bool.true_and] at hwf
      exact hwf
    obtain ⟨bytes, h1, h2, h3⟩ := ih h16' hwf'
    have hu' : 0xD800 ≤ u ∧ u ≤ 0xDBFF := by
      simpa [isHighSurrogate] using hu
    have hl' : 0xDC00 ≤ l ∧ l ≤ 0xDFFF := by
      simpa [isLowSurrogate] using hl
    refine ⟨utf8EncodePoint (0x10000 + (u - 0xD800) * 0x400 + (l - 0xDC00)) ++ bytes, ?_, ?_, ?_⟩
    · simp only [utf8Parse, hu, hl, if_true, h1, prepend]
    · exact isBytes_append _ _ (isBytes_utf8EncodePoint _ (by omega)) h2
    · intro fuel hf
      obtain ⟨b, bs, hb⟩ := utf8EncodePoint_ne_nil
        (0x10000 + (u - 0xD800) * 0x400 + (l - 0xDC00))
      obtain ⟨f, rfl⟩ : ∃ f, fuel = f + 1 :=
        ⟨fuel - 1, by rw [hb] at hf; simp only [List.length_append, List.length_cons] at hf; omega⟩
      rw [utf8StringifyLoop_step f _ _ _ (utf8DecodePoint_encode_pair u l bytes hu' hl'),
        h3 f (by rw [hb] at hf; simp only [List.length_append, List.length_cons] at hf; omega)]
      rfl
  | case4 u hu l us hl => simp [isWellFormed, hu, hl] at hwf
  | case5 u us hu hl =>
    rw [isWellFormed.eq_def] at hwf
    simp [hu, hl] at hwf
  | case6 u us hu hl ih =>
    have h16' : isUtf16 us = true ∧ u < 65536 := by
      simp only [isUtf16, List.all_cons, Bool.and_eq_true, decide_eq_true_eq] at h16 ⊢
      exact ⟨h16.2, h16.1⟩
    have hwf' : isWellFormed us = true := by
      rw [isWellFormed.eq_def] at hwf
      simpa [hu, hl] using hwf
    obtain ⟨bytes, h1, h2, h3⟩ := ih h16'.1 hwf'
    have hs : ¬ (0xD800 ≤ u ∧ u ≤ 0xDFFF) := by
      simp only [isHighSurrogate, isLowSurrogate, Bool.and_eq_true, decide_eq_true_eq] at hu hl
      omega
    refine ⟨utf8EncodePoint u ++ bytes, ?_, ?_, ?_⟩
    · rw [utf8Parse.eq_def]
      simp only [hu, hl, if_false, h1, prepend, Bool.false_eq_true]
    · exact isBytes_append _ _ (isBytes_utf8EncodePoint _ (by omega)) h2
    · intro fuel hf
      obtain ⟨b, bs, hb⟩ := utf8EncodePoint_ne_nil u
      obtain ⟨f, rfl⟩ : ∃ f, fuel = f + 1 :=
        ⟨fuel - 1, by rw [hb] at hf; simp only [List.length_append, List.length_cons] at hf; omega⟩
      rw [utf8StringifyLoop_step f _ _ _ (utf8DecodePoint_encode_bmp u bytes h16'.2 hs),
        h3 f (by rw [hb] at hf; simp only [List.length_append, List.length_cons] at hf; omega)]
      rfl

/-- A well-formed string is encoded without error, into bytes that decode to
the string. -/
theorem utf8_round_trip (s : JSString) (h16 : isUtf16 s = true) (hwf : isWellFormed s = true) :
    ∃ bytes, utf8Parse s = Except.ok bytes ∧ isBytes bytes = true ∧
      utf8Stringify bytes = Except.ok s := by
  obtain ⟨bytes, h1, h2, h3⟩ := utf8_round_trip_loop s h16 hwf
  exact ⟨bytes, h1, h2, h3 _ (Nat.le_refl _)⟩

end Crypto

end TronGridCli

namespace TronGridCli

namespace Crypto

/-! ## Base64 -/

theorem b64Val_b64Char (n : Nat) (h : n < 64) : b64Val (b64Char n) = n := by
  unfold b64Char b64Val
  split_ifs <;> omega

theorem b64Char_ne_pad (n : Nat) : b64Char n ≠ 0x3D := by
  unfold b64Char
  split_ifs <;> omega

theorem takeWhile_b64Char (n : Nat) (l : List Nat) :
    List.takeWhile (fun c => decide (c ≠ 0x3D)) (b64Char n :: l) =
      b64Char n :: List.takeWhile (fun c => decide (c ≠ 0x3D)) l := by
  rw [List.takeWhile_cons]
  simp [b64Char_ne_pad n]

theorem takeWhile_pad (l : List Nat) :
    List.takeWhile (fun c => decide (c ≠ 0x3D)) (0x3D :: l) = [] := by
  rw [List.takeWhile_cons]
  simp

/-- Base64 decoding inverts Base64 encoding on bytes. -/
theorem base64Parse_base64Stringify (bytes : List Nat) (hb : isBytes bytes = true) :
    base64Parse (base64Stringify bytes) = bytes := by
  unfold base64Parse
  induction bytes using base64Stringify.induct with
  | case1 a b c rest ih =>
    simp only [isBytes, List.all_cons, Bool.and_eq_true, decide_eq_true_eq] at hb
    have ih' := ih (by simp only [isBytes]; exact hb.2.2.2)
    rw [base64Stringify, takeWhile_b64Char, takeWhile_b64Char, takeWhile_b64Char,
      takeWhile_b64Char, base64ParseLoop, ih']
    rw [b64Val_b64Char _ (by omega), b64Val_b64Char _ (by omega), b64Val_b64Char _ (by omega),
      b64Val_b64Char _ (by omega)]
    congr 1
    · omega
    · congr 1
      · omega
      · congr 1
        omega
  | case2 a b =>
    simp only [isBytes, List.all_cons, Bool.and_eq_true, decide_eq_true_eq] at hb
    rw [base64Stringify, takeWhile_b64Char, takeWhile_b64Char, takeWhile_b64Char,
      takeWhile_pad, base64ParseLoop]
    rw [b64Val_b64Char _ (by omega), b64Val_b64Char _ (by omega), b64Val_b64Char _ (by omega)]
    congr 1
    · omega
    · congr 1
      omega
  | case3 a =>
    simp only [isBytes, List.all_cons, Bool.and_eq_true, decide_eq_true_eq] at hb
    rw [base64Stringify, takeWhile_b64Char, takeWhile_b64Char, takeWhile_pad, base64ParseLoop]
    rw [b64Val_b64Char _ (by omega), b64Val_b64Char _ (by omega)]
    congr 1
    omega
  | case4 => rfl

/-! ## Padding and blocks -/

theorem isBytes_replicate (n b : Nat) (h : b < 256) : isBytes (List.replicate n b) = true := by
  simp only [isBytes, List.all_eq_true, decide_eq_true_eq]
  intro x hx
  rw [(List.mem_replicate.mp hx).2]
  exact h

theorem pkcs7Pad_length (data : List Nat) :
    (pkcs7Pad data).length = 16 * (data.length / 16 + 1) := by
  simp only [pkcs7Pad, List.length_append, List.length_replicate]
  omega

theorem isBytes_pkcs7Pad (data : List Nat) (h : isBytes data = true) :
    isBytes (pkcs7Pad data) = true :=
  isBytes_append _ _ h (isBytes_replicate _ _ (by omega))

/-- Removing the padding from the padded message yields the message. -/
theorem pkcs7Unpad_pkcs7Pad (data : List Nat) :
    pkcs7Unpad (pkcs7Pad data) (pkcs7Pad data).length = data := by
  have hlen := pkcs7Pad_length data
  unfold pkcs7Unpad
  rw [if_neg (by omega)]
  have hidx : ((pkcs7Pad data).length - 1) / 4 * 4 + 3 = (pkcs7Pad data).length - 1 := by
    omega
  have hget : (pkcs7Pad data).getD ((pkcs7Pad data).length - 1) 0 = 16 - data.length % 16 := by
    have hl : (pkcs7Pad data).length = data.length + (16 - data.length % 16) := by
      simp [pkcs7Pad]
    rw [hl]
    unfold pkcs7Pad
    rw [List.getD_eq_getElem?_getD, List.getElem?_append_right (by omega)]
    rw [List.getElem?_replicate]
    rw [if_pos (by omega)]
    rfl
  rw [hidx, hget]
  have hl : (pkcs7Pad data).length - (16 - data.length % 16) = data.length := by
    have : (pkcs7Pad data).length = data.length + (16 - data.length % 16) := by
      simp [pkcs7Pad]
    omega
  rw [hl]
  simp [pkcs7Pad]

end Crypto

end TronGridCli

namespace TronGridCli

namespace Crypto

/-! ## XOR of blocks -/

theorem xorBlock_length (a b : List Nat) : (xorBlock a b).length = a.length := by
  induction a generalizing b with
  | nil => rfl
  | cons x xs ih =>
    cases b with
    | nil => rfl
    | cons y ys => simp [xorBlock, ih]

theorem isBytes_cons (x : Nat) (xs : List Nat) :
    isBytes (x :: xs) = true ↔ x < 256 ∧ isBytes xs = true := by
  simp [isBytes]

theorem isBytes_xorBlock (a b : List Nat) (ha : isBytes a = true) (hb : isBytes b = true) :
    isBytes (xorBlock a b) = true := by
  induction a generalizing b with
  | nil => rfl
  | cons x xs ih =>
    cases b with
    | nil => exact ha
    | cons y ys =>
      rw [isBytes_cons] at ha hb
      rw [xorBlock, isBytes_cons]
      exact ⟨Nat.xor_lt_two_pow (n := 8) ha.1 hb.1, ih ys ha.2 hb.2⟩

theorem xorBlock_xorBlock (a b : List Nat) : xorBlock (xorBlock a b) b = a := by
  induction a generalizing b with
  | nil => rfl
  | cons x xs ih =>
    cases b with
    | nil => rfl
    | cons y ys => rw [xorBlock, xorBlock, Nat.xor_cancel_right, ih]

theorem isBlock_iff (b : List Nat) : isBlock b = true ↔ b.length = 16 ∧ isBytes b = true := by
  simp [isBlock]

theorem isBlock_xorBlock (a b : List Nat) (ha : isBlock a = true) (hb : isBytes b = true) :
    isBlock (xorBlock a b) = true := by
  rw [isBlock_iff] at ha ⊢
  exact ⟨by rw [xorBlock_length]; exact ha.1, isBytes_xorBlock a b ha.2 hb⟩

/-! ## Blocks -/

theorem isBytes_take (n : Nat) (l : List Nat) (h : isBytes l = true) :
    isBytes (l.take n) = true := by
  simp only [isBytes, List.all_eq_true, decide_eq_true_eq] at h ⊢
  intro x hx
  exact h x (List.mem_of_mem_take hx)

theorem isBytes_drop (n : Nat) (l : List Nat) (h : isBytes l = true) :
    isBytes (l.drop n) = true := by
  simp only [isBytes, List.all_eq_true, decide_eq_true_eq] at h ⊢
  intro x hx
  exact h x (List.mem_of_mem_drop hx)

/-- A block followed by more data is the first of the blocks. -/
theorem blocks_append (fuel : Nat) (block rest : List Nat) (hb : block.length = 16) :
    blocks (fuel + 1) (block ++ rest) = block :: blocks fuel rest := by
  obtain ⟨x, xs, rfl⟩ : ∃ x xs, block = x :: xs := by
    cases block with
    | nil => simp at hb
    | cons x xs => exact ⟨x, xs, rfl⟩
  rw [List.cons_append, blocks]
  have h1 : List.take 16 (x :: (xs ++ rest)) = x :: xs := by
    rw [← List.cons_append, List.take_left' hb]
  have h2 : List.drop 16 (x :: (xs ++ rest)) = rest := by
    rw [← List.cons_append, List.drop_left' hb]
  rw [h1, h2, hb]
  simp

/-- A message of `16 * n` bytes splits into `n` blocks. -/
theorem blocks_flatten (n : Nat) :
    ∀ (data : List Nat) (fuel : Nat), data.length = 16 * n → n ≤ fuel →
      isBytes data = true →
      (blocks fuel data).flatten = data ∧ (∀ b ∈ blocks fuel data, isBlock b = true) := by
  induction n with
  | zero =>
    intro data fuel hl _ _
    have hd : data = [] := List.eq_nil_of_length_eq_zero (by omega)
    subst hd
    cases fuel <;> simp [blocks]
  | succ n ih =>
    intro data fuel hl hf hb
    obtain ⟨f, rfl⟩ : ∃ f, fuel = f + 1 := ⟨fuel - 1, by omega⟩
    have hsplit : data = data.take 16 ++ data.drop 16 := (List.take_append_drop 16 data).symm
    have htake : (data.take 16).length = 16 := by
      rw [List.length_take]
      omega
    have hdrop : (data.drop 16).length = 16 * n := by
      rw [List.length_drop]
      omega
    obtain ⟨h1, h2⟩ := ih (data.drop 16) f hdrop (by omega) (isBytes_drop _ _ hb)
    rw [hsplit, blocks_append f _ _ htake]
    constructor
    · rw [List.flatten_cons, h1]
    · intro b hmem
      rcases List.mem_cons.mp hmem with h0 | h0
      · subst h0
        exact (isBlock_iff _).2 ⟨htake, isBytes_take _ _ hb⟩
      · exact h2 b h0

/-! ## CBC -/

theorem flatten_length_blocks (message : List (List Nat))
    (hm : ∀ b ∈ message, isBlock b = true) : message.flatten.length = 16 * message.length := by
  induction message with
  | nil => rfl
  | cons b rest ih =>
    rw [List.flatten_cons, List.length_append, List.length_cons,
      ih (fun c hc => hm c (List.mem_cons_of_mem _ hc)),
      ((isBlock_iff _).1 (hm b (List.mem_cons_self _ _))).1]
    omega

/-- CBC decryption of the blocks of the CBC encryption yields the message;
the ciphertext has the length of the message and consists of bytes. -/
theorem cbcDecrypt_cbcEncrypt (cs : CipherSuite) (hcs : cs.Sound) (key : List Nat)
    (hkey : isBytes key = true) (message : List (List Nat)) :
    ∀ (prev : List Nat) (fuel : Nat), isBytes prev = true → message.length ≤ fuel →
      (∀ b ∈ message, isBlock b = true) →
      (cbcEncrypt cs key prev message).length = message.flatten.length ∧
        isBytes (cbcEncrypt cs key prev message) = true ∧
        cbcDecrypt cs key prev (blocks fuel (cbcEncrypt cs key prev message)) =
          message.flatten := by
  induction message with
  | nil =>
    intro prev fuel _ _ _
    refine ⟨rfl, rfl, ?_⟩
    cases fuel <;> rfl
  | cons b rest ih =>
    intro prev fuel hprev hf hm
    obtain ⟨f, rfl⟩ : ∃ f, fuel = f + 1 :=
      ⟨fuel - 1, by simp only [List.length_cons] at hf; omega⟩
    have hb : isBlock b = true := hm b (List.mem_cons_self _ _)
    have hx := hcs.2 key (xorBlock b prev) hkey (isBlock_xorBlock b prev hb hprev)
    have hxb := (isBlock_iff _).1 hx.1
    obtain ⟨h1, h2, h3⟩ := ih (cs.encryptBlock key (xorBlock b prev)) f hxb.2
      (by simp only [List.length_cons] at hf; omega)
      (fun c hc => hm c (List.mem_cons_of_mem _ hc))
    rw [cbcEncrypt]
    refine ⟨?_, isBytes_append _ _ hxb.2 h2, ?_⟩
    · rw [List.length_append, h1, hxb.1, List.flatten_cons, List.length_append,
        ((isBlock_iff _).1 hb).1]
    · rw [blocks_append f _ _ hxb.1, cbcDecrypt, hx.2, xorBlock_xorBlock, h3,
        List.flatten_cons]

end Crypto

end TronGridCli

namespace TronGridCli

open Crypto

/-- The OpenSSL format is read back: salt and ciphertext. -/
theorem openSSLParse_openSSLStringify (salt ciphertext : List Nat) (hs : salt.length = 8)
    (hsb : isBytes salt = true) (hc : isBytes ciphertext = true) :
    openSSLParse (openSSLStringify salt ciphertext) = (some salt, ciphertext) := by
  have hb : isBytes (saltedMagic ++ salt ++ ciphertext) = true :=
    isBytes_append _ _ (isBytes_append _ _ (by decide) hsb) hc
  unfold openSSLParse openSSLStringify
  rw [base64Parse_base64Stringify _ hb]
  have h1 : List.take 8 (saltedMagic ++ salt ++ ciphertext) = saltedMagic := by
    rw [List.append_assoc, List.take_left' (by rfl)]
  have h2 : List.drop 8 (saltedMagic ++ salt ++ ciphertext) = salt ++ ciphertext := by
    rw [List.append_assoc, List.drop_left' (by rfl)]
  have h3 : List.drop 16 (saltedMagic ++ salt ++ ciphertext) = ciphertext := by
    have : (saltedMagic ++ salt).length = 16 := by
      rw [List.length_append, hs]
      rfl
    rw [List.drop_left' this]
  simp only [h1, h2, h3, if_true]
  rw [List.take_left' hs]

/-- C6: for every password and every plaintext that are strings of the
language without lone surrogates, and every salt of 8 bytes, `encryptWithAES`
returns a text, and `decryptWithAES` with the same password returns the
plaintext from it (the primitives being sound: the block decryption undoes
the block encryption). -/
theorem C6_decrypt_inverts_encrypt (cs : CipherSuite) (hcs : cs.Sound)
    (salt random : List Nat) (password data : JSString)
    (hsalt : salt.length = 8 ∧ isBytes salt = true)
    (hp : isUtf16 password = true ∧ isWellFormed password = true)
    (hd : isUtf16 data = true ∧ isWellFormed data = true) :
    ∃ encrypted, encryptWithAES cs salt password data = Except.ok encrypted ∧
      decryptWithAES cs random password encrypted = Except.ok data := by
  obtain ⟨message, hm1, hm2, hm3⟩ := utf8_round_trip data hd.1 hd.2
  obtain ⟨passphrase, hp1, hp2, _⟩ := utf8_round_trip password hp.1 hp.2
  obtain ⟨hk1, hk2⟩ := hcs.1 passphrase salt hp2 hsalt.2
  have hpadlen := pkcs7Pad_length message
  obtain ⟨hb1, hb2⟩ := blocks_flatten _ (pkcs7Pad message) (pkcs7Pad message).length hpadlen
    (by omega) (isBytes_pkcs7Pad message hm2)
  have hflat := flatten_length_blocks _ hb2
  have hlen : (cbcEncrypt cs (cs.kdf passphrase salt).1 (cs.kdf passphrase salt).2
      (blocks (pkcs7Pad message).length (pkcs7Pad message))).length =
      (pkcs7Pad message).length := by
    have h := (cbcDecrypt_cbcEncrypt cs hcs (cs.kdf passphrase salt).1 hk1
      (blocks (pkcs7Pad message).length (pkcs7Pad message)) (cs.kdf passphrase salt).2
      _ hk2 (Nat.le_refl _) hb2).1
    rw [h, hb1]
  obtain ⟨_, hc2, hc3⟩ := cbcDecrypt_cbcEncrypt cs hcs (cs.kdf passphrase salt).1 hk1
    (blocks (pkcs7Pad message).length (pkcs7Pad message)) (cs.kdf passphrase salt).2
    (pkcs7Pad message).length hk2 (by rw [hb1] at hflat; omega) hb2
  refine ⟨openSSLStringify salt
    (cbcEncrypt cs (cs.kdf passphrase salt).1 (cs.kdf passphrase salt).2
      (blocks (pkcs7Pad message).length (pkcs7Pad message))), ?_, ?_⟩
  · simp only [encryptWithAES, hm1, hp1]
  · unfold decryptWithAES
    rw [openSSLParse_openSSLStringify _ _ hsalt.1 hsalt.2 hc2]
    simp only [hp1, Option.getD_some]
    rw [hlen, hc3, hb1, pkcs7Unpad_pkcs7Pad, hm3]

theorem isBytes_reverse (l : List Nat) (h : isBytes l = true) : isBytes l.reverse = true := by
  simp only [isBytes, List.all_eq_true, decide_eq_true_eq] at h ⊢
  intro x hx
  exact h x (List.mem_reverse.mp hx)

/-- The cipher suite of the worked examples is sound. -/
theorem exampleSuite_sound : exampleSuite.Sound := by
  constructor
  · intro password salt hp hs
    exact ⟨isBytes_take _ _ (isBytes_append _ _ hp hs),
      isBytes_take _ _ (isBytes_append _ _ hs hp)⟩
  · intro key block hk hb
    have hx := isBlock_xorBlock block key hb hk
    rw [isBlock_iff] at hx
    constructor
    · rw [isBlock_iff]
      exact ⟨by
        show (xorBlock block key).reverse.length = 16
        rw [List.length_reverse]
        exact hx.1, isBytes_reverse _ hx.2⟩
    · show xorBlock (xorBlock block key).reverse.reverse key = block
      rw [List.reverse_reverse, xorBlock_xorBlock]

/-- C6 (witness): the private key `KEYY` under the password `pw` with the
salt 1, ..., 8, in the cipher suite of the worked examples. -/
theorem C6_witness :
    exampleSuite.Sound ∧
      encryptWithAES exampleSuite [1, 2, 3, 4, 5, 6, 7, 8] (js "pw") (js "KEYY") =
        Except.ok exampleWallet.privateKey ∧
      ∃ encrypted,
        encryptWithAES exampleSuite [1, 2, 3, 4, 5, 6, 7, 8] (js "pw") (js "KEYY") =
          Except.ok encrypted ∧
        decryptWithAES exampleSuite [] (js "pw") encrypted = Except.ok (js "KEYY") :=
  ⟨exampleSuite_sound, rfl,
    C6_decrypt_inverts_encrypt exampleSuite exampleSuite_sound [1, 2, 3, 4, 5, 6, 7, 8] []
      (js "pw") (js "KEYY") ⟨rfl, rfl⟩ ⟨rfl, rfl⟩ ⟨rfl, rfl⟩⟩

end TronGridCli
